import Mathlib

/-!
# asynchttpclient.h: a shallow embedding and its properties

The header `src/asynchttpclient.h` holds the URL decomposer (`UrlParser`), the
request builder, the response-header parser, the chunk decoder and the
coroutine pipeline of `CAsyncHttpClient`.  The definitions below follow the
C++ text function by function.

Conventions of the embedding:

* a `std::string` is a list of byte values (`Str`), a byte being a natural
  number; ASCII literals are written `bytes "..."`;
* `std::string::npos` is `none`;
* `size_t` and `unsigned long` are 64 bits wide: values are natural numbers and
  the places where the C++ arithmetic can wrap reduce modulo `2 ^ 64`;
* a read of the coroutine consumes the next entry of a script of I/O results; a
  script that runs out leaves the coroutine suspended (`Completion.suspended`);
* a loop of the C++ text that need not terminate takes a fuel argument, one
  unit per iteration, and yields `none` when the fuel runs out;
* a `std::map` with string keys is the list of its entries by ascending key;
* extraction from a `std::stringstream` follows C++11: a failed conversion to
  `int` stores 0, one out of range stores the nearest limit, both set `failbit`.
-/

namespace HttpClient

/-! ## Strings -/

/-- A `std::string`: the sequence of its bytes, each given by its numeric value. -/
abbrev Str := List Nat

/-- The bytes of an ASCII literal. -/
def bytes (s : String) : Str := s.toList.map Char.toNat

/-- The modulus of `size_t` and `unsigned long` arithmetic. -/
def SIZE_MOD : Nat := 2 ^ 64

/-- The constant `ULONG_MAX`. -/
def ULONG_MAX : Nat := 2 ^ 64 - 1

/-- The classification `std::isspace` of the classic locale: space, `\t`, `\n`, `\v`, `\f`, `\r`. -/
def isspace (c : Nat) : Bool := c == 32 || (decide (9 ≤ c) && decide (c ≤ 13))

/-- The conversion `std::tolower` of the classic locale. -/
def tolower (c : Nat) : Nat := if 65 ≤ c ∧ c ≤ 90 then c + 32 else c

/-- The conversion `std::toupper` of the classic locale. -/
def toupper (c : Nat) : Nat := if 97 ≤ c ∧ c ≤ 122 then c - 32 else c

/-- The algorithm `boost::algorithm::to_lower`. -/
def to_lower (s : Str) : Str := s.map tolower

/-- The algorithm `boost::algorithm::trim`: drops leading and trailing `isspace` bytes. -/
def trim (s : Str) : Str := ((s.dropWhile isspace).reverse.dropWhile isspace).reverse

/-- The call `s.substr(pos, n)`.  Every call site of the header has `pos ≤ s.size()`,
so the `std::out_of_range` case does not arise. -/
def substr (s : Str) (pos n : Nat) : Str := (s.drop pos).take n

/-- The call `s.substr(pos)`, under the same proviso as `substr`. -/
def substr_from (s : Str) (pos : Nat) : Str := s.drop pos

/-- Scan for the first occurrence of `pat`; `i` is the index of the head of the list. -/
def find_from (pat : Str) : Str → Nat → Option Nat
  | [], i => if pat = [] then some i else none
  | c :: cs, i => if pat.isPrefixOf (c :: cs) then some i else find_from pat cs (i + 1)

/-- The call `s.find(pat, pos)`. -/
def find_str (s pat : Str) (pos : Nat) : Option Nat :=
  if s.length < pos then none else find_from pat (s.drop pos) pos

/-- Scan for the first byte satisfying `p`; `i` is the index of the head of the list. -/
def find_if_from (p : Nat → Bool) : Str → Nat → Option Nat
  | [], _ => none
  | c :: cs, i => if p c then some i else find_if_from p cs (i + 1)

/-- The call `s.find(c, pos)` for a single byte `c`. -/
def find_char (s : Str) (c : Nat) (pos : Nat) : Option Nat :=
  if s.length < pos then none else find_if_from (fun x => x == c) (s.drop pos) pos

/-- The call `s.find_first_of(set, pos)`. -/
def find_first_of (s set : Str) (pos : Nat) : Option Nat :=
  if s.length < pos then none else find_if_from (fun x => set.contains x) (s.drop pos) pos

/-- The value of a byte as a digit: `0-9`, `a-z` and `A-Z` count 0 to 35. -/
def digit_value (c : Nat) : Option Nat :=
  if 48 ≤ c ∧ c ≤ 57 then some (c - 48)
  else if 97 ≤ c ∧ c ≤ 122 then some (c - 87)
  else if 65 ≤ c ∧ c ≤ 90 then some (c - 55)
  else none

/-- Whether a byte is a digit of the given base. -/
def is_digit (base c : Nat) : Bool :=
  match digit_value c with
  | some d => decide (d < base)
  | none => false

/-- The number written by a run of digits, most significant first. -/
def digits_value (base : Nat) (ds : Str) : Nat :=
  ds.foldl (fun a c => a * base + (digit_value c).getD 0) 0

/-- The optional sign in front of a number: whether it is `-`, and the rest. -/
def strip_sign : Str → Bool × Str
  | 45 :: r => (true, r)
  | 43 :: r => (false, r)
  | s => (false, s)

/-- The optional `0x` or `0X` in front of a hexadecimal number. -/
def strip_0x (base : Nat) (s : Str) : Str :=
  if base = 16 then
    match s with
    | 48 :: x :: r => if x = 120 ∨ x = 88 then r else s
    | _ => s
  else s

/-- The call `strtoul(s.c_str(), NULL, base)` for base 10 or 16: leading white space, an
optional sign, for base 16 an optional `0x`, then the longest run of digits.  No digits give
0, a value above `ULONG_MAX` gives `ULONG_MAX`, and a `-` negates modulo `2 ^ 64`.  The run of
digits ends at a NUL byte at the latest, so reading through `c_str()` changes nothing. -/
def strtoul (s : Str) (base : Nat) : Nat :=
  let s1 := s.dropWhile isspace
  let neg := (strip_sign s1).1
  let s2 := strip_0x base (strip_sign s1).2
  let v := digits_value base (s2.takeWhile (is_digit base))
  if ULONG_MAX < v then ULONG_MAX
  else if neg then (SIZE_MOD - v) % SIZE_MOD
  else v

/-- The decimal text of a number, as `boost::lexical_cast<std::string>` and `operator<<` write it. -/
def to_decimal (n : Nat) : Str := (Nat.toDigits 10 n).map Char.toNat

/-! ## UrlParser -/

/-- The fields of `struct UrlParser`. -/
structure UrlParser where
  service : Str
  host_all : Str
  path : Str
  host_part : Str
  query_param : Str
  port : Nat
  normalized_service : Str
  deriving DecidableEq, Repr

/-- The constructor `UrlParser()`: empty strings and port 0. -/
def UrlParser.new : UrlParser :=
  { service := [], host_all := [], path := [], host_part := [], query_param := [],
    port := 0, normalized_service := [] }

/-- The method `UrlParser::Parse`. -/
def UrlParser.Parse (self : UrlParser) (url : Str) : UrlParser :=
  let found := find_str url (bytes "://") 0
  let service :=
    match found with
    | some service_pos => to_lower (substr url 0 service_pos)
    | none => self.service
  let service := if service = [] then bytes "http" else service
  let service_pos :=
    match found with
    | none => 0
    | some p => p + 3
  let hp : Str × Str :=
    match find_first_of url (bytes "/?") service_pos with
    | none => (substr_from url service_pos, bytes "/")
    | some host_pos => (substr url service_pos (host_pos - service_pos), substr_from url host_pos)
  let host_all := hp.1
  let qp : Str × Str :=
    match find_char hp.2 63 0 with
    | some param_pos => (substr_from hp.2 (param_pos + 1), substr hp.2 0 param_pos)
    | none => (self.query_param, hp.2)
  let query_param := qp.1
  let path := if qp.2 = [] then bytes "/" else qp.2
  let pp : Str × Nat :=
    match find_char host_all 58 0 with
    | some port_pos =>
        (substr host_all 0 port_pos, strtoul (substr_from host_all (port_pos + 1)) 10 % 65536)
    | none => (host_all, self.port)
  let host_part := pp.1
  let port := pp.2
  let normalized_service := if port ≠ 0 then to_decimal port else service
  { service := service, host_all := host_all, path := path, host_part := host_part,
    query_param := query_param, port := port, normalized_service := normalized_service }

/-! ## ResponseInfo and the request method -/

/-- A `std::map<std::string, std::string>`: its entries, one per key, in the order of
iteration, which is by ascending key (`HeaderMap.assign` keeps that order). -/
abbrev HeaderMap := List (Str × Str)

/-- The call `m.count(k)`: 1 when the key is present, else 0. -/
def HeaderMap.count (m : HeaderMap) (k : Str) : Nat := if (m.lookup k).isSome then 1 else 0

/-- The value read by `m[k]`; the header only reads `m[k]` behind a `count(k)` test, and an
absent key would read as the empty string. -/
def HeaderMap.index (m : HeaderMap) (k : Str) : Str := (m.lookup k).getD []

/-- The fields of `struct ResponseInfo`. -/
structure ResponseInfo where
  timeout : Bool
  error_msg : Str
  raw_response : Str
  http_version : Str
  status_code : Int
  status_msg : Str
  headers : HeaderMap
  content : Str
  deriving DecidableEq, Repr

/-- The constructor `ResponseInfo()`: `timeout(false)`, `status_code(-1)`, the rest empty. -/
def ResponseInfo.new : ResponseInfo :=
  { timeout := false, error_msg := [], raw_response := [], http_version := [],
    status_code := -1, status_msg := [], headers := [], content := [] }

/-- The enumeration `HTTP_METHOD`. -/
inductive HTTP_METHOD where
  | METHOD_UNKNOWN
  | METHOD_POST
  | METHOD_GET
  | METHOD_PUT
  | METHOD_DELETE
  | METHOD_HEAD
  deriving DecidableEq, Repr

/-- A `boost::system::error_code` with a non-zero value: end of stream, a cancelled
operation, or any other error, given by its message. -/
inductive error_code where
  | eof
  | operation_aborted
  | other (what : Str)
  deriving DecidableEq, Repr

/-- The call `ec.message()`. -/
def error_code.message : error_code → Str
  | .eof => bytes "End of file"
  | .operation_aborted => bytes "Operation canceled"
  | .other what => what

/-! ## The chunk decoder -/

/-- The loop of `reach_chunk_end`, one iteration per unit of fuel; `none` when the fuel runs
out before the loop exits.  The new scan position is computed in `size_t`. -/
def reach_chunk_end_loop : Nat → Str → Nat → Str → Option (Bool × Str)
  | 0, _, _, _ => none
  | fuel + 1, all_chunk, pos, content =>
    match find_str all_chunk (bytes "\r\n") pos with
    | none => some (false, content)
    | some next_pos =>
      let chunk_size_str := trim (substr all_chunk pos (next_pos - pos))
      if chunk_size_str = [] then
        reach_chunk_end_loop fuel all_chunk (next_pos + 2) content
      else
        let chunk_size := strtoul chunk_size_str 16
        if chunk_size = 0 then some (true, content)
        else
          reach_chunk_end_loop fuel all_chunk ((next_pos + 2 + chunk_size + 2) % SIZE_MOD)
            (content ++ substr all_chunk (next_pos + 2) chunk_size)

/-- The function `reach_chunk_end(cur_chunk, all_chunk, content)`: the result is the return
value with the new `all_chunk` and `content`. -/
def reach_chunk_end (fuel : Nat) (cur_chunk all_chunk : Str) : Option (Bool × Str × Str) :=
  match reach_chunk_end_loop fuel (all_chunk ++ cur_chunk) 0 [] with
  | none => none
  | some (reach_end, content) => some (reach_end, all_chunk ++ cur_chunk, content)

/-- Successive calls of `reach_chunk_end` on the pieces of a stream, all with the same
`all_chunk`: the flag and content of the last call (`last` when there is no piece). -/
def feed_pieces (fuel : Nat) : List Str → Str → Option (Bool × Str) → Option (Bool × Str)
  | [], _, last => last
  | piece :: rest, all_chunk, _ =>
    match reach_chunk_end fuel piece all_chunk with
    | none => none
    | some (reach_end, all_chunk1, content) =>
      feed_pieces fuel rest all_chunk1 (some (reach_end, content))

/-- One hexadecimal digit, in lower or upper case. -/
def hex_digit (upper : Bool) (d : Nat) : Nat :=
  if d < 10 then 48 + d else if upper then 55 + d else 87 + d

/-- The digits of `n` in base 16 in front of `acc`, most significant first. -/
def hex_core (upper : Bool) : Nat → Nat → Str → Str
  | 0, _, acc => acc
  | fuel + 1, n, acc =>
    if n / 16 = 0 then hex_digit upper (n % 16) :: acc
    else hex_core upper fuel (n / 16) (hex_digit upper (n % 16) :: acc)

/-- The hexadecimal text of `n`, without leading zeros. -/
def hex (upper : Bool) (n : Nat) : Str := hex_core upper (n + 1) n []

/-- The chunked encoding of a list of payloads: `hex(|c|) CRLF c CRLF` for each. -/
def encode_chunks (upper : Bool) : List Str → Str
  | [] => []
  | c :: cs => hex upper c.length ++ bytes "\r\n" ++ c ++ bytes "\r\n" ++ encode_chunks upper cs

/-- A chunked stream: the encoded payloads, the zero-size line, and a trailer. -/
def chunk_stream (upper : Bool) (cs : List Str) (t : Str) : Str :=
  encode_chunks upper cs ++ bytes "0\r\n" ++ t

/-! ## Body framing -/

/-- The comparison `boost::algorithm::is_iequal`: equal after `std::toupper`. -/
def is_iequal (a b : Nat) : Bool := toupper a == toupper b

/-- Whether `test` matches at the head of `input` under `is_iequal`. -/
def istarts_with : Str → Str → Bool
  | _, [] => true
  | [], _ :: _ => false
  | a :: input, b :: test => is_iequal a b && istarts_with input test

/-- The predicate `boost::algorithm::icontains(input, test)`. -/
def icontains : Str → Str → Bool
  | [], test => test.isEmpty
  | a :: input, test => istarts_with (a :: input) test || icontains input test

/-- The first condition of the framing chain in `yield_func`, with the truncating division
of C++ on `int`. -/
def no_body (status_code : Int) (m_method : HTTP_METHOD) : Bool :=
  (Int.tdiv status_code 200 == 0 && Int.tdiv status_code 100 == 1)
    || status_code == 204
    || status_code == 304
    || m_method == HTTP_METHOD.METHOD_HEAD

/-- The four branches of the framing chain in `yield_func`. -/
inductive Framing where
  | no_content
  | chunked
  | content_length
  | until_closed
  deriving DecidableEq, Repr

/-- The framing chain of `yield_func`: which branch of the `if`/`else if` sequence runs. -/
def select_framing (status_code : Int) (m_method : HTTP_METHOD) (headers : HeaderMap) : Framing :=
  if no_body status_code m_method then Framing.no_content
  else if headers.count (bytes "transfer-encoding") ≠ 0
      ∧ icontains (headers.index (bytes "transfer-encoding")) (bytes "chunked") = true then
    Framing.chunked
  else if headers.count (bytes "transfer-encoding") = 0
      ∧ headers.count (bytes "content-length") ≠ 0 then
    Framing.content_length
  else Framing.until_closed

/-- The conversion `boost::lexical_cast<size_t>(s)`: an optional sign and then digits only, at
least one; `none` stands for the exception `bad_lexical_cast`.  A `-` negates modulo `2 ^ 64`. -/
def lexical_cast_size_t (s : Str) : Option Nat :=
  let ds := (strip_sign s).2
  if ds = [] ∨ ds.all (is_digit 10) = false then none
  else if ULONG_MAX < digits_value 10 ds then none
  else if (strip_sign s).1 then some ((SIZE_MOD - digits_value 10 ds) % SIZE_MOD)
  else some (digits_value 10 ds)

/-! ## The receiving part of the coroutine -/

/-- The result of one `async_read`: the bytes read, or the error. -/
inductive IoResult where
  | ok (data : Str)
  | fail (ec : error_code)
  deriving DecidableEq, Repr

/-- How the coroutine leaves the code modelled: it reaches the `DoCallback()` call at the end of
`yield_func`, an exception escapes (or an `assert` fails), or it stays suspended in an operation
that has no result yet.  Each case carries `m_response`; the first two carry the I/O results not
consumed. -/
inductive Completion where
  | finished (r : ResponseInfo) (unread : List IoResult)
  | thrown (r : ResponseInfo) (unread : List IoResult)
  | suspended (r : ResponseInfo)
  deriving DecidableEq, Repr

/-- The method `feed_response(raw, content)`, on `m_response`. -/
def feed_response (r : ResponseInfo) (raw content : Str) : ResponseInfo :=
  { r with raw_response := r.raw_response ++ raw, content := r.content ++ content }

/-- The `while (true)` loop of the last branch of `yield_func`: read until an error. -/
def read_till_closed : ResponseInfo → List IoResult → Completion
  | r, [] => Completion.suspended r
  | r, IoResult.fail ec :: rest =>
    Completion.finished (if ec ≠ error_code.eof then { r with error_msg := ec.message } else r) rest
  | r, IoResult.ok data :: rest => read_till_closed (feed_response r data data) rest

/-- The `while (true)` loop of the chunked branch of `yield_func`; `chunk_content` is the
accumulating buffer.  `none` when a call of `reach_chunk_end` runs out of fuel. -/
def read_chunked (fuel : Nat) : ResponseInfo → Str → List IoResult → Option Completion
  | r, _, [] => some (Completion.suspended r)
  | r, _, IoResult.fail ec :: rest =>
    some (Completion.finished
      (if ec ≠ error_code.eof then { r with error_msg := ec.message } else r) rest)
  | r, chunk_content, IoResult.ok data :: rest =>
    match reach_chunk_end fuel data chunk_content with
    | none => none
    | some (true, chunk_content1, content) =>
      some (Completion.finished (feed_response r chunk_content1 content) rest)
    | some (false, chunk_content1, _) => read_chunked fuel r chunk_content1 rest

/-- The part of `yield_func` that follows a successful `parse_response_headers`, up to the
`DoCallback()` call: `r` is `m_response` as the parser left it, `content_when_header` the bytes
read together with the header block, `script` the results of the reads to come. -/
def recv_body (fuel : Nat) (m_method : HTTP_METHOD) (r : ResponseInfo)
    (content_when_header : Str) (script : List IoResult) : Option Completion :=
  match select_framing r.status_code m_method r.headers with
  | Framing.no_content => some (Completion.finished r script)
  | Framing.chunked =>
    if content_when_header ≠ [] then
      match reach_chunk_end fuel content_when_header [] with
      | none => none
      | some (true, chunk_content, content) =>
        some (Completion.finished (feed_response r chunk_content content) script)
      | some (false, chunk_content, _) => read_chunked fuel r chunk_content script
    else read_chunked fuel r [] script
  | Framing.content_length =>
    let r1 := feed_response r content_when_header content_when_header
    match lexical_cast_size_t (r1.headers.index (bytes "content-length")) with
    | none => some (Completion.thrown r1 script)
    | some content_length =>
      if content_when_header.length < content_length then
        match script with
        | [] => some (Completion.suspended r1)
        | IoResult.fail ec :: rest =>
          some (Completion.finished { r1 with error_msg := ec.message } rest)
        | IoResult.ok data :: rest => some (Completion.finished (feed_response r1 data data) rest)
      else some (Completion.finished r1 script)
  | Framing.until_closed =>
    some (read_till_closed (feed_response r content_when_header content_when_header) script)

/-! ## The completion sources -/

/-- The members of `CAsyncHttpClient` that the completion paths touch.  `m_cb` is the stored
callback, `none` while the `boost::function` is empty; a callback is given by whether its
invocation raises.  `timer_cancelled` and `sock_closed` record the calls
`m_deadline_timer.cancel` and `m_sock.close`; `cb_log` lists the `ResponseInfo` of every
invocation of the callback, oldest first. -/
structure CAsyncHttpClient where
  m_cb : Option (ResponseInfo → Bool)
  m_cb_called : Bool
  m_throw_in_cb : Bool
  m_method : HTTP_METHOD
  m_response : ResponseInfo
  timer_cancelled : Bool
  sock_closed : Bool
  cb_log : List ResponseInfo

/-- The constructor of `CAsyncHttpClient`. -/
def CAsyncHttpClient.new (throw_in_cb : Bool) : CAsyncHttpClient :=
  { m_cb := none, m_cb_called := false, m_throw_in_cb := throw_in_cb,
    m_method := HTTP_METHOD.METHOD_UNKNOWN, m_response := ResponseInfo.new,
    timer_cancelled := false, sock_closed := false, cb_log := [] }

/-- The members after `makeRequest(cb, m, ...)`: the callback and the method are stored; the
timer is armed and the coroutine spawned, their completions arriving later as events. -/
def CAsyncHttpClient.makeRequest (self : CAsyncHttpClient) (cb : ResponseInfo → Bool)
    (m : HTTP_METHOD) : CAsyncHttpClient :=
  { self with m_cb := some cb, m_method := m }

/-- The method `DoCallback`; the flag tells whether an exception leaves it.  Calling an empty
`boost::function` raises without running any callback. -/
def CAsyncHttpClient.DoCallback (self : CAsyncHttpClient) : CAsyncHttpClient × Bool :=
  if !self.m_cb_called then
    match self.m_cb with
    | some cb =>
      ({ self with timer_cancelled := true, m_cb_called := true,
                   cb_log := self.cb_log ++ [self.m_response] },
        cb self.m_response && self.m_throw_in_cb)
    | none =>
      ({ self with timer_cancelled := true, m_cb_called := true }, self.m_throw_in_cb)
  else (self, false)

/-- The method `timeout_cb(ec)`; `none` is the error code of value zero. -/
def CAsyncHttpClient.timeout_cb (self : CAsyncHttpClient) (ec : Option error_code) :
    CAsyncHttpClient × Bool :=
  match ec with
  | some e =>
    if e ≠ error_code.operation_aborted then
      CAsyncHttpClient.DoCallback
        { self with m_response := { self.m_response with
            error_msg := bytes "timeout callback encountered an error:" ++ e.message } }
    else (self, false)
  | none =>
    CAsyncHttpClient.DoCallback
      { self with m_response := { self.m_response with timeout := true, error_msg := bytes "timeout" },
                  sock_closed := true }

/-- The destructor `~CAsyncHttpClient`. -/
def CAsyncHttpClient.destroy (self : CAsyncHttpClient) : CAsyncHttpClient × Bool :=
  CAsyncHttpClient.DoCallback
    (if self.m_response.error_msg = [] then
      { self with m_response := { self.m_response with error_msg := bytes "abandoned" } }
    else self)

/-- The completion sources of an instance.  `yield_end` is the coroutine reaching the
`DoCallback()` call that ends `yield_func`, after a stage failure that stored its error text
(`some`) or without one (`none`); `timer` is a call of `timeout_cb`; `teardown` is the
destructor. -/
inductive Event where
  | yield_end (error_msg : Option Str)
  | timer (ec : Option error_code)
  | teardown
  deriving DecidableEq, Repr

/-- One event applied to the instance; the flag tells whether an exception leaves the handler. -/
def CAsyncHttpClient.step (self : CAsyncHttpClient) : Event → CAsyncHttpClient × Bool
  | Event.yield_end none => CAsyncHttpClient.DoCallback self
  | Event.yield_end (some msg) =>
    CAsyncHttpClient.DoCallback { self with m_response := { self.m_response with error_msg := msg } }
  | Event.timer ec => CAsyncHttpClient.timeout_cb self ec
  | Event.teardown => CAsyncHttpClient.destroy self

/-- A sequence of events applied in order. -/
def CAsyncHttpClient.run (self : CAsyncHttpClient) (events : List Event) : CAsyncHttpClient :=
  events.foldl (fun c e => (CAsyncHttpClient.step c e).1) self

/-- Whether an event is one of the completing ones: every event except the notification that
the timer was cancelled. -/
def Event.completes : Event → Bool
  | Event.timer (some error_code.operation_aborted) => false
  | _ => true

/-- What the framing rule calls "contains `test` case-insensitively": some contiguous part of
`v` equals `test` once both are lower-cased. -/
def contains_ignoring_case (v test : Str) : Prop :=
  ∃ pre mid post : Str, v = pre ++ mid ++ post ∧ to_lower mid = to_lower test

/-! ## Percent-encoding -/

/-- The classification `isalnum` of the classic locale. -/
def isalnum (c : Nat) : Bool :=
  (decide (48 ≤ c) && decide (c ≤ 57)) || (decide (65 ≤ c) && decide (c ≤ 90))
    || (decide (97 ≤ c) && decide (c ≤ 122))

/-- The function `tohex` on an `unsigned char`. -/
def tohex (x : Nat) : Nat := (if x > 9 then x - 10 + 65 else x + 48) % 256

/-- The function `fromhex` on an `unsigned char`. -/
def fromhex (x : Nat) : Nat :=
  if 65 ≤ x ∧ x ≤ 90 then x - 65 + 10
  else if 97 ≤ x ∧ x ≤ 122 then x - 97 + 10
  else if 48 ≤ x ∧ x ≤ 57 then x - 48
  else 0

/-- The function `url_encode`. -/
def url_encode : Str → Str
  | [] => []
  | ch :: rest =>
    (if isalnum ch || ch == 45 || ch == 95 || ch == 46 || ch == 126 then [ch]
     else if ch == 32 then [43]
     else [37, tohex (ch / 16), tohex (ch % 16)]) ++ url_encode rest

/-- The function `url_decode`; the sum `high * 16 + low` is stored into a `char`. -/
def url_decode : Str → Str
  | [] => []
  | c :: rest =>
    if c = 43 then 32 :: url_decode rest
    else if c = 37 then
      match rest with
      | [] => []
      | [_] => []
      | high :: low :: rest2 => (fromhex high * 16 + fromhex low) % 256 :: url_decode rest2
    else c :: url_decode rest

/-! ## The header map in key order, and the request builder -/

/-- The comparison `operator<` of `std::string`, the order of a `std::map` with string keys:
lexicographic on the byte values. -/
def str_lt : Str → Str → Bool
  | [], [] => false
  | [], _ :: _ => true
  | _ :: _, [] => false
  | a :: s, b :: t => decide (a < b) || (a == b && str_lt s t)

/-- The assignment `m[k] = v` on a map whose entries are listed by ascending key. -/
def HeaderMap.assign : HeaderMap → Str → Str → HeaderMap
  | [], k, v => [(k, v)]
  | (k1, v1) :: rest, k, v =>
    if str_lt k k1 then (k, v) :: (k1, v1) :: rest
    else if k = k1 then (k, v) :: rest
    else (k1, v1) :: HeaderMap.assign rest k v

/-- The map that the assignments `m[k] = v`, made in the order of the list, build from the
empty map. -/
def HeaderMap.of_list (entries : List (Str × Str)) : HeaderMap :=
  entries.foldl (fun m kv => HeaderMap.assign m kv.1 kv.2) []

/-- One header line of the request: `key: value\r\n`. -/
def header_line (kv : Str × Str) : Str := kv.1 ++ bytes ": " ++ kv.2 ++ bytes "\r\n"

/-- The function `build_request_string`; the loop over the map visits the entries in the
order of the list. -/
def build_request_string (service_name host path query_param : Str) (m : HTTP_METHOD)
    (headers : HeaderMap) (body : Str) : Str :=
  (match m with
    | HTTP_METHOD.METHOD_POST => bytes "POST "
    | HTTP_METHOD.METHOD_GET => bytes "GET "
    | HTTP_METHOD.METHOD_PUT => bytes "PUT "
    | HTTP_METHOD.METHOD_DELETE => bytes "DELETE "
    | _ => [])
  ++ (if service_name ≠ [] then service_name ++ bytes "://" else [])
  ++ host ++ path
  ++ (if query_param ≠ [] then bytes "?" ++ query_param else [])
  ++ bytes " HTTP/1.1" ++ bytes "\r\n"
  ++ (headers.map header_line).flatten
  ++ (if headers.count (bytes "Host") = 0 then bytes "Host: " ++ host ++ bytes "\r\n" else [])
  ++ (if headers.count (bytes "Content-Length") = 0 then
        bytes "Content-Length: " ++ to_decimal body.length ++ bytes "\r\n" else [])
  ++ bytes "\r\n"
  ++ body

/-- The name of a request method as the request line spells it; `METHOD_UNKNOWN` has none. -/
def method_name : HTTP_METHOD → Str
  | HTTP_METHOD.METHOD_POST => bytes "POST"
  | HTTP_METHOD.METHOD_GET => bytes "GET"
  | HTTP_METHOD.METHOD_PUT => bytes "PUT"
  | HTTP_METHOD.METHOD_DELETE => bytes "DELETE"
  | HTTP_METHOD.METHOD_HEAD => bytes "HEAD"
  | HTTP_METHOD.METHOD_UNKNOWN => []

/-- The request line `<METHOD> [<scheme>://]<host><path>[?<query>] HTTP/1.1\r\n`. -/
def request_line (m : HTTP_METHOD) (scheme host path query : Str) : Str :=
  method_name m ++ bytes " " ++ (if scheme = [] then [] else scheme ++ bytes "://")
    ++ host ++ path ++ (if query = [] then [] else bytes "?" ++ query) ++ bytes " HTTP/1.1\r\n"

/-- The pieces of a text between its `\r\n` separators; `cur` holds, reversed, the piece being
read. -/
def split_crlf_from : Str → Str → List Str
  | [], cur => [cur.reverse]
  | [c], cur => [(c :: cur).reverse]
  | c :: d :: rest, cur =>
    if c = 13 ∧ d = 10 then cur.reverse :: split_crlf_from rest []
    else split_crlf_from (d :: rest) (c :: cur)

/-- The lines of a text: its pieces between `\r\n` separators. -/
def split_crlf (s : Str) : List Str := split_crlf_from s []

/-- The number of lines of a text that begin with `p`. -/
def lines_beginning_with (p s : Str) : Nat :=
  ((split_crlf s).filter (fun line => p.isPrefixOf line)).length

/-- The text that `build_request_string` writes before the header lines: the outcome of the
`switch`, the optional scheme, host, path, the optional query and ` HTTP/1.1\r\n`. -/
def request_start (service_name host path query_param : Str) (m : HTTP_METHOD) : Str :=
  (match m with
    | HTTP_METHOD.METHOD_POST => bytes "POST "
    | HTTP_METHOD.METHOD_GET => bytes "GET "
    | HTTP_METHOD.METHOD_PUT => bytes "PUT "
    | HTTP_METHOD.METHOD_DELETE => bytes "DELETE "
    | _ => [])
  ++ (if service_name ≠ [] then service_name ++ bytes "://" else [])
  ++ host ++ path
  ++ (if query_param ≠ [] then bytes "?" ++ query_param else [])
  ++ bytes " HTTP/1.1" ++ bytes "\r\n"

/-! ## The response-header parser -/

/-- The constant `INT_MAX` of a 32-bit `int`. -/
def INT_MAX : Int := 2147483647

/-- The constant `INT_MIN` of a 32-bit `int`. -/
def INT_MIN : Int := -2147483648

/-- A `std::stringstream` being read: the characters not yet extracted and the state bits
`eofbit` and `failbit`. -/
structure istream where
  buf : Str
  eofbit : Bool
  failbit : Bool
  deriving DecidableEq, Repr

/-- The test `ss.good()`. -/
def istream.good (ss : istream) : Bool := !ss.eofbit && !ss.failbit

/-- The sentry of a formatted extraction: a stream that is not good gets `failbit`; otherwise
leading white space is skipped, and running into the end sets `eofbit` and `failbit`.  The flag
tells whether the extraction goes ahead. -/
def istream.sentry (ss : istream) : istream × Bool :=
  if ss.good = false then ({ ss with failbit := true }, false)
  else if ss.buf.dropWhile isspace = [] then
    ({ buf := [], eofbit := true, failbit := true }, false)
  else ({ ss with buf := ss.buf.dropWhile isspace }, true)

/-- The extraction `ss >> str` into a `std::string`: the run of bytes up to the next white
space; `old` is the value of `str` before, kept when the sentry fails. -/
def istream.extract_string (ss : istream) (old : Str) : istream × Str :=
  match ss.sentry with
  | (ss1, false) => (ss1, old)
  | (ss1, true) =>
    ({ ss1 with buf := ss1.buf.dropWhile (fun c => !isspace c),
                eofbit := decide (ss1.buf.dropWhile (fun c => !isspace c) = []) },
      ss1.buf.takeWhile (fun c => !isspace c))

/-- The extraction `ss >> n` into an `int`, by the rule of C++11: an optional sign and the
longest run of decimal digits; no digit stores 0 and sets `failbit`, a value out of range
stores the nearest limit and sets `failbit`; `old` is kept when the sentry fails. -/
def istream.extract_int (ss : istream) (old : Int) : istream × Int :=
  match ss.sentry with
  | (ss1, false) => (ss1, old)
  | (ss1, true) =>
    let neg := (strip_sign ss1.buf).1
    let ds := (strip_sign ss1.buf).2.takeWhile (is_digit 10)
    let rest := (strip_sign ss1.buf).2.dropWhile (is_digit 10)
    let v : Int := if neg then -(digits_value 10 ds : Int) else (digits_value 10 ds : Int)
    if ds = [] then ({ buf := rest, eofbit := decide (rest = []), failbit := true }, 0)
    else if INT_MAX < v then ({ buf := rest, eofbit := decide (rest = []), failbit := true }, INT_MAX)
    else if v < INT_MIN then ({ buf := rest, eofbit := decide (rest = []), failbit := true }, INT_MIN)
    else ({ buf := rest, eofbit := decide (rest = []), failbit := false }, v)

/-- The call `std::getline(ss, str)`: the bytes up to the next `\n`, which is consumed; at the
end of the stream `eofbit` is set, and `failbit` too when nothing was extracted; `old` is kept
when the stream was not good. -/
def istream.getline (ss : istream) (old : Str) : istream × Str :=
  if ss.good = false then ({ ss with failbit := true }, old)
  else
    match find_char ss.buf 10 0 with
    | some pos => ({ ss with buf := substr_from ss.buf (pos + 1) }, substr ss.buf 0 pos)
    | none => ({ buf := [], eofbit := true, failbit := decide (ss.buf = []) }, ss.buf)

/-- The loop `while (ss)` of `parse_response_headers`, one iteration per unit of fuel. -/
def header_loop : Nat → istream → HeaderMap → Option HeaderMap
  | 0, _, _ => none
  | fuel + 1, ss, headers =>
    if ss.failbit then some headers
    else
      match find_char (ss.getline []).2 58 0 with
      | none => header_loop fuel (ss.getline []).1 headers
      | some pos =>
        if trim (substr (ss.getline []).2 0 pos) = [] then
          header_loop fuel (ss.getline []).1 headers
        else
          header_loop fuel (ss.getline []).1
            (HeaderMap.assign headers (to_lower (trim (substr (ss.getline []).2 0 pos)))
              (trim (substr_from (ss.getline []).2 (pos + 1))))

/-- The function `parse_response_headers(s, r)`: the return value and `r` afterwards. -/
def parse_response_headers (fuel : Nat) (s : Str) (r : ResponseInfo) :
    Option (Bool × ResponseInfo) :=
  let ss0 : istream := { buf := s, eofbit := false, failbit := false }
  let e1 := ss0.extract_string r.http_version
  let e2 := e1.1.extract_int r.status_code
  let e3 := e2.1.getline r.status_msg
  let r1 : ResponseInfo :=
    { r with http_version := e1.2, status_code := e2.2, status_msg := trim e3.2 }
  if e3.1.failbit then some (false, r1)
  else
    match header_loop fuel e3.1 r1.headers with
    | none => none
    | some headers => some (true, { r1 with headers := headers })

/-- A line of a header block as the parser is specified: a field `k: v`, or a line without a
colon. -/
inductive HeaderLine where
  | field (k v : Str)
  | other (text : Str)
  deriving DecidableEq, Repr

/-- The text of a header line, without its `\r\n`. -/
def HeaderLine.text : HeaderLine → Str
  | HeaderLine.field k v => k ++ bytes ": " ++ v
  | HeaderLine.other t => t

/-- A header line is one line and its key ends at the colon shown: no `\n` (10) anywhere, no
`':'` (58) in the key of a field or in a line without a colon. -/
def HeaderLine.wellformed : HeaderLine → Bool
  | HeaderLine.field k v => decide ((58 : Nat) ∉ k) && decide ((10 : Nat) ∉ k) && decide ((10 : Nat) ∉ v)
  | HeaderLine.other t => decide ((58 : Nat) ∉ t) && decide ((10 : Nat) ∉ t)

/-- The map entry a header line stands for: the lower-cased trimmed key with the trimmed value,
for a field whose key is not blank. -/
def HeaderLine.entry : HeaderLine → Option (Str × Str)
  | HeaderLine.field k v => if trim k = [] then none else some (to_lower (trim k), trim v)
  | HeaderLine.other _ => none

/-- The decimal text of an integer. -/
def int_decimal (n : Int) : Str :=
  if n < 0 then 45 :: to_decimal (-n).toNat else to_decimal n.toNat

/-- A header block: the status line `version SP code SP reason CRLF`, the header lines, each
with its `CRLF`, and the closing `CRLF`. -/
def header_block (version : Str) (code : Int) (reason : Str) (lines : List HeaderLine) : Str :=
  version ++ bytes " " ++ int_decimal code ++ bytes " " ++ reason ++ bytes "\r\n"
    ++ (lines.map (fun l => l.text ++ bytes "\r\n")).flatten ++ bytes "\r\n"

/-! ## The coroutine -/

/-- The coroutine `yield_func` up to its `DoCallback()` call.  `script` lists the results of
the asynchronous operations in the order they are started: resolve, connect, write, the
`async_read_until` for the header block (its data is all that the stream buffer holds), then
the body reads; the data of the first three is not looked at.  `query_host` and
`query_serivce` are `m_urlparser.host_part` and `m_urlparser.normalized_service`.  After a
successful `async_read_until` the data holds `\r\n\r\n`, so the `assert` does not fail. -/
def yield_func (fuel : Nat) (m_method : HTTP_METHOD) (query_host query_serivce : Str)
    (r : ResponseInfo) (script : List IoResult) : Option Completion :=
  match script with
  | [] => some (Completion.suspended r)
  | IoResult.fail ec :: rest =>
    some (Completion.finished
      { r with error_msg := bytes "can not resolve addr which has host=" ++ query_host
          ++ bytes " and service=" ++ query_serivce ++ bytes ", error:" ++ ec.message } rest)
  | IoResult.ok _ :: [] => some (Completion.suspended r)
  | IoResult.ok _ :: IoResult.fail ec :: rest =>
    some (Completion.finished
      { r with error_msg := bytes "can not connect to addr which has host=" ++ query_host
          ++ bytes " and service=" ++ query_serivce ++ bytes ", error:" ++ ec.message } rest)
  | IoResult.ok _ :: IoResult.ok _ :: [] => some (Completion.suspended r)
  | IoResult.ok _ :: IoResult.ok _ :: IoResult.fail ec :: rest =>
    some (Completion.finished
      { r with error_msg := bytes "can not send data to addr which has host=" ++ query_host
          ++ bytes " and service=" ++ query_serivce ++ bytes ", error:" ++ ec.message } rest)
  | IoResult.ok _ :: IoResult.ok _ :: IoResult.ok _ :: [] => some (Completion.suspended r)
  | IoResult.ok _ :: IoResult.ok _ :: IoResult.ok _ :: IoResult.fail ec :: rest =>
    some (Completion.finished
      { r with error_msg := bytes "can not recv response header, error:" ++ ec.message } rest)
  | IoResult.ok _ :: IoResult.ok _ :: IoResult.ok _ :: IoResult.ok headers_contained :: rest =>
    match find_str headers_contained (bytes "\r\n\r\n") 0 with
    | none => some (Completion.thrown r rest)
    | some headers_pos =>
      match parse_response_headers fuel
          (feed_response r (substr headers_contained 0 (headers_pos + 4)) []).raw_response
          (feed_response r (substr headers_contained 0 (headers_pos + 4)) []) with
      | none => none
      | some (false, r1) =>
        some (Completion.finished
          { r1 with error_msg := (bytes "can not parse response header, invalid header, header:\r\n"
              ++ r1.raw_response) } rest)
      | some (true, r1) =>
        recv_body fuel m_method r1 (substr_from headers_contained (headers_pos + 4)) rest

/-! ## Key-value strings -/

/-- The algorithm `boost::algorithm::erase_last(s, pat)`: the last occurrence of `pat` in `s`
is removed; without an occurrence `s` stays as it is. -/
def erase_last (s pat : Str) : Str :=
  match find_str s.reverse pat.reverse 0 with
  | none => s
  | some i => (s.reverse.take i ++ s.reverse.drop (i + pat.length)).reverse

/-- The tokens of `boost::algorithm::split(result, s, is_any_of(seps))`: `s` is cut at every
byte of `seps`, empty tokens included; `cur` holds, reversed, the token being read. -/
def split_any (seps : Str) : Str → Str → List Str
  | [], cur => [cur.reverse]
  | c :: rest, cur =>
    if seps.contains c then cur.reverse :: split_any seps rest []
    else split_any seps rest (c :: cur)

/-- The function `build_kv_string(kv_param, kv_sep, pair_sep)`. -/
def build_kv_string (kv_param : HeaderMap) (kv_sep pair_sep : Str) : Str :=
  erase_last ((kv_param.map (fun kv => kv.1 ++ kv_sep ++ kv.2 ++ pair_sep)).flatten) (bytes "&")

/-- The function `parse_kv_string(s, kv_param, kv_sep, pair_sep)`: the result is `kv_param`
afterwards. -/
def parse_kv_string (s kv_sep pair_sep : Str) : HeaderMap :=
  (split_any pair_sep s []).foldl
    (fun kv_param pair =>
      if pair = [] then kv_param
      else
        match split_any kv_sep pair [] with
        | [k, v] => HeaderMap.assign kv_param k v
        | _ => kv_param)
    []

/-! ## Properties of the string primitives -/

theorem find_if_from_none (p : Nat → Bool) (s : Str) (i : Nat)
    (h : find_if_from p s i = none) : ∀ c ∈ s, p c = false := by
  induction s generalizing i with
  | nil => simp
  | cons a s ih =>
    unfold find_if_from at h
    by_cases hp : p a = true
    · simp [hp] at h
    · simp only [hp] at h
      intro c hc
      rcases List.mem_cons.mp hc with rfl | hc
      · simpa using hp
      · exact ih (i + 1) h c hc

theorem find_if_from_some (p : Nat → Bool) (s : Str) (i k : Nat)
    (h : find_if_from p s i = some k) :
    i ≤ k ∧ k - i < s.length ∧ (∀ c ∈ s.take (k - i), p c = false) ∧
      ∃ c, (s.drop (k - i)).head? = some c ∧ p c = true := by
  induction s generalizing i with
  | nil => simp [find_if_from] at h
  | cons a s ih =>
    unfold find_if_from at h
    by_cases hp : p a = true
    · simp only [hp, if_true, Option.some.injEq] at h
      subst h
      simp [hp]
    · simp only [hp] at h
      obtain ⟨h1, h2, h3, c, h4, h5⟩ := ih (i + 1) h
      have hk : k - i = (k - (i + 1)) + 1 := by omega
      refine ⟨by omega, ?_, ?_, c, ?_, h5⟩
      · rw [hk]; simp; omega
      · rw [hk]
        intro x hx
        simp only [List.take_succ_cons, List.mem_cons] at hx
        rcases hx with rfl | hx
        · simpa using hp
        · exact h3 x hx
      · rw [hk]; simpa using h4

theorem find_char_zero (s : Str) (c : Nat) :
    find_char s c 0 = find_if_from (fun x => x == c) s 0 := by
  simp [find_char]

theorem find_char_none (s : Str) (c : Nat) (h : find_char s c 0 = none) : c ∉ s := by
  rw [find_char_zero] at h
  intro hc
  have := find_if_from_none _ s 0 h c hc
  simp at this

theorem find_char_some (s : Str) (c k : Nat) (h : find_char s c 0 = some k) :
    k < s.length ∧ c ∉ s.take k ∧ (s.drop k).head? = some c := by
  rw [find_char_zero] at h
  obtain ⟨_, h2, h3, x, h4, h5⟩ := find_if_from_some _ s 0 k h
  simp only [Nat.sub_zero] at h2 h3 h4
  refine ⟨h2, ?_, ?_⟩
  · intro hc
    have := h3 c hc
    simp at this
  · simp only [beq_iff_eq] at h5
    rw [h4, h5]

/-! ## UrlParser: the fields after `Parse` -/

theorem Parse_host_part (self : UrlParser) (url : Str) :
    (self.Parse url).host_part =
      match find_char (self.Parse url).host_all 58 0 with
      | some port_pos => substr (self.Parse url).host_all 0 port_pos
      | none => (self.Parse url).host_all := by
  unfold UrlParser.Parse
  dsimp only
  split <;> rfl

/-- C8: after `Parse` on a fresh `UrlParser`, `host_part` holds no `':'` (byte 58), for
every URL. -/
theorem UrlParser_host_part_no_colon (url : Str) :
    (58 : Nat) ∉ (UrlParser.new.Parse url).host_part := by
  rw [Parse_host_part]
  split
  · next port_pos h =>
    have := (find_char_some _ _ _ h).2.1
    simpa [substr] using this
  · next h => exact find_char_none _ _ h

theorem find_first_of_some (s set : Str) (pos k : Nat) (h : find_first_of s set pos = some k) :
    ∃ c rest, s.drop k = c :: rest ∧ c ∈ set ∧ pos ≤ k ∧ k < s.length ∧
      ∀ x ∈ (s.drop pos).take (k - pos), x ∉ set := by
  unfold find_first_of at h
  split at h
  · simp at h
  · next hlen =>
    obtain ⟨h1, h2, h3, c, h4, h5⟩ := find_if_from_some _ _ _ _ h
    have hd : (s.drop pos).drop (k - pos) = s.drop k := by
      rw [List.drop_drop]; congr 1; omega
    rw [hd] at h4
    simp only [List.length_drop] at h2
    cases hs : s.drop k with
    | nil => rw [hs] at h4; simp at h4
    | cons a rest =>
      rw [hs] at h4
      simp only [List.head?_cons, Option.some.injEq] at h4
      subst h4
      refine ⟨a, rest, rfl, ?_, h1, by omega, ?_⟩
      · simpa using h5
      · intro x hx
        have := h3 x hx
        simpa using this

theorem path_shape (p0 q : Str) (c : Nat) (rest : Str) (hp : p0 = c :: rest)
    (hc : c = 47 ∨ c = 63)
    (hq : (find_char p0 63 0 = none ∧ q = p0) ∨
      ∃ k, find_char p0 63 0 = some k ∧ q = substr p0 0 k) :
    (if q = [] then bytes "/" else q) ≠ [] ∧
      (if q = [] then bytes "/" else q).head? = some 47 ∧
      (63 : Nat) ∉ (if q = [] then bytes "/" else q) := by
  rcases hq with ⟨hf, rfl⟩ | ⟨k, hf, rfl⟩
  · have hno := find_char_none _ _ hf
    have hc47 : c = 47 := by
      rcases hc with h | h
      · exact h
      · exfalso; apply hno; rw [hp, h]; simp
    subst hp
    simp only [reduceCtorEq, if_false]
    exact ⟨by simp, by simp [hc47], hno⟩
  · obtain ⟨h1, h2, h3⟩ := find_char_some _ _ _ hf
    simp only [substr, List.drop_zero]
    by_cases hk : k = 0
    · subst hk
      simp only [List.take_zero, if_true]
      decide
    · obtain ⟨k', rfl⟩ := Nat.exists_eq_succ_of_ne_zero hk
      subst hp
      simp only [List.take_succ_cons] at h2 ⊢
      have hc47 : c = 47 := by
        rcases hc with h | h
        · exact h
        · exfalso; apply h2; rw [h]; simp
      simp only [reduceCtorEq, if_false]
      exact ⟨by simp, by simp [hc47], h2⟩

/-- C9: after `Parse` on a fresh `UrlParser`, `path` is not empty, its first byte is `'/'`
(47) and it holds no `'?'` (63), for every URL. -/
theorem UrlParser_path_shape (url : Str) :
    (UrlParser.new.Parse url).path ≠ [] ∧
    (UrlParser.new.Parse url).path.head? = some 47 ∧
    (63 : Nat) ∉ (UrlParser.new.Parse url).path := by
  unfold UrlParser.Parse
  dsimp only
  generalize (match find_str url (bytes "://") 0 with | none => 0 | some p => p + 3) = sp
  cases hf : find_first_of url (bytes "/?") sp with
  | none =>
    dsimp only
    decide
  | some k =>
    dsimp only
    obtain ⟨c, rest, h1, h2, -⟩ := find_first_of_some _ _ _ _ hf
    have hc : c = 47 ∨ c = 63 := by
      simpa [bytes] using h2
    apply path_shape (substr_from url k) _ c rest h1 hc
    cases hq : find_char (substr_from url k) 63 0 with
    | none => exact Or.inl ⟨rfl, rfl⟩
    | some j => exact Or.inr ⟨j, rfl, rfl⟩

theorem find_if_from_takeWhile (p : Nat → Bool) (s : Str) (i : Nat) :
    find_if_from p s i =
      if (s.takeWhile (fun x => !p x)).length < s.length
      then some (i + (s.takeWhile (fun x => !p x)).length) else none := by
  induction s generalizing i with
  | nil => simp [find_if_from]
  | cons a s ih =>
    unfold find_if_from
    by_cases hp : p a = true
    · simp [hp, List.takeWhile]
    · simp only [hp, Bool.false_eq_true, if_false]
      have hp' : p a = false := by simpa using hp
      rw [ih (i + 1)]
      simp only [List.takeWhile, hp', Bool.not_false, List.length_cons]
      by_cases hl : (s.takeWhile (fun x => !p x)).length < s.length
      · simp only [hl, if_true, Nat.add_lt_add_iff_right]
        congr 1; omega
      · simp [hl]

theorem takeWhile_length_eq (q : Nat → Bool) (l : Str) (h : ¬ (l.takeWhile q).length < l.length) :
    l.takeWhile q = l := by
  have h1 := List.takeWhile_append_dropWhile q l
  have h2 : (l.takeWhile q).length + (l.dropWhile q).length = l.length := by
    rw [← List.length_append, h1]
  have h3 : l.dropWhile q = [] := List.eq_nil_of_length_eq_zero (by omega)
  rw [h3, List.append_nil] at h1
  exact h1

theorem take_takeWhile_length (q : Nat → Bool) (l : Str) :
    l.take (l.takeWhile q).length = l.takeWhile q := by
  have h1 := List.takeWhile_append_dropWhile q l
  have h2 : (l.takeWhile q ++ l.dropWhile q).take (l.takeWhile q).length = l.takeWhile q :=
    List.take_left' rfl
  rwa [h1] at h2

theorem find_from_some_infix (pat s : Str) (i k : Nat) (h : find_from pat s i = some k) :
    pat <:+: s := by
  induction s generalizing i with
  | nil =>
    simp only [find_from] at h
    split at h
    · next hp => subst hp; exact List.infix_refl _
    · simp at h
  | cons a s ih =>
    unfold find_from at h
    split at h
    · next hp =>
      exact (List.isPrefixOf_iff_prefix.mp hp).isInfix
    · exact (ih (i + 1) h).trans (List.suffix_cons a s).isInfix

theorem find_from_first (p1 : Str) (x : Nat) (pre rest : Str) (i : Nat)
    (h : ¬ (p1 ++ [x]) <:+: (pre ++ p1)) :
    find_from (p1 ++ [x]) (pre ++ (p1 ++ [x]) ++ rest) i = some (i + pre.length) := by
  induction pre generalizing i with
  | nil =>
    have hpre : (p1 ++ [x]).isPrefixOf (p1 ++ [x] ++ rest) = true :=
      List.isPrefixOf_iff_prefix.mpr (List.prefix_append _ _)
    cases hs : p1 ++ [x] ++ rest with
    | nil => simp at hs
    | cons c cs =>
      simp only [List.nil_append, hs, find_from]
      rw [hs] at hpre
      simp [hpre]
  | cons a pre ih =>
    have hnot : (p1 ++ [x]).isPrefixOf (a :: (pre ++ (p1 ++ [x]) ++ rest)) = false := by
      rw [Bool.eq_false_iff]
      intro hp
      apply h
      have hp' := List.isPrefixOf_iff_prefix.mp hp
      have h2 : (a :: pre ++ p1) <+: (a :: (pre ++ (p1 ++ [x]) ++ rest)) := by
        refine ⟨[x] ++ rest, ?_⟩
        simp
      have h3 := List.prefix_of_prefix_length_le hp' h2 (by simp)
      exact h3.isInfix
    have hih := ih (i + 1) (fun hin => h (hin.trans (List.suffix_cons a _).isInfix))
    show find_from (p1 ++ [x]) (a :: (pre ++ (p1 ++ [x]) ++ rest)) i = _
    rw [find_from, hnot]
    simp only [Bool.false_eq_true, if_false, hih, List.length_cons]
    congr 1; omega

/-- C10: after `Parse` on a fresh `UrlParser`: a URL without `"://"` gets the service `"http"`;
for a URL `pre ++ "://" ++ rest` whose first `"://"` is the one shown, the service is the
lower-cased `pre`, or `"http"` when `pre` is empty, and `host_all` is the part of `rest` before
its first `'/'` (47) or `'?'` (63), all of `rest` when it has neither. -/
theorem UrlParser_service_host_all (url : Str) :
    (¬ bytes "://" <:+: url → (UrlParser.new.Parse url).service = bytes "http") ∧
    (∀ pre rest : Str, url = pre ++ bytes "://" ++ rest → ¬ bytes "://" <:+: pre ++ bytes ":/" →
      (UrlParser.new.Parse url).service = (if pre = [] then bytes "http" else to_lower pre) ∧
      (UrlParser.new.Parse url).host_all =
        rest.takeWhile (fun c => decide (c ≠ 47 ∧ c ≠ 63))) := by
  constructor
  · intro hno
    have hf : find_str url (bytes "://") 0 = none := by
      cases hq : find_str url (bytes "://") 0 with
      | none => rfl
      | some k =>
        exfalso
        apply hno
        simp only [find_str, Nat.not_lt_zero, if_false, List.drop_zero] at hq
        exact find_from_some_infix _ _ _ _ hq
    unfold UrlParser.Parse
    simp only [hf]
    rfl
  · intro pre rest hurl hfirst
    have hf : find_str url (bytes "://") 0 = some pre.length := by
      simp only [find_str, Nat.not_lt_zero, if_false, List.drop_zero]
      have := find_from_first (bytes ":/") 47 pre rest 0 hfirst
      rw [hurl]
      simpa [bytes] using this
    have hdrop : url.drop (pre.length + 3) = rest := by
      rw [hurl]
      have : pre.length + 3 = (pre ++ bytes "://").length := by simp [bytes]
      rw [this, List.drop_left']
      rfl
    have hlen : ¬ url.length < pre.length + 3 := by
      rw [hurl]; simp [bytes]
    have hpred : (fun x => !(bytes "/?").contains x) = (fun c => decide (c ≠ 47 ∧ c ≠ 63)) := by
      funext c
      simp [bytes]
    unfold UrlParser.Parse
    simp only [hf]
    constructor
    · simp only [substr, List.drop_zero]
      have : url.take pre.length = pre := by
        rw [hurl]; simp
      rw [this]
      by_cases hpre : pre = []
      · subst hpre; rfl
      · have : to_lower pre ≠ [] := by
          simpa [to_lower] using hpre
        simp [hpre, this]
    · simp only [find_first_of, hlen, if_false, hdrop, find_if_from_takeWhile, hpred]
      by_cases hl : (rest.takeWhile (fun c => decide (c ≠ 47 ∧ c ≠ 63))).length < rest.length
      · simp only [hl, if_true, substr, hdrop]
        rw [Nat.add_sub_cancel_left]
        exact take_takeWhile_length _ _
      · simp only [hl, if_false, substr_from, hdrop]
        exact (takeWhile_length_eq _ _ hl).symm

theorem UrlParser_service_host_all_witness :
    (UrlParser.new.Parse (bytes "a.b/x")).service = bytes "http" ∧
    ((UrlParser.new.Parse (bytes "HTTP://a.b:80/x?y")).service =
        (if bytes "HTTP" = [] then bytes "http" else to_lower (bytes "HTTP")) ∧
      (UrlParser.new.Parse (bytes "HTTP://a.b:80/x?y")).host_all =
        (bytes "a.b:80/x?y").takeWhile (fun c => decide (c ≠ 47 ∧ c ≠ 63))) :=
  ⟨(UrlParser_service_host_all (bytes "a.b/x")).1 (by decide),
   (UrlParser_service_host_all (bytes "HTTP://a.b:80/x?y")).2 (bytes "HTTP") (bytes "a.b:80/x?y")
     (by decide) (by decide)⟩

theorem tdiv_range (s : Int) :
    (Int.tdiv s 200 = 0 ∧ Int.tdiv s 100 = 1) ↔ (100 ≤ s ∧ s ≤ 199) := by
  rcases le_or_lt 0 s with hs | hs
  · rw [Int.tdiv_eq_ediv hs (by norm_num), Int.tdiv_eq_ediv hs (by norm_num)]
    omega
  · have h1 : Int.tdiv s 100 ≤ 0 := by
      have h0 := Int.tdiv_nonneg (a := -s) (b := 100) (by omega) (by norm_num)
      rw [Int.neg_tdiv] at h0
      omega
    constructor
    · rintro ⟨-, h⟩; omega
    · rintro ⟨h, -⟩; omega

theorem no_body_eq_true_iff (s : Int) (m : HTTP_METHOD) :
    no_body s m = true ↔
      ((100 ≤ s ∧ s ≤ 199) ∨ s = 204 ∨ s = 304 ∨ m = HTTP_METHOD.METHOD_HEAD) := by
  simp only [no_body, Bool.or_eq_true, Bool.and_eq_true, beq_iff_eq, tdiv_range, or_assoc]

theorem select_framing_no_content (s : Int) (m : HTTP_METHOD) (headers : HeaderMap)
    (h : no_body s m = true) : select_framing s m headers = Framing.no_content := by
  unfold select_framing
  rw [if_pos h]

/-- C4: the no-body branch is taken exactly when the status code is in 100..199, or is 204 or
304, or the method is HEAD, for every integer status code under truncating division; the
division test of the code is the range test. -/
theorem no_body_iff (s : Int) (m : HTTP_METHOD) :
    (∀ headers : HeaderMap, select_framing s m headers = Framing.no_content ↔
      ((100 ≤ s ∧ s ≤ 199) ∨ s = 204 ∨ s = 304 ∨ m = HTTP_METHOD.METHOD_HEAD)) ∧
    (no_body s m = true ↔
      ((100 ≤ s ∧ s ≤ 199) ∨ s = 204 ∨ s = 304 ∨ m = HTTP_METHOD.METHOD_HEAD)) ∧
    ((Int.tdiv s 200 = 0 ∧ Int.tdiv s 100 = 1) ↔ (100 ≤ s ∧ s ≤ 199)) := by
  have key : ∀ headers : HeaderMap, select_framing s m headers = Framing.no_content ↔
      ((100 ≤ s ∧ s ≤ 199) ∨ s = 204 ∨ s = 304 ∨ m = HTTP_METHOD.METHOD_HEAD) := by
    intro headers
    rw [← no_body_eq_true_iff]
    constructor
    · intro h
      by_contra hnb
      unfold select_framing at h
      rw [if_neg hnb] at h
      split_ifs at h
    · exact select_framing_no_content s m headers
  exact ⟨key, no_body_eq_true_iff s m, tdiv_range s⟩

theorem toupper_eq_iff (a b : Nat) : toupper a = toupper b ↔ tolower a = tolower b := by
  simp only [toupper, tolower]
  split_ifs <;> omega

theorem istarts_with_iff (v t : Str) :
    istarts_with v t = true ↔ ∃ mid post : Str, v = mid ++ post ∧ to_lower mid = to_lower t := by
  induction t generalizing v with
  | nil =>
    simp only [istarts_with, true_iff]
    exact ⟨[], v, rfl, rfl⟩
  | cons b t ih =>
    cases v with
    | nil =>
      simp only [istarts_with, Bool.false_eq_true, false_iff]
      rintro ⟨mid, post, h1, h2⟩
      have : mid = [] := by
        cases mid with
        | nil => rfl
        | cons _ _ => simp at h1
      subst this
      simp [to_lower] at h2
    | cons a v =>
      simp only [istarts_with, Bool.and_eq_true, is_iequal, beq_iff_eq, toupper_eq_iff, ih]
      constructor
      · rintro ⟨hab, mid, post, rfl, h2⟩
        refine ⟨a :: mid, post, rfl, ?_⟩
        simp only [to_lower, List.map_cons] at h2 ⊢
        rw [hab, h2]
      · rintro ⟨mid, post, h1, h2⟩
        cases mid with
        | nil => simp [to_lower] at h2
        | cons a' mid =>
          simp only [List.cons_append, List.cons.injEq] at h1
          simp only [to_lower, List.map_cons, List.cons.injEq] at h2
          obtain ⟨rfl, rfl⟩ := h1
          exact ⟨h2.1, mid, post, rfl, h2.2⟩

theorem icontains_iff (v t : Str) : icontains v t = true ↔ contains_ignoring_case v t := by
  induction v with
  | nil =>
    simp only [icontains, contains_ignoring_case, List.isEmpty_eq_true]
    constructor
    · rintro rfl
      exact ⟨[], [], [], rfl, rfl⟩
    · rintro ⟨pre, mid, post, h1, h2⟩
      have hm : mid = [] := by
        cases mid with
        | nil => rfl
        | cons _ _ => cases pre <;> simp at h1
      subst hm
      cases t with
      | nil => rfl
      | cons _ _ => simp [to_lower] at h2
  | cons a v ih =>
    simp only [icontains, Bool.or_eq_true, istarts_with_iff, ih, contains_ignoring_case]
    constructor
    · rintro (⟨mid, post, h1, h2⟩ | ⟨pre, mid, post, h1, h2⟩)
      · exact ⟨[], mid, post, by simpa using h1, h2⟩
      · exact ⟨a :: pre, mid, post, by simp [h1], h2⟩
    · rintro ⟨pre, mid, post, h1, h2⟩
      cases pre with
      | nil => exact Or.inl ⟨mid, post, by simpa using h1, h2⟩
      | cons a' pre =>
        simp only [List.cons_append, List.cons.injEq] at h1
        exact Or.inr ⟨pre, mid, post, h1.2, h2⟩

theorem HeaderMap_count_ne_zero (m : HeaderMap) (k : Str) :
    m.count k ≠ 0 ↔ ∃ v, m.lookup k = some v := by
  unfold HeaderMap.count
  cases h : List.lookup k m <;> simp

theorem HeaderMap_count_eq_zero (m : HeaderMap) (k : Str) :
    m.count k = 0 ↔ m.lookup k = none := by
  unfold HeaderMap.count
  cases h : List.lookup k m <;> simp

/-- C3: the framing chain is a function of status code, method and header map that picks one
branch in priority order.  No-body is picked exactly when its test holds; otherwise chunked
exactly when the `transfer-encoding` value contains `"chunked"` case-insensitively, whatever
`content-length` says; content-length exactly when there is no `transfer-encoding` key and a
`content-length` key; and read-until-close in every other case, among them a
`transfer-encoding` without `"chunked"` next to a `content-length`. -/
theorem select_framing_spec (s : Int) (m : HTTP_METHOD) (headers : HeaderMap) :
    (select_framing s m headers = Framing.no_content ↔ no_body s m = true) ∧
    (select_framing s m headers = Framing.chunked ↔
      no_body s m = false ∧
      ∃ v, headers.lookup (bytes "transfer-encoding") = some v ∧
        contains_ignoring_case v (bytes "chunked")) ∧
    (select_framing s m headers = Framing.content_length ↔
      no_body s m = false ∧ headers.lookup (bytes "transfer-encoding") = none ∧
        ∃ n, headers.lookup (bytes "content-length") = some n) ∧
    (select_framing s m headers = Framing.until_closed ↔
      no_body s m = false ∧
      (¬ ∃ v, headers.lookup (bytes "transfer-encoding") = some v ∧
        contains_ignoring_case v (bytes "chunked")) ∧
      ¬ (headers.lookup (bytes "transfer-encoding") = none ∧
        ∃ n, headers.lookup (bytes "content-length") = some n)) ∧
    (∀ v n, no_body s m = false → headers.lookup (bytes "transfer-encoding") = some v →
      ¬ contains_ignoring_case v (bytes "chunked") →
      headers.lookup (bytes "content-length") = some n →
      select_framing s m headers = Framing.until_closed) := by
  have hch : (headers.count (bytes "transfer-encoding") ≠ 0
      ∧ icontains (headers.index (bytes "transfer-encoding")) (bytes "chunked") = true) ↔
      ∃ v, headers.lookup (bytes "transfer-encoding") = some v ∧
        contains_ignoring_case v (bytes "chunked") := by
    rw [HeaderMap_count_ne_zero, icontains_iff]
    unfold HeaderMap.index
    constructor
    · rintro ⟨⟨v, hv⟩, h⟩
      rw [hv] at h
      exact ⟨v, hv, h⟩
    · rintro ⟨v, hv, h⟩
      rw [hv]
      exact ⟨⟨v, rfl⟩, h⟩
  have hcl : (headers.count (bytes "transfer-encoding") = 0
      ∧ headers.count (bytes "content-length") ≠ 0) ↔
      (headers.lookup (bytes "transfer-encoding") = none ∧
        ∃ n, headers.lookup (bytes "content-length") = some n) := by
    rw [HeaderMap_count_eq_zero, HeaderMap_count_ne_zero]
  unfold select_framing
  by_cases h1 : no_body s m = true
  · rw [if_pos h1]
    simp [h1]
  · have h1' : no_body s m = false := by simpa using h1
    rw [if_neg h1]
    simp only [h1', Bool.false_eq_true, true_and, forall_const]
    by_cases h2 : headers.count (bytes "transfer-encoding") ≠ 0
        ∧ icontains (headers.index (bytes "transfer-encoding")) (bytes "chunked") = true
    · rw [if_pos h2]
      have h2' := hch.mp h2
      obtain ⟨v, hv, hc⟩ := h2'
      refine ⟨by simp, ⟨fun _ => ⟨v, hv, hc⟩, fun _ => rfl⟩, ?_, ?_, ?_⟩
      · simp [hv]
      · simp only [reduceCtorEq, false_iff, not_and, not_not]
        intro hno
        exact absurd ⟨v, hv, hc⟩ hno
      · intro v' n hv' hnc
        rw [hv] at hv'
        cases hv'
        exact absurd hc hnc
    · rw [if_neg h2]
      have h2' : ¬ ∃ v, headers.lookup (bytes "transfer-encoding") = some v ∧
          contains_ignoring_case v (bytes "chunked") := fun h => h2 (hch.mpr h)
      by_cases h3 : headers.count (bytes "transfer-encoding") = 0
          ∧ headers.count (bytes "content-length") ≠ 0
      · rw [if_pos h3]
        have h3' := hcl.mp h3
        refine ⟨by simp, ⟨(fun h => nomatch h), fun h => absurd h h2'⟩,
          ⟨fun _ => h3', fun _ => rfl⟩, ?_, ?_⟩
        · refine ⟨(fun h => nomatch h), fun h => absurd h3' h.2⟩
        · intro v n hv
          rw [h3'.1] at hv
          cases hv
      · rw [if_neg h3]
        have h3' : ¬ (headers.lookup (bytes "transfer-encoding") = none ∧
            ∃ n, headers.lookup (bytes "content-length") = some n) := fun h => h3 (hcl.mpr h)
        refine ⟨by simp, ⟨(fun h => nomatch h), fun h => absurd h h2'⟩,
          ⟨(fun h => nomatch h), fun h => absurd h h3'⟩, ⟨fun _ => ⟨h2', h3'⟩, fun _ => rfl⟩, ?_⟩
        intro v n _ _ _
        trivial

theorem select_framing_spec_witness :
    select_framing 200 HTTP_METHOD.METHOD_GET
      [(bytes "transfer-encoding", bytes "gzip"), (bytes "content-length", bytes "5")]
      = Framing.until_closed :=
  (select_framing_spec 200 HTTP_METHOD.METHOD_GET
      [(bytes "transfer-encoding", bytes "gzip"), (bytes "content-length", bytes "5")]).2.2.2.2
    (bytes "gzip") (bytes "5") (by decide) (by decide)
    (by
      rw [← icontains_iff]
      decide)
    (by decide)

/-! ## The receiving part of the coroutine: the four framings -/

/-- C6: with a status code in 100..199, 204 or 304, or the method HEAD, the coroutine goes
from the header parse straight to `DoCallback()`: it consumes no read result, and content and
error text are as empty as the parser left them, whatever bytes came with the header block
(`content_when_header`) or wait on the connection (`script`). -/
theorem recv_body_no_content (fuel : Nat) (m : HTTP_METHOD) (r : ResponseInfo)
    (content_when_header : Str) (script : List IoResult)
    (hcontent : r.content = []) (herror : r.error_msg = [])
    (hstatus : (100 ≤ r.status_code ∧ r.status_code ≤ 199) ∨ r.status_code = 204 ∨
      r.status_code = 304 ∨ m = HTTP_METHOD.METHOD_HEAD) :
    ∃ r1, recv_body fuel m r content_when_header script = some (Completion.finished r1 script) ∧
      r1.content = [] ∧ r1.error_msg = [] := by
  have hnb : no_body r.status_code m = true := (no_body_eq_true_iff r.status_code m).mpr hstatus
  have hsel : select_framing r.status_code m r.headers = Framing.no_content :=
    select_framing_no_content r.status_code m r.headers hnb
  refine ⟨r, ?_, hcontent, herror⟩
  unfold recv_body
  rw [hsel]

theorem recv_body_no_content_witness :
    ∃ r1, recv_body 0 HTTP_METHOD.METHOD_GET { ResponseInfo.new with status_code := 204 }
        (bytes "stray body") [IoResult.ok (bytes "more")]
        = some (Completion.finished r1 [IoResult.ok (bytes "more")]) ∧
      r1.content = [] ∧ r1.error_msg = [] :=
  recv_body_no_content 0 HTTP_METHOD.METHOD_GET { ResponseInfo.new with status_code := 204 }
    (bytes "stray body") [IoResult.ok (bytes "more")] rfl rfl (Or.inr (Or.inl rfl))

theorem read_till_closed_script (r : ResponseInfo) (reads : List Str) (e : error_code)
    (rest : List IoResult) :
    read_till_closed r (reads.map IoResult.ok ++ IoResult.fail e :: rest) =
      Completion.finished
        (if e ≠ error_code.eof then
          { feed_response r reads.flatten reads.flatten with error_msg := e.message }
         else feed_response r reads.flatten reads.flatten) rest := by
  induction reads generalizing r with
  | nil =>
    simp only [List.map_nil, List.nil_append, read_till_closed, List.flatten_nil, feed_response,
      List.append_nil]
  | cons a reads ih =>
    show read_till_closed (feed_response r a a)
      (reads.map IoResult.ok ++ IoResult.fail e :: rest) = _
    rw [ih]
    simp only [feed_response, List.flatten_cons, List.append_assoc]

/-- C7: in read-until-close framing, with `pre` buffered with the headers and the reads
`reads` followed by the error `e`, the coroutine reaches `DoCallback()` with the content
`pre ++ reads.flatten`; the error text stays empty when `e` is end-of-stream and is the message
of `e` otherwise, the content being the same in both cases. -/
theorem recv_body_until_closed (fuel : Nat) (m : HTTP_METHOD) (r : ResponseInfo)
    (pre : Str) (reads : List Str) (e : error_code) (rest : List IoResult)
    (hcontent : r.content = []) (herror : r.error_msg = [])
    (hsel : select_framing r.status_code m r.headers = Framing.until_closed) :
    ∃ r1, recv_body fuel m r pre (reads.map IoResult.ok ++ IoResult.fail e :: rest)
        = some (Completion.finished r1 rest) ∧
      r1.content = pre ++ reads.flatten ∧
      r1.error_msg = (if e = error_code.eof then [] else e.message) := by
  unfold recv_body
  rw [hsel]
  simp only [read_till_closed_script]
  by_cases he : e = error_code.eof
  · subst he
    refine ⟨_, rfl, ?_, ?_⟩
    · simp [feed_response, hcontent]
    · simp [feed_response, herror]
  · refine ⟨_, rfl, ?_, ?_⟩
    · simp [he, feed_response, hcontent]
    · simp [he]

theorem recv_body_until_closed_witness :
    ∃ r1, recv_body 0 HTTP_METHOD.METHOD_GET { ResponseInfo.new with status_code := 200 }
        (bytes "he") ([bytes "l", bytes "lo"].map IoResult.ok ++
          IoResult.fail (error_code.other (bytes "Connection reset by peer")) :: [])
        = some (Completion.finished r1 []) ∧
      r1.content = bytes "he" ++ [bytes "l", bytes "lo"].flatten ∧
      r1.error_msg = (if error_code.other (bytes "Connection reset by peer") = error_code.eof
        then [] else (error_code.other (bytes "Connection reset by peer")).message) :=
  recv_body_until_closed 0 HTTP_METHOD.METHOD_GET { ResponseInfo.new with status_code := 200 }
    (bytes "he") [bytes "l", bytes "lo"] (error_code.other (bytes "Connection reset by peer")) []
    rfl rfl (by decide)

/-- The content-length branch of the coroutine, `n` being the declared length: with fewer
than `n` bytes buffered, one read follows and the content is the buffered bytes and then all
the bytes of that read; otherwise no read follows and the content is all the buffered bytes. -/
theorem recv_body_content_length (fuel : Nat) (m : HTTP_METHOD) (r : ResponseInfo)
    (pre data : Str) (n : Nat) (rest : List IoResult)
    (hcontent : r.content = [])
    (hsel : select_framing r.status_code m r.headers = Framing.content_length)
    (hn : lexical_cast_size_t (r.headers.index (bytes "content-length")) = some n) :
    (pre.length < n →
      ∃ r1, recv_body fuel m r pre (IoResult.ok data :: rest) = some (Completion.finished r1 rest) ∧
        r1.content = pre ++ data) ∧
    (n ≤ pre.length →
      ∃ r1, recv_body fuel m r pre rest = some (Completion.finished r1 rest) ∧
        r1.content = pre) := by
  unfold recv_body
  rw [hsel]
  simp only [feed_response, hn, hcontent, List.nil_append]
  constructor
  · intro h
    rw [if_pos h]
    exact ⟨_, rfl, rfl⟩
  · intro h
    rw [if_neg (by omega)]
    exact ⟨_, rfl, rfl⟩

/-- Content-length 5, `"he"` buffered with the headers and a read of `"llo"` give the content
`"hello"`. -/
theorem recv_body_content_length_hello :
    recv_body 0 HTTP_METHOD.METHOD_GET
        { ResponseInfo.new with status_code := 200, headers := [(bytes "content-length", bytes "5")] }
        (bytes "he") [IoResult.ok (bytes "llo")]
      = some (Completion.finished
          { ResponseInfo.new with
              status_code := 200, headers := [(bytes "content-length", bytes "5")],
              raw_response := bytes "hello", content := bytes "hello" } []) := by
  decide

/-- C5 fails on the code: with content-length 5 and the eleven bytes `"hello world"` buffered
with the headers, the coroutine delivers all eleven bytes as content; and with `"he"` buffered
and a read that returns `"llo wo"`, it delivers eight. -/
theorem recv_body_content_length_overlong :
    recv_body 0 HTTP_METHOD.METHOD_GET
        { ResponseInfo.new with status_code := 200, headers := [(bytes "content-length", bytes "5")] }
        (bytes "hello world") []
      = some (Completion.finished
          { ResponseInfo.new with
              status_code := 200, headers := [(bytes "content-length", bytes "5")],
              raw_response := bytes "hello world", content := bytes "hello world" } []) ∧
    (bytes "hello world").length = 11 ∧
    recv_body 0 HTTP_METHOD.METHOD_GET
        { ResponseInfo.new with status_code := 200, headers := [(bytes "content-length", bytes "5")] }
        (bytes "he") [IoResult.ok (bytes "llo wo")]
      = some (Completion.finished
          { ResponseInfo.new with
              status_code := 200, headers := [(bytes "content-length", bytes "5")],
              raw_response := bytes "hello wo", content := bytes "hello wo" } []) ∧
    (bytes "hello wo").length = 8 := by
  decide

/-! ## The completion sources: the callback runs once -/

theorem DoCallback_called (c : CAsyncHttpClient) :
    (c.DoCallback).1.m_cb_called = true ∧ (c.DoCallback).1.m_cb = c.m_cb ∧
    (c.DoCallback).1.cb_log.length =
      c.cb_log.length + (if c.m_cb_called = false ∧ c.m_cb.isSome then 1 else 0) := by
  unfold CAsyncHttpClient.DoCallback
  cases hc : c.m_cb_called
  · cases hm : c.m_cb <;> simp
  · simp [hc]

theorem step_called (c : CAsyncHttpClient) (e : Event) :
    (c.step e).1.m_cb = c.m_cb ∧
    (c.step e).1.m_cb_called = (c.m_cb_called || e.completes) ∧
    (c.step e).1.cb_log.length =
      c.cb_log.length + (if c.m_cb_called = false ∧ e.completes = true ∧ c.m_cb.isSome then 1 else 0) := by
  cases e with
  | yield_end msg =>
    cases msg with
    | none =>
      have h := DoCallback_called c
      simp only [CAsyncHttpClient.step, Event.completes, Bool.or_true, true_and]
      exact ⟨h.2.1, h.1, h.2.2⟩
    | some msg =>
      have h := DoCallback_called
        { c with m_response := { c.m_response with error_msg := msg } }
      simp only [CAsyncHttpClient.step, Event.completes, Bool.or_true, true_and]
      exact ⟨h.2.1, h.1, h.2.2⟩
  | timer ec =>
    cases ec with
    | none =>
      have h := DoCallback_called
        { c with m_response := { c.m_response with timeout := true, error_msg := bytes "timeout" },
                 sock_closed := true }
      simp only [CAsyncHttpClient.step, CAsyncHttpClient.timeout_cb, Event.completes,
        Bool.or_true, true_and]
      exact ⟨h.2.1, h.1, h.2.2⟩
    | some ec =>
      cases ec with
      | operation_aborted =>
        simp [CAsyncHttpClient.step, CAsyncHttpClient.timeout_cb, Event.completes]
      | eof =>
        have h := DoCallback_called
          { c with m_response := { c.m_response with
              error_msg := bytes "timeout callback encountered an error:" ++ error_code.eof.message } }
        simp only [CAsyncHttpClient.step, CAsyncHttpClient.timeout_cb, Event.completes,
          Bool.or_true, true_and, ne_eq, reduceCtorEq, not_false_eq_true, if_true]
        exact ⟨h.2.1, h.1, h.2.2⟩
      | other what =>
        have h := DoCallback_called
          { c with m_response := { c.m_response with
              error_msg := bytes "timeout callback encountered an error:" ++
                (error_code.other what).message } }
        simp only [CAsyncHttpClient.step, CAsyncHttpClient.timeout_cb, Event.completes,
          Bool.or_true, true_and, ne_eq, reduceCtorEq, not_false_eq_true, if_true]
        exact ⟨h.2.1, h.1, h.2.2⟩
  | teardown =>
    simp only [CAsyncHttpClient.step, CAsyncHttpClient.destroy, Event.completes, Bool.or_true,
      true_and]
    split
    · have h := DoCallback_called
        { c with m_response := { c.m_response with error_msg := bytes "abandoned" } }
      exact ⟨h.2.1, h.1, h.2.2⟩
    · have h := DoCallback_called c
      exact ⟨h.2.1, h.1, h.2.2⟩

theorem run_called (events : List Event) (c : CAsyncHttpClient) (cb : ResponseInfo → Bool)
    (hcb : c.m_cb = some cb) :
    (c.run events).m_cb = some cb ∧
    (c.run events).m_cb_called = (c.m_cb_called || events.any Event.completes) ∧
    (c.run events).cb_log.length =
      c.cb_log.length +
        (if c.m_cb_called = false ∧ events.any Event.completes = true then 1 else 0) := by
  induction events generalizing c with
  | nil => simp [CAsyncHttpClient.run, hcb]
  | cons e events ih =>
    obtain ⟨h1, h2, h3⟩ := step_called c e
    obtain ⟨i1, i2, i3⟩ := ih (c.step e).1 (h1.trans hcb)
    have hrun : c.run (e :: events) = (c.step e).1.run events := rfl
    rw [hrun]
    refine ⟨i1, ?_, ?_⟩
    · rw [i2, h2, List.any_cons, Bool.or_assoc]
    · rw [i3, h3, h2, hcb, List.any_cons]
      cases hc : c.m_cb_called <;> cases he : e.completes <;>
        cases ha : events.any Event.completes <;> simp

/-- C1: on an instance on which a request was started, after any finite sequence of events
(end of the coroutine, timer expiry, timer cancellation, timer error, teardown) the user
callback has run at most once; it has run exactly once when the sequence holds an event other
than the cancellation notification, and not at all otherwise.  The count is thus one from the
first such event on, whatever events follow. -/
theorem callback_exactly_once (throw_in_cb : Bool) (cb : ResponseInfo → Bool) (m : HTTP_METHOD)
    (events : List Event) :
    ((((CAsyncHttpClient.new throw_in_cb).makeRequest cb m).run events).cb_log.length ≤ 1) ∧
    ((((CAsyncHttpClient.new throw_in_cb).makeRequest cb m).run events).cb_log.length =
      (if events.any Event.completes then 1 else 0)) ∧
    (∀ later : List Event,
      (((CAsyncHttpClient.new throw_in_cb).makeRequest cb m).run (events ++ later)).cb_log.length =
        (if events.any Event.completes then 1 else
          if later.any Event.completes then 1 else 0)) := by
  have key : ∀ es : List Event,
      (((CAsyncHttpClient.new throw_in_cb).makeRequest cb m).run es).cb_log.length =
        (if es.any Event.completes then 1 else 0) := by
    intro es
    have h := (run_called es ((CAsyncHttpClient.new throw_in_cb).makeRequest cb m) cb rfl).2.2
    rw [h]
    simp [CAsyncHttpClient.makeRequest, CAsyncHttpClient.new]
  refine ⟨?_, key events, ?_⟩
  · rw [key events]
    split <;> omega
  · intro later
    rw [key (events ++ later), List.any_append]
    cases h1 : events.any Event.completes <;> cases h2 : later.any Event.completes <;> simp

/-! ## The chunk decoder on a well-formed stream -/

theorem hex_digit_is_digit (upper : Bool) (d : Nat) (h : d < 16) :
    digit_value (hex_digit upper d) = some d := by
  unfold hex_digit digit_value
  cases upper <;> simp <;> split_ifs <;> first | omega | (congr 1; omega)

theorem is_digit_16_facts (x : Nat) (h : is_digit 16 x = true) :
    isspace x = false ∧ x ≠ 13 ∧ x ≠ 43 ∧ x ≠ 45 ∧ x ≠ 120 ∧ x ≠ 88 := by
  unfold is_digit digit_value at h
  unfold isspace
  split_ifs at h <;> simp at h <;> simp <;> omega

theorem digits_value_append (base : Nat) (a : Str) (d : Nat) :
    digits_value base (a ++ [d]) = digits_value base a * base + (digit_value d).getD 0 := by
  simp [digits_value, List.foldl_append]

theorem hex_core_acc (upper : Bool) (fuel n : Nat) (acc : Str) :
    hex_core upper fuel n acc = hex_core upper fuel n [] ++ acc := by
  induction fuel generalizing n acc with
  | zero => simp [hex_core]
  | succ fuel ih =>
    unfold hex_core
    split
    · simp
    · rw [ih (n / 16) (hex_digit upper (n % 16) :: acc), ih (n / 16) [hex_digit upper (n % 16)]]
      simp

theorem hex_core_spec (upper : Bool) (fuel n : Nat) (h : n < fuel) :
    hex_core upper fuel n [] ≠ [] ∧
    (∀ x ∈ hex_core upper fuel n [], is_digit 16 x = true) ∧
    digits_value 16 (hex_core upper fuel n []) = n := by
  induction fuel generalizing n with
  | zero => omega
  | succ fuel ih =>
    have hd := hex_digit_is_digit upper (n % 16) (Nat.mod_lt _ (by norm_num))
    have hdig : is_digit 16 (hex_digit upper (n % 16)) = true := by
      unfold is_digit
      rw [hd]
      simp only [decide_eq_true_eq]
      exact Nat.mod_lt _ (by norm_num)
    unfold hex_core
    split
    · next h0 =>
      refine ⟨by simp, ?_, ?_⟩
      · intro x hx
        simp only [List.mem_singleton] at hx
        rw [hx]; exact hdig
      · simp only [digits_value, List.foldl_cons, List.foldl_nil, hd, Option.getD_some]
        omega
    · next h0 =>
      rw [hex_core_acc]
      obtain ⟨i1, i2, i3⟩ := ih (n / 16) (by omega)
      refine ⟨by simp, ?_, ?_⟩
      · intro x hx
        rcases List.mem_append.mp hx with hx | hx
        · exact i2 x hx
        · simp only [List.mem_singleton] at hx
          rw [hx]; exact hdig
      · rw [digits_value_append, i3, hd]
        simp only [Option.getD_some]
        omega

theorem hex_spec (upper : Bool) (n : Nat) :
    hex upper n ≠ [] ∧ (∀ x ∈ hex upper n, is_digit 16 x = true) ∧
      digits_value 16 (hex upper n) = n :=
  hex_core_spec upper (n + 1) n (Nat.lt_succ_self n)

theorem dropWhile_head_false (p : Nat → Bool) (l : Str) (h : ∀ x ∈ l, p x = false) :
    l.dropWhile p = l := by
  cases l with
  | nil => rfl
  | cons a l => simp [List.dropWhile, h a (List.mem_cons_self a l)]

theorem trim_no_space (l : Str) (h : ∀ x ∈ l, isspace x = false) : trim l = l := by
  unfold trim
  rw [dropWhile_head_false _ _ h, dropWhile_head_false _ _ (by simpa using h)]
  simp

theorem strtoul_hex_digits (ds : Str) (hne : ds ≠ []) (hd : ∀ x ∈ ds, is_digit 16 x = true)
    (hv : digits_value 16 ds ≤ ULONG_MAX) : strtoul ds 16 = digits_value 16 ds := by
  have hsp : ∀ x ∈ ds, isspace x = false := fun x hx => (is_digit_16_facts x (hd x hx)).1
  have hsign : strip_sign ds = (false, ds) := by
    cases ds with
    | nil => rfl
    | cons a l =>
      have ha := is_digit_16_facts a (hd a (List.mem_cons_self a l))
      unfold strip_sign
      split
      · next heq => simp only [List.cons.injEq] at heq; omega
      · next heq => simp only [List.cons.injEq] at heq; omega
      · rfl
  have h0x : strip_0x 16 ds = ds := by
    unfold strip_0x
    simp only [if_true]
    split
    · next x r =>
      have hx := is_digit_16_facts x (hd x (by simp))
      rw [if_neg]
      omega
    · rfl
  have htw : ds.takeWhile (is_digit 16) = ds := by
    rw [List.takeWhile_eq_self_iff]
    exact hd
  unfold strtoul
  simp only [dropWhile_head_false _ _ hsp, hsign, h0x, htw]
  rw [if_neg (by omega)]
  simp

theorem find_from_crlf_after (ds rest : Str) (i : Nat) (h : (13 : Nat) ∉ ds) :
    find_from (bytes "\r\n") (ds ++ bytes "\r\n" ++ rest) i = some (i + ds.length) := by
  induction ds generalizing i with
  | nil =>
    show find_from [13, 10] (13 :: 10 :: rest) i = _
    simp [find_from, List.isPrefixOf]
  | cons d ds ih =>
    have hd : d ≠ 13 := fun hd => h (by simp [hd])
    have hds : (13 : Nat) ∉ ds := fun hx => h (by simp [hx])
    show find_from [13, 10] (d :: (ds ++ bytes "\r\n" ++ rest)) i = _
    rw [find_from]
    have : List.isPrefixOf [13, 10] (d :: (ds ++ bytes "\r\n" ++ rest)) = false := by
      simp [List.isPrefixOf]
      intro h13; exact absurd h13.symm hd
    rw [this]
    simp only [Bool.false_eq_true, if_false]
    refine (ih (i + 1) hds).trans ?_
    simp only [List.length_cons]
    congr 1; omega

theorem find_from_crlf_none (ds q : Str) (i : Nat) (h : (13 : Nat) ∉ ds)
    (hq : q <+: ds ++ [13]) : find_from (bytes "\r\n") q i = none := by
  induction ds generalizing i q with
  | nil =>
    simp only [List.nil_append] at hq
    rcases List.prefix_cons_iff.mp hq with rfl | ⟨q', rfl, hq'⟩
    · rfl
    · have : q' = [] := List.prefix_nil.mp hq'
      subst this
      rfl
  | cons d ds ih =>
    have hd : d ≠ 13 := fun hd => h (by simp [hd])
    have hds : (13 : Nat) ∉ ds := fun hx => h (by simp [hx])
    rcases List.prefix_cons_iff.mp hq with rfl | ⟨q', rfl, hq'⟩
    · rfl
    · show find_from [13, 10] (d :: q') i = none
      rw [find_from]
      have : List.isPrefixOf [13, 10] (d :: q') = false := by
        simp [List.isPrefixOf]
        intro h13; exact absurd h13.symm hd
      rw [this]
      simp only [Bool.false_eq_true, if_false]
      exact ih q' (i + 1) hds hq'

theorem find_str_at_append (pre q pat : Str) :
    find_str (pre ++ q) pat pre.length = find_from pat q pre.length := by
  unfold find_str
  rw [if_neg (by simp), List.drop_left]

theorem find_crlf_cases (pre ds rest p : Str) (h13 : (13 : Nat) ∉ ds)
    (hp : p <+: pre ++ (ds ++ (bytes "\r\n" ++ rest))) :
    (p <+: pre ++ (ds ++ [13]) ∧ find_str p (bytes "\r\n") pre.length = none) ∨
    (∃ p2, p = pre ++ (ds ++ (bytes "\r\n" ++ p2)) ∧ p2 <+: rest ∧
      find_str p (bytes "\r\n") pre.length = some (pre.length + ds.length)) := by
  have hfull : pre ++ (ds ++ (bytes "\r\n" ++ rest)) = (pre ++ (ds ++ [13])) ++ (10 :: rest) := by
    simp [bytes]
  have hX : pre ++ (ds ++ [13]) <+: pre ++ (ds ++ (bytes "\r\n" ++ rest)) := by
    rw [hfull]; exact List.prefix_append _ _
  have first : ∀ p : Str, p <+: pre ++ (ds ++ [13]) →
      find_str p (bytes "\r\n") pre.length = none := by
    intro p hpx
    by_cases hlen : p.length < pre.length
    · unfold find_str
      rw [if_pos hlen]
    · have hpre : pre <+: p :=
        List.prefix_of_prefix_length_le (List.prefix_append _ _) hpx (by omega)
      obtain ⟨q, rfl⟩ := hpre
      rw [find_str_at_append]
      exact find_from_crlf_none ds q _ h13 ((List.prefix_append_right_inj pre).mp hpx)
  rcases List.prefix_or_prefix_of_prefix hp hX with h | h
  · exact Or.inl ⟨h, first p h⟩
  · obtain ⟨p1, rfl⟩ := h
    rw [hfull] at hp
    have hp1 : p1 <+: 10 :: rest := (List.prefix_append_right_inj _).mp hp
    rcases List.prefix_cons_iff.mp hp1 with rfl | ⟨p2, rfl, hp2⟩
    · left
      rw [List.append_nil]
      exact ⟨List.prefix_refl _, first _ (List.prefix_refl _)⟩
    · right
      refine ⟨p2, by simp [bytes], hp2, ?_⟩
      have e : pre ++ (ds ++ [13]) ++ 10 :: p2 = pre ++ (ds ++ bytes "\r\n" ++ p2) := by
        simp [bytes]
      rw [e, find_str_at_append]
      exact find_from_crlf_after ds p2 _ h13

theorem hex_no_cr (upper : Bool) (n : Nat) : (13 : Nat) ∉ hex upper n := by
  intro h
  exact (is_digit_16_facts 13 ((hex_spec upper n).2.1 13 h)).2.1 rfl

theorem loop_wellformed (upper : Bool) (cs : List Str) :
    ∀ (pre acc p t : Str) (fuel : Nat),
      (∀ c ∈ cs, c ≠ []) →
      (pre ++ (encode_chunks upper cs ++ (bytes "0\r\n" ++ t))).length < SIZE_MOD →
      p <+: pre ++ (encode_chunks upper cs ++ (bytes "0\r\n" ++ t)) →
      cs.length < fuel →
      ∃ res, reach_chunk_end_loop fuel p pre.length acc = some res ∧
        (p = pre ++ (encode_chunks upper cs ++ (bytes "0\r\n" ++ t)) →
          res = (true, acc ++ cs.flatten)) ∧
        (p <+: pre ++ (encode_chunks upper cs ++ bytes "0\r") → res.1 = false) := by
  induction cs with
  | nil =>
    intro pre acc p t fuel _ _ hp hfuel
    obtain ⟨f, rfl⟩ := Nat.exists_eq_succ_of_ne_zero (Nat.ne_of_gt hfuel)
    have hp' : p <+: pre ++ ([48] ++ (bytes "\r\n" ++ t)) := by
      simpa [encode_chunks, bytes] using hp
    rcases find_crlf_cases pre [48] t p (by decide) hp' with ⟨hpx, hfind⟩ | ⟨p2, rfl, hp2, hfind⟩
    · refine ⟨(false, acc), ?_, ?_, fun _ => rfl⟩
      · rw [reach_chunk_end_loop, hfind]
      · intro hfull
        exfalso
        have h1 := hpx.length_le
        rw [hfull] at h1
        simp [encode_chunks, bytes] at h1
    · refine ⟨(true, acc), ?_, ?_, ?_⟩
      · rw [reach_chunk_end_loop, hfind]
        have hs : substr (pre ++ ([48] ++ (bytes "\r\n" ++ p2))) pre.length
            (pre.length + [48].length - pre.length) = [48] := by
          simp [substr]
        simp only [hs]
        rfl
      · intro _
        simp
      · intro hpx
        exfalso
        have h1 := hpx.length_le
        simp [encode_chunks, bytes] at h1
  | cons c cs ih =>
    intro pre acc p t fuel hne hsize hp hfuel
    obtain ⟨f, rfl⟩ := Nat.exists_eq_succ_of_ne_zero (Nat.ne_of_gt (Nat.zero_lt_of_lt hfuel))
    have hf : cs.length < f := by simpa using hfuel
    obtain ⟨hx1, hx2, hx3⟩ := hex_spec upper c.length
    have h13 := hex_no_cr upper c.length
    have hcne : c ≠ [] := hne c (List.mem_cons_self c cs)
    have hclen : 0 < c.length := List.length_pos.mpr hcne
    have henc : pre ++ (encode_chunks upper (c :: cs) ++ (bytes "0\r\n" ++ t)) =
        pre ++ (hex upper c.length ++ (bytes "\r\n" ++
          (c ++ (bytes "\r\n" ++ (encode_chunks upper cs ++ (bytes "0\r\n" ++ t)))))) := by
      simp [encode_chunks]
    have henc2 : pre ++ (encode_chunks upper (c :: cs) ++ (bytes "0\r\n" ++ t)) =
        (pre ++ (hex upper c.length ++ (bytes "\r\n" ++ (c ++ bytes "\r\n")))) ++
          (encode_chunks upper cs ++ (bytes "0\r\n" ++ t)) := by
      simp [encode_chunks]
    have henc3 : pre ++ (encode_chunks upper (c :: cs) ++ bytes "0\r") =
        (pre ++ (hex upper c.length ++ (bytes "\r\n" ++ (c ++ bytes "\r\n")))) ++
          (encode_chunks upper cs ++ bytes "0\r") := by
      simp [encode_chunks]
    have hsize' := hsize
    rw [henc] at hsize'
    simp only [List.length_append] at hsize'
    have hcrlf : (bytes "\r\n").length = 2 := rfl
    rw [henc] at hp
    rcases find_crlf_cases pre (hex upper c.length) _ p h13 hp with
      ⟨hpx, hfind⟩ | ⟨p2, rfl, hp2, hfind⟩
    · refine ⟨(false, acc), ?_, ?_, fun _ => rfl⟩
      · rw [reach_chunk_end_loop, hfind]
      · intro hfull
        exfalso
        have h1 := hpx.length_le
        rw [hfull, henc] at h1
        simp [bytes] at h1
    · have hs : substr (pre ++ (hex upper c.length ++ (bytes "\r\n" ++ p2))) pre.length
          (pre.length + (hex upper c.length).length - pre.length) = hex upper c.length := by
        simp [substr]
      have htrim : trim (hex upper c.length) = hex upper c.length :=
        trim_no_space _ (fun x hx => (is_digit_16_facts x (hx2 x hx)).1)
      have hval : strtoul (hex upper c.length) 16 = c.length := by
        rw [strtoul_hex_digits _ hx1 hx2 (by rw [hx3]; unfold ULONG_MAX; unfold SIZE_MOD at hsize'; omega), hx3]
      have hpos : (pre.length + (hex upper c.length).length + 2 + c.length + 2) % SIZE_MOD =
          (pre ++ (hex upper c.length ++ (bytes "\r\n" ++ (c ++ bytes "\r\n")))).length := by
        rw [Nat.mod_eq_of_lt]
        · simp only [List.length_append, hcrlf]; omega
        · omega
      have hsize2 : ((pre ++ (hex upper c.length ++ (bytes "\r\n" ++ (c ++ bytes "\r\n")))) ++
          (encode_chunks upper cs ++ (bytes "0\r\n" ++ t))).length < SIZE_MOD := by
        rw [← henc2]; exact hsize
      have hp' : pre ++ (hex upper c.length ++ (bytes "\r\n" ++ p2)) <+:
          (pre ++ (hex upper c.length ++ (bytes "\r\n" ++ (c ++ bytes "\r\n")))) ++
          (encode_chunks upper cs ++ (bytes "0\r\n" ++ t)) := by
        rw [← henc2, henc]; exact hp
      obtain ⟨res, hres, hres2, hres3⟩ :=
        ih (pre ++ (hex upper c.length ++ (bytes "\r\n" ++ (c ++ bytes "\r\n"))))
          (acc ++ substr (pre ++ (hex upper c.length ++ (bytes "\r\n" ++ p2)))
            (pre.length + (hex upper c.length).length + 2) c.length)
          (pre ++ (hex upper c.length ++ (bytes "\r\n" ++ p2))) t f
          (fun x hx => hne x (List.mem_cons_of_mem c hx)) hsize2 hp' hf
      refine ⟨res, ?_, ?_, ?_⟩
      · rw [reach_chunk_end_loop, hfind]
        simp only [hs, htrim, hval]
        rw [if_neg hx1, if_neg (by omega), hpos]
        exact hres
      · intro hfull
        rw [henc] at hfull
        have hp2eq : p2 = c ++ (bytes "\r\n" ++ (encode_chunks upper cs ++ (bytes "0\r\n" ++ t))) := by
          have := List.append_cancel_left hfull
          have := List.append_cancel_left this
          exact List.append_cancel_left this
        have hsub : substr (pre ++ (hex upper c.length ++ (bytes "\r\n" ++ p2)))
            (pre.length + (hex upper c.length).length + 2) c.length = c := by
          have e : pre ++ (hex upper c.length ++ (bytes "\r\n" ++ p2)) =
              (pre ++ hex upper c.length ++ bytes "\r\n") ++ p2 := by simp
          have el : pre.length + (hex upper c.length).length + 2 =
              (pre ++ hex upper c.length ++ bytes "\r\n").length := by
            simp only [List.length_append, hcrlf]
          unfold substr
          rw [e, el, List.drop_left, hp2eq, List.take_left]
        rw [hsub] at hres2
        rw [hres2 (by rw [← henc2, henc]; exact hfull)]
        simp
      · intro hpx
        apply hres3
        rw [← henc3]
        exact hpx

theorem feed_pieces_wellformed (upper : Bool) (cs : List Str) (t : Str) (fuel : Nat)
    (hne : ∀ c ∈ cs, c ≠ []) (hsize : (chunk_stream upper cs t).length < SIZE_MOD)
    (hfuel : cs.length < fuel) (pieces : List Str) :
    ∀ (all_chunk : Str) (last : Option (Bool × Str)),
      all_chunk ++ pieces.flatten = chunk_stream upper cs t →
      (pieces = [] → last = some (true, cs.flatten)) →
      feed_pieces fuel pieces all_chunk last = some (true, cs.flatten) := by
  have hstream : chunk_stream upper cs t = [] ++ (encode_chunks upper cs ++ (bytes "0\r\n" ++ t)) := by
    simp [chunk_stream]
  induction pieces with
  | nil =>
    intro all_chunk last _ hlast
    exact hlast rfl
  | cons piece rest ih =>
    intro all_chunk last hcut _
    have hpre : all_chunk ++ piece <+: [] ++ (encode_chunks upper cs ++ (bytes "0\r\n" ++ t)) := by
      rw [← hstream, ← hcut]
      simp
    obtain ⟨res, hres, hfull, -⟩ :=
      loop_wellformed upper cs [] [] (all_chunk ++ piece) t fuel hne (by rw [← hstream]; exact hsize)
        hpre hfuel
    have hcall : reach_chunk_end fuel piece all_chunk = some (res.1, all_chunk ++ piece, res.2) := by
      unfold reach_chunk_end
      simp only [List.length_nil] at hres
      rw [hres]
    rw [feed_pieces, hcall]
    apply ih
    · rw [← hcut]; simp
    · intro hrest
      subst hrest
      simp only [List.flatten_cons, List.flatten_nil, List.append_nil] at hcut
      have := hfull (by rw [← hstream]; exact hcut)
      rw [this]
      simp

/-- C2: chunk decoding undoes chunk encoding.  For non-empty payloads `cs`, any trailer `t`,
either letter case of the size fields, and any cutting `pieces` of the stream
`hex(|c1|) CRLF c1 CRLF ... "0" CRLF t` (a `std::string`, so shorter than `2 ^ 64` bytes), feeding
the pieces in order to `reach_chunk_end` with one accumulating buffer, empty at first, ends
with a call that returns the flag `true` and the content `c1 ++ ... ++ cn`; each call returns
within `|cs| + 1` iterations of its loop. -/
theorem chunk_decode_encode (upper : Bool) (cs : List Str) (t : Str) (pieces : List Str)
    (fuel : Nat)
    (hne : ∀ c ∈ cs, c ≠ [])
    (hsize : (chunk_stream upper cs t).length < SIZE_MOD)
    (hcut : pieces.flatten = chunk_stream upper cs t)
    (hfuel : cs.length < fuel) :
    feed_pieces fuel pieces [] none = some (true, cs.flatten) := by
  apply feed_pieces_wellformed upper cs t fuel hne hsize hfuel pieces [] none
  · simpa using hcut
  · intro hp
    exfalso
    subst hp
    have h := congrArg List.length hcut
    simp [chunk_stream, bytes] at h
    omega

theorem chunk_decode_encode_witness :
    feed_pieces 2 [bytes "5\r\nhello\r\n0\r\n\r\n"] [] none
      = some (true, [bytes "hello"].flatten) :=
  chunk_decode_encode false [bytes "hello"] (bytes "\r\n") [bytes "5\r\nhello\r\n0\r\n\r\n"] 2
    (by decide) (by decide) (by decide) (by decide)

/-! ## Percent-encoding: decoding undoes encoding -/

theorem fromhex_tohex (d : Nat) (h : d < 16) : fromhex (tohex d) = d := by
  unfold tohex fromhex
  split_ifs <;> omega

theorem url_decode_plain (c : Nat) (rest : Str) (h43 : c ≠ 43) (h37 : c ≠ 37) :
    url_decode (c :: rest) = c :: url_decode rest := by
  rw [url_decode.eq_def]
  simp only [if_neg h43, if_neg h37]

theorem url_decode_plus (rest : Str) : url_decode (43 :: rest) = 32 :: url_decode rest := by
  rw [url_decode.eq_def]
  simp only [if_true]

theorem url_decode_percent (high low : Nat) (rest : Str) :
    url_decode (37 :: high :: low :: rest) =
      (fromhex high * 16 + fromhex low) % 256 :: url_decode rest := by
  rw [url_decode.eq_def]
  simp

theorem url_decode_encode_all (x : Str) (hb : ∀ b ∈ x, b < 256) :
    url_decode (url_encode x) = x := by
  induction x with
  | nil => rfl
  | cons ch rest ih =>
    have hch : ch < 256 := hb ch (List.mem_cons_self ch rest)
    have ih' := ih (fun b hb' => hb b (List.mem_cons_of_mem ch hb'))
    unfold url_encode
    by_cases h1 : (isalnum ch || ch == 45 || ch == 95 || ch == 46 || ch == 126) = true
    · rw [if_pos h1]
      have h43 : ch ≠ 43 := by
        intro h; subst h; simp [isalnum] at h1
      have h37 : ch ≠ 37 := by
        intro h; subst h; simp [isalnum] at h1
      simp only [List.singleton_append]
      rw [url_decode_plain _ _ h43 h37, ih']
    · rw [if_neg h1]
      by_cases h2 : (ch == 32) = true
      · rw [if_pos h2]
        have : ch = 32 := by simpa using h2
        simp only [List.singleton_append]
        rw [url_decode_plus, ih', this]
      · rw [if_neg h2]
        simp only [List.cons_append, List.nil_append]
        rw [url_decode_percent]
        rw [fromhex_tohex _ (by omega), fromhex_tohex _ (Nat.mod_lt _ (by norm_num)), ih']
        congr 1
        omega

/-- C11: for every byte string `x` (bytes below 256) without the byte `'+'` (43),
`url_decode (url_encode x) = x`. -/
theorem url_decode_encode (x : Str) (hb : ∀ b ∈ x, b < 256) (_hplus : (43 : Nat) ∉ x) :
    url_decode (url_encode x) = x :=
  url_decode_encode_all x hb

theorem url_decode_encode_witness :
    url_decode (url_encode (bytes "a b%/~z")) = bytes "a b%/~z" :=
  url_decode_encode (bytes "a b%/~z") (by decide) (by decide)

/-! ## The completion sources: what is delivered -/

theorem DoCallback_effect (c : CAsyncHttpClient) :
    (c.DoCallback).1.m_response = c.m_response ∧
    (c.DoCallback).1.m_cb_called = true ∧
    (c.DoCallback).1.m_cb = c.m_cb ∧
    (c.DoCallback).1.m_throw_in_cb = c.m_throw_in_cb ∧
    (c.DoCallback).1.cb_log =
      (if c.m_cb_called = false ∧ c.m_cb.isSome then c.cb_log ++ [c.m_response] else c.cb_log) := by
  unfold CAsyncHttpClient.DoCallback
  cases hc : c.m_cb_called
  · cases hm : c.m_cb <;> simp
  · simp [hc]

theorem step_latched (c : CAsyncHttpClient) (e : Event) (h : c.m_cb_called = true) :
    (c.step e).1.m_cb_called = true ∧ (c.step e).1.cb_log = c.cb_log := by
  have key : ∀ d : CAsyncHttpClient, d.m_cb_called = true → d.cb_log = c.cb_log →
      (d.DoCallback).1.m_cb_called = true ∧ (d.DoCallback).1.cb_log = c.cb_log := by
    intro d hd hl
    obtain ⟨-, h2, -, -, h5⟩ := DoCallback_effect d
    refine ⟨h2, ?_⟩
    rw [h5, hd, hl]
    simp
  cases e with
  | yield_end msg =>
    cases msg with
    | none => exact key c h rfl
    | some msg => exact key _ h rfl
  | timer ec =>
    cases ec with
    | none => exact key _ h rfl
    | some ec =>
      simp only [CAsyncHttpClient.step, CAsyncHttpClient.timeout_cb]
      split
      · exact key _ h rfl
      · exact ⟨h, rfl⟩
  | teardown =>
    simp only [CAsyncHttpClient.step, CAsyncHttpClient.destroy]
    split
    · exact key _ h rfl
    · exact key c h rfl

theorem run_latched (events : List Event) (c : CAsyncHttpClient) (h : c.m_cb_called = true) :
    (c.run events).cb_log = c.cb_log := by
  induction events generalizing c with
  | nil => rfl
  | cons e events ih =>
    have hs := step_latched c e h
    have hrun : c.run (e :: events) = (c.step e).1.run events := rfl
    rw [hrun, ih _ hs.1, hs.2]

theorem step_throw_flag (c : CAsyncHttpClient) (e : Event) :
    (c.step e).1.m_throw_in_cb = c.m_throw_in_cb := by
  cases e with
  | yield_end msg =>
    cases msg with
    | none => exact (DoCallback_effect c).2.2.2.1
    | some msg => exact (DoCallback_effect _).2.2.2.1
  | timer ec =>
    cases ec with
    | none => exact (DoCallback_effect _).2.2.2.1
    | some ec =>
      simp only [CAsyncHttpClient.step, CAsyncHttpClient.timeout_cb]
      split
      · exact (DoCallback_effect _).2.2.2.1
      · rfl
  | teardown =>
    simp only [CAsyncHttpClient.step, CAsyncHttpClient.destroy]
    split
    · exact (DoCallback_effect _).2.2.2.1
    · exact (DoCallback_effect c).2.2.2.1

theorem run_throw_flag (events : List Event) (c : CAsyncHttpClient) :
    (c.run events).m_throw_in_cb = c.m_throw_in_cb := by
  induction events generalizing c with
  | nil => rfl
  | cons e events ih =>
    have hrun : c.run (e :: events) = (c.step e).1.run events := rfl
    rw [hrun, ih, step_throw_flag]

/-- C12: the destructor of an instance with a stored callback and the latch not set runs the
callback once, on the response with the error text `"abandoned"` when none was recorded and
with the recorded error text otherwise; with the latch set it runs no callback. -/
theorem teardown_delivery (c : CAsyncHttpClient) (cb : ResponseInfo → Bool)
    (hcb : c.m_cb = some cb) :
    (c.m_cb_called = false →
      (c.destroy).1.cb_log = c.cb_log ++
        [{ c.m_response with
            error_msg := if c.m_response.error_msg = [] then bytes "abandoned"
                         else c.m_response.error_msg }]) ∧
    (c.m_cb_called = true → (c.destroy).1.cb_log = c.cb_log) := by
  constructor
  · intro hl
    unfold CAsyncHttpClient.destroy
    split
    · next he =>
      rw [(DoCallback_effect _).2.2.2.2]
      simp [hl, hcb]
    · next he =>
      rw [(DoCallback_effect _).2.2.2.2]
      simp [hl, hcb, he]
  · intro hl
    exact (step_latched c Event.teardown hl).2

theorem teardown_delivery_witness :
    ((((CAsyncHttpClient.new false).makeRequest (fun _ => false) HTTP_METHOD.METHOD_GET).destroy).1.cb_log
      = [] ++ [{ ResponseInfo.new with error_msg := bytes "abandoned" }]) ∧
    (((((CAsyncHttpClient.new false).makeRequest (fun _ => false)
        HTTP_METHOD.METHOD_GET).timeout_cb none).1.destroy).1.cb_log
      = [{ ResponseInfo.new with timeout := true, error_msg := bytes "timeout" }]) :=
  ⟨(teardown_delivery ((CAsyncHttpClient.new false).makeRequest (fun _ => false)
      HTTP_METHOD.METHOD_GET) (fun _ => false) rfl).1 rfl,
   (teardown_delivery (((CAsyncHttpClient.new false).makeRequest (fun _ => false)
      HTTP_METHOD.METHOD_GET).timeout_cb none).1 (fun _ => false) rfl).2 rfl⟩

theorem DoCallback_timeout_inv (d : CAsyncHttpClient) (L : List ResponseInfo)
    (hlog : d.cb_log = L)
    (hnew : d.m_cb_called = false → d.m_response.timeout = true →
      d.m_response.error_msg = bytes "timeout")
    (hold : ∀ r ∈ L, r.timeout = true → r.error_msg = bytes "timeout") :
    ((d.DoCallback).1.m_response.timeout = true → (d.DoCallback).1.m_cb_called = true) ∧
    (∀ r ∈ (d.DoCallback).1.cb_log, r.timeout = true → r.error_msg = bytes "timeout") := by
  obtain ⟨h1, h2, -, -, h5⟩ := DoCallback_effect d
  refine ⟨fun _ => h2, ?_⟩
  rw [h5]
  split
  · next hc =>
    intro r hr
    rcases List.mem_append.mp hr with hr | hr
    · exact hold r (hlog ▸ hr)
    · simp only [List.mem_singleton] at hr
      subst hr
      exact hnew hc.1
  · intro r hr
    exact hold r (hlog ▸ hr)

theorem step_timeout_inv (c : CAsyncHttpClient) (e : Event)
    (h1 : c.m_response.timeout = true → c.m_cb_called = true)
    (h2 : ∀ r ∈ c.cb_log, r.timeout = true → r.error_msg = bytes "timeout") :
    ((c.step e).1.m_response.timeout = true → (c.step e).1.m_cb_called = true) ∧
    (∀ r ∈ (c.step e).1.cb_log, r.timeout = true → r.error_msg = bytes "timeout") := by
  have old : ∀ d : CAsyncHttpClient, d.cb_log = c.cb_log → d.m_cb_called = c.m_cb_called →
      d.m_response.timeout = c.m_response.timeout →
      ((d.DoCallback).1.m_response.timeout = true → (d.DoCallback).1.m_cb_called = true) ∧
      (∀ r ∈ (d.DoCallback).1.cb_log, r.timeout = true → r.error_msg = bytes "timeout") := by
    intro d hl hc ht
    apply DoCallback_timeout_inv d c.cb_log hl _ h2
    intro hcalled htime
    rw [ht] at htime
    rw [hc, h1 htime] at hcalled
    cases hcalled
  cases e with
  | yield_end msg =>
    cases msg with
    | none => exact old c rfl rfl rfl
    | some msg => exact old _ rfl rfl rfl
  | timer ec =>
    cases ec with
    | none =>
      exact DoCallback_timeout_inv _ c.cb_log rfl (fun _ _ => rfl) h2
    | some ec =>
      simp only [CAsyncHttpClient.step, CAsyncHttpClient.timeout_cb]
      split
      · exact old _ rfl rfl rfl
      · exact ⟨h1, h2⟩
  | teardown =>
    simp only [CAsyncHttpClient.step, CAsyncHttpClient.destroy]
    split
    · exact old _ rfl rfl rfl
    · exact old c rfl rfl rfl

theorem run_timeout_inv (events : List Event) (c : CAsyncHttpClient)
    (h1 : c.m_response.timeout = true → c.m_cb_called = true)
    (h2 : ∀ r ∈ c.cb_log, r.timeout = true → r.error_msg = bytes "timeout") :
    ∀ r ∈ (c.run events).cb_log, r.timeout = true → r.error_msg = bytes "timeout" := by
  induction events generalizing c with
  | nil => exact h2
  | cons e events ih =>
    obtain ⟨s1, s2⟩ := step_timeout_inv c e h1 h2
    exact ih (c.step e).1 s1 s2

theorem DoCallback_no_expiry (d : CAsyncHttpClient) (ht : d.m_response.timeout = false)
    (hl : ∀ r ∈ d.cb_log, r.timeout = false) :
    (d.DoCallback).1.m_response.timeout = false ∧
    (∀ r ∈ (d.DoCallback).1.cb_log, r.timeout = false) := by
  obtain ⟨h1, -, -, -, h5⟩ := DoCallback_effect d
  refine ⟨by rw [h1]; exact ht, ?_⟩
  rw [h5]
  split
  · intro r hr
    rcases List.mem_append.mp hr with hr | hr
    · exact hl r hr
    · simp only [List.mem_singleton] at hr
      subst hr
      exact ht
  · exact hl

theorem step_no_expiry (c : CAsyncHttpClient) (e : Event) (he : e ≠ Event.timer none)
    (ht : c.m_response.timeout = false) (hl : ∀ r ∈ c.cb_log, r.timeout = false) :
    (c.step e).1.m_response.timeout = false ∧ (∀ r ∈ (c.step e).1.cb_log, r.timeout = false) := by
  cases e with
  | yield_end msg =>
    cases msg with
    | none => exact DoCallback_no_expiry c ht hl
    | some msg => exact DoCallback_no_expiry _ ht hl
  | timer ec =>
    cases ec with
    | none => exact absurd rfl he
    | some ec =>
      simp only [CAsyncHttpClient.step, CAsyncHttpClient.timeout_cb]
      split
      · exact DoCallback_no_expiry _ ht hl
      · exact ⟨ht, hl⟩
  | teardown =>
    simp only [CAsyncHttpClient.step, CAsyncHttpClient.destroy]
    split
    · exact DoCallback_no_expiry _ ht hl
    · exact DoCallback_no_expiry c ht hl

theorem run_no_expiry (events : List Event) (c : CAsyncHttpClient)
    (he : ∀ e ∈ events, e ≠ Event.timer none)
    (ht : c.m_response.timeout = false) (hl : ∀ r ∈ c.cb_log, r.timeout = false) :
    ∀ r ∈ (c.run events).cb_log, r.timeout = false := by
  induction events generalizing c with
  | nil => exact hl
  | cons e events ih =>
    obtain ⟨s1, s2⟩ := step_no_expiry c e (he e (List.mem_cons_self e events)) ht hl
    exact ih (c.step e).1 (fun x hx => he x (List.mem_cons_of_mem e hx)) s1 s2

theorem DoCallback_log_grows (d : CAsyncHttpClient) (L : List ResponseInfo) (h : d.cb_log = L) :
    L <+: (d.DoCallback).1.cb_log := by
  rw [(DoCallback_effect d).2.2.2.2, h]
  split
  · exact List.prefix_append _ _
  · exact List.prefix_refl _

theorem step_log_grows (c : CAsyncHttpClient) (e : Event) : c.cb_log <+: (c.step e).1.cb_log := by
  cases e with
  | yield_end msg =>
    cases msg with
    | none => exact DoCallback_log_grows c _ rfl
    | some msg => exact DoCallback_log_grows _ _ rfl
  | timer ec =>
    cases ec with
    | none => exact DoCallback_log_grows _ _ rfl
    | some ec =>
      simp only [CAsyncHttpClient.step, CAsyncHttpClient.timeout_cb]
      split
      · exact DoCallback_log_grows _ _ rfl
      · exact List.prefix_refl _
  | teardown =>
    simp only [CAsyncHttpClient.step, CAsyncHttpClient.destroy]
    split
    · exact DoCallback_log_grows _ _ rfl
    · exact DoCallback_log_grows c _ rfl

theorem run_log_grows (events : List Event) (c : CAsyncHttpClient) :
    c.cb_log <+: (c.run events).cb_log := by
  induction events generalizing c with
  | nil => exact List.prefix_refl _
  | cons e events ih => exact (step_log_grows c e).trans (ih (c.step e).1)

theorem run_append (events later : List Event) (c : CAsyncHttpClient) :
    c.run (events ++ later) = (c.run events).run later := by
  simp [CAsyncHttpClient.run, List.foldl_append]

/-- C13: timer expiry on an instance with a stored callback and the latch not set delivers the
response with `timeout = true` and the error text `"timeout"`.  On a started instance, after
any sequence of events, every delivered response with `timeout = true` has the error text
`"timeout"`; a response delivered before any expiry has `timeout = false`, and what has been
delivered stays as it is whatever events follow. -/
theorem timeout_delivery (throw_in_cb : Bool) (cb : ResponseInfo → Bool) (m : HTTP_METHOD) :
    (∀ c : CAsyncHttpClient, c.m_cb = some cb → c.m_cb_called = false →
      (c.timeout_cb none).1.cb_log =
        c.cb_log ++ [{ c.m_response with timeout := true, error_msg := bytes "timeout" }]) ∧
    (∀ events : List Event,
      ∀ r ∈ (((CAsyncHttpClient.new throw_in_cb).makeRequest cb m).run events).cb_log,
        r.timeout = true → r.error_msg = bytes "timeout") ∧
    (∀ events later : List Event, (∀ e ∈ events, e ≠ Event.timer none) →
      (∀ r ∈ (((CAsyncHttpClient.new throw_in_cb).makeRequest cb m).run events).cb_log,
        r.timeout = false) ∧
      (((CAsyncHttpClient.new throw_in_cb).makeRequest cb m).run events).cb_log <+:
        (((CAsyncHttpClient.new throw_in_cb).makeRequest cb m).run (events ++ later)).cb_log) := by
  refine ⟨?_, ?_, ?_⟩
  · intro c hcb hl
    unfold CAsyncHttpClient.timeout_cb
    simp only
    rw [(DoCallback_effect _).2.2.2.2]
    simp [hl, hcb]
  · intro events
    apply run_timeout_inv
    · intro h; cases h
    · intro r hr; cases hr
  · intro events later hne
    constructor
    · apply run_no_expiry events _ hne rfl
      intro r hr; cases hr
    · rw [run_append]
      exact run_log_grows later _

theorem timeout_delivery_witness :
    ((((CAsyncHttpClient.new false).makeRequest (fun _ => false) HTTP_METHOD.METHOD_GET).timeout_cb
        none).1.cb_log =
      [] ++ [{ ResponseInfo.new with timeout := true, error_msg := bytes "timeout" }]) ∧
    ((∀ r ∈ (((CAsyncHttpClient.new false).makeRequest (fun _ => false) HTTP_METHOD.METHOD_GET).run
        [Event.yield_end none]).cb_log, r.timeout = false) ∧
      (((CAsyncHttpClient.new false).makeRequest (fun _ => false) HTTP_METHOD.METHOD_GET).run
        [Event.yield_end none]).cb_log <+:
      (((CAsyncHttpClient.new false).makeRequest (fun _ => false) HTTP_METHOD.METHOD_GET).run
        ([Event.yield_end none] ++ [Event.timer none])).cb_log) :=
  ⟨(timeout_delivery false (fun _ => false) HTTP_METHOD.METHOD_GET).1
      ((CAsyncHttpClient.new false).makeRequest (fun _ => false) HTTP_METHOD.METHOD_GET) rfl rfl,
   (timeout_delivery false (fun _ => false) HTTP_METHOD.METHOD_GET).2.2
      [Event.yield_end none] [Event.timer none] (by decide)⟩

/-- C20: when the callback raises, `DoCallback` lets the exception out exactly when the
instance was constructed with `throw_in_cb = true`, a flag no event changes; either way the
latch is set and the callback has run, and no later event runs it again. -/
theorem callback_raises (c : CAsyncHttpClient) (cb : ResponseInfo → Bool)
    (hcb : c.m_cb = some cb) (hlatch : c.m_cb_called = false)
    (hraise : cb c.m_response = true) :
    ((c.DoCallback).2 = true ↔ c.m_throw_in_cb = true) ∧
    (c.DoCallback).1.m_cb_called = true ∧
    (c.DoCallback).1.cb_log = c.cb_log ++ [c.m_response] ∧
    (∀ events : List Event, ((c.DoCallback).1.run events).cb_log = (c.DoCallback).1.cb_log) ∧
    (∀ (t : Bool) (m : HTTP_METHOD) (events : List Event),
      (((CAsyncHttpClient.new t).makeRequest cb m).run events).m_throw_in_cb = t) := by
  obtain ⟨-, h2, -, -, h5⟩ := DoCallback_effect c
  refine ⟨?_, h2, ?_, ?_, ?_⟩
  · unfold CAsyncHttpClient.DoCallback
    simp [hlatch, hcb, hraise]
  · rw [h5]
    simp [hlatch, hcb]
  · intro events
    exact run_latched events _ h2
  · intro t m events
    rw [run_throw_flag]
    rfl

theorem callback_raises_witness :
    ((((CAsyncHttpClient.new true).makeRequest (fun _ => true) HTTP_METHOD.METHOD_GET).DoCallback).2
        = true ↔
      ((CAsyncHttpClient.new true).makeRequest (fun _ => true) HTTP_METHOD.METHOD_GET).m_throw_in_cb
        = true) ∧
    ((((CAsyncHttpClient.new false).makeRequest (fun _ => true) HTTP_METHOD.METHOD_GET).DoCallback).2
        = true ↔
      ((CAsyncHttpClient.new false).makeRequest (fun _ => true) HTTP_METHOD.METHOD_GET).m_throw_in_cb
        = true) :=
  ⟨(callback_raises ((CAsyncHttpClient.new true).makeRequest (fun _ => true)
      HTTP_METHOD.METHOD_GET) (fun _ => true) rfl rfl rfl).1,
   (callback_raises ((CAsyncHttpClient.new false).makeRequest (fun _ => true)
      HTTP_METHOD.METHOD_GET) (fun _ => true) rfl rfl rfl).1⟩

/-! ## The header map: key order and lookup -/

theorem str_lt_irrefl (a : Str) : str_lt a a = false := by
  induction a with
  | nil => rfl
  | cons x a ih => simp [str_lt, ih]

theorem str_lt_trans (a b c : Str) (h1 : str_lt a b = true) (h2 : str_lt b c = true) :
    str_lt a c = true := by
  induction a generalizing b c with
  | nil =>
    cases b with
    | nil => simp [str_lt] at h1
    | cons y b =>
      cases c with
      | nil => simp [str_lt] at h2
      | cons z c => rfl
  | cons x a ih =>
    cases b with
    | nil => simp [str_lt] at h1
    | cons y b =>
      cases c with
      | nil => simp [str_lt] at h2
      | cons z c =>
        simp only [str_lt, Bool.or_eq_true, decide_eq_true_eq, Bool.and_eq_true, beq_iff_eq]
          at h1 h2 ⊢
        rcases h1 with h1 | ⟨rfl, h1⟩
        · rcases h2 with h2 | ⟨rfl, h2⟩
          · left; omega
          · left; exact h1
        · rcases h2 with h2 | ⟨rfl, h2⟩
          · left; exact h2
          · right; exact ⟨rfl, ih b c h1 h2⟩

theorem str_lt_total (a b : Str) (h1 : str_lt a b = false) (h2 : a ≠ b) : str_lt b a = true := by
  induction a generalizing b with
  | nil =>
    cases b with
    | nil => exact absurd rfl h2
    | cons y b => simp [str_lt] at h1
  | cons x a ih =>
    cases b with
    | nil => rfl
    | cons y b =>
      simp only [str_lt, Bool.or_eq_false_iff, decide_eq_false_iff_not, Bool.and_eq_false_imp,
        beq_iff_eq] at h1
      simp only [str_lt, Bool.or_eq_true, decide_eq_true_eq, Bool.and_eq_true, beq_iff_eq]
      by_cases hxy : x = y
      · subst hxy
        right
        refine ⟨rfl, ih b (h1.2 rfl) ?_⟩
        intro hab
        exact h2 (by rw [hab])
      · left
        omega

theorem lookup_cons_ite (a k b : Str) (es : List (Str × Str)) :
    List.lookup a ((k, b) :: es) = if a = k then some b else List.lookup a es := by
  rw [List.lookup_cons]
  by_cases h : a = k
  · subst h
    simp
  · have hb : (a == k) = false := beq_false_of_ne h
    rw [if_neg h, hb]

theorem lookup_assign (m : HeaderMap) (k v k' : Str) :
    (HeaderMap.assign m k v).lookup k' = if k' = k then some v else m.lookup k' := by
  induction m with
  | nil =>
    simp only [HeaderMap.assign, lookup_cons_ite, List.lookup_nil]
  | cons e rest ih =>
    obtain ⟨k1, v1⟩ := e
    unfold HeaderMap.assign
    by_cases hlt : str_lt k k1 = true
    · simp only [hlt, if_true, lookup_cons_ite]
    · simp only [hlt, Bool.false_eq_true, if_false]
      by_cases hk : k = k1
      · subst hk
        simp only [if_true, lookup_cons_ite]
        by_cases h : k' = k <;> simp [h]
      · simp only [hk, if_false, lookup_cons_ite, ih]
        by_cases h : k' = k
        · subst h
          simp [hk]
        · simp [h]

theorem of_list_append (es : List (Str × Str)) (kv : Str × Str) :
    HeaderMap.of_list (es ++ [kv]) = HeaderMap.assign (HeaderMap.of_list es) kv.1 kv.2 := by
  simp [HeaderMap.of_list, List.foldl_append]

theorem lookup_of_list (es : List (Str × Str)) (k : Str) :
    (HeaderMap.of_list es).lookup k = es.reverse.lookup k := by
  induction es using List.reverseRecOn with
  | nil => rfl
  | append_singleton es kv ih =>
    rw [of_list_append, lookup_assign, ih, List.reverse_append]
    obtain ⟨k1, v1⟩ := kv
    simp only [List.reverse_cons, List.reverse_nil, List.nil_append, List.singleton_append,
      lookup_cons_ite]

theorem mem_assign (m : HeaderMap) (k v : Str) (e : Str × Str)
    (h : e ∈ HeaderMap.assign m k v) : e = (k, v) ∨ e ∈ m := by
  induction m with
  | nil =>
    simp only [HeaderMap.assign, List.mem_singleton] at h
    exact Or.inl h
  | cons e1 rest ih =>
    obtain ⟨k1, v1⟩ := e1
    unfold HeaderMap.assign at h
    split_ifs at h with h1 h2
    · rcases List.mem_cons.mp h with h | h
      · exact Or.inl h
      · exact Or.inr h
    · rcases List.mem_cons.mp h with h | h
      · exact Or.inl h
      · exact Or.inr (List.mem_cons_of_mem _ h)
    · rcases List.mem_cons.mp h with h | h
      · exact Or.inr (by rw [h]; exact List.mem_cons_self _ _)
      · rcases ih h with h | h
        · exact Or.inl h
        · exact Or.inr (List.mem_cons_of_mem _ h)

theorem assign_sorted (m : HeaderMap) (k v : Str)
    (h : List.Pairwise (fun a b : Str × Str => str_lt a.1 b.1 = true) m) :
    List.Pairwise (fun a b : Str × Str => str_lt a.1 b.1 = true) (HeaderMap.assign m k v) := by
  induction m with
  | nil => simp [HeaderMap.assign]
  | cons e1 rest ih =>
    obtain ⟨k1, v1⟩ := e1
    rw [List.pairwise_cons] at h
    unfold HeaderMap.assign
    split_ifs with h1 h2
    · rw [List.pairwise_cons]
      refine ⟨?_, List.pairwise_cons.mpr h⟩
      intro e he
      rcases List.mem_cons.mp he with he | he
      · rw [he]; exact h1
      · exact str_lt_trans _ _ _ h1 (h.1 e he)
    · subst h2
      rw [List.pairwise_cons]
      exact ⟨h.1, h.2⟩
    · rw [List.pairwise_cons]
      refine ⟨?_, ih h.2⟩
      intro e he
      rcases mem_assign rest k v e he with he | he
      · rw [he]
        exact str_lt_total k k1 (by simpa using h1) h2
      · exact h.1 e he

theorem of_list_sorted (es : List (Str × Str)) :
    List.Pairwise (fun a b : Str × Str => str_lt a.1 b.1 = true) (HeaderMap.of_list es) := by
  induction es using List.reverseRecOn with
  | nil => exact List.Pairwise.nil
  | append_singleton es kv ih =>
    rw [of_list_append]
    exact assign_sorted _ _ _ ih

theorem assign_last (m : HeaderMap) (k v : Str) (h : ∀ e ∈ m, str_lt e.1 k = true) :
    HeaderMap.assign m k v = m ++ [(k, v)] := by
  induction m with
  | nil => rfl
  | cons e1 rest ih =>
    obtain ⟨k1, v1⟩ := e1
    have h1 : str_lt k1 k = true := h (k1, v1) (List.mem_cons_self _ _)
    have h2 : str_lt k k1 = false := by
      by_contra hc
      have := str_lt_trans k k1 k (by simpa using hc) h1
      rw [str_lt_irrefl] at this
      cases this
    have h3 : k ≠ k1 := by
      intro hk
      subst hk
      rw [str_lt_irrefl] at h1
      cases h1
    unfold HeaderMap.assign
    simp only [h2, Bool.false_eq_true, if_false, h3, List.cons_append]
    rw [ih (fun e he => h e (List.mem_cons_of_mem _ he))]

theorem of_list_of_sorted (m : HeaderMap)
    (h : List.Pairwise (fun a b : Str × Str => str_lt a.1 b.1 = true) m) :
    HeaderMap.of_list m = m := by
  induction m using List.reverseRecOn with
  | nil => rfl
  | append_singleton m kv ih =>
    rw [List.pairwise_append] at h
    rw [of_list_append, ih h.1]
    exact assign_last m kv.1 kv.2 (fun e he => h.2.2 e he kv (List.mem_singleton_self kv))

/-! ## The request builder -/

theorem build_request_string_parts (scheme host path query body : Str) (m : HTTP_METHOD)
    (headers : HeaderMap) :
    build_request_string scheme host path query m headers body =
      request_start scheme host path query m
      ++ ((headers.map header_line).flatten
      ++ ((if headers.lookup (bytes "Host") = none then bytes "Host: " ++ host ++ bytes "\r\n"
            else [])
      ++ ((if headers.lookup (bytes "Content-Length") = none then
            bytes "Content-Length: " ++ to_decimal body.length ++ bytes "\r\n" else [])
      ++ (bytes "\r\n" ++ body)))) := by
  have hc : ∀ k : Str, (headers.count k = 0) = (headers.lookup k = none) := by
    intro k
    exact propext (HeaderMap_count_eq_zero headers k)
  unfold build_request_string request_start
  simp only [hc, List.append_assoc]

theorem request_line_of_method (scheme host path query : Str) (m : HTTP_METHOD)
    (hm : m = HTTP_METHOD.METHOD_GET ∨ m = HTTP_METHOD.METHOD_POST ∨
      m = HTTP_METHOD.METHOD_PUT ∨ m = HTTP_METHOD.METHOD_DELETE) :
    request_start scheme host path query m = request_line m scheme host path query := by
  have h1 : (if scheme ≠ [] then scheme ++ bytes "://" else []) =
      (if scheme = [] then [] else scheme ++ bytes "://") := by
    by_cases h : scheme = [] <;> simp [h]
  have h2 : (if query ≠ [] then bytes "?" ++ query else []) =
      (if query = [] then [] else bytes "?" ++ query) := by
    by_cases h : query = [] <;> simp [h]
  have h3 : bytes " HTTP/1.1\r\n" = bytes " HTTP/1.1" ++ bytes "\r\n" := by decide
  unfold request_line request_start
  rw [h1, h2, h3]
  rcases hm with rfl | rfl | rfl | rfl <;>
    simp only [method_name, List.append_assoc] <;> rfl

theorem lines_end_crlf (headers : HeaderMap) (pre : Str) (h : ∃ y, pre = y ++ bytes "\r\n") :
    ∃ y, pre ++ (headers.map header_line).flatten = y ++ bytes "\r\n" := by
  induction headers generalizing pre with
  | nil => simpa using h
  | cons e rest ih =>
    have := ih (pre ++ header_line e) ⟨pre ++ (e.1 ++ bytes ": " ++ e.2), by
      simp [header_line]⟩
    simpa using this

/-- C14: for the methods GET, POST, PUT and DELETE the output of `build_request_string` begins
with the method name, a space, `scheme://` when the scheme is not empty, host, path, `?query`
when the query is not empty, and ` HTTP/1.1\r\n`, followed by one `key: value\r\n` line per
entry of the caller's map; the map lists its entries by ascending key and holds for each key
the value assigned last. -/
theorem build_request_string_head (scheme host path query body : Str) (m : HTTP_METHOD)
    (entries : List (Str × Str))
    (hm : m = HTTP_METHOD.METHOD_GET ∨ m = HTTP_METHOD.METHOD_POST ∨
      m = HTTP_METHOD.METHOD_PUT ∨ m = HTTP_METHOD.METHOD_DELETE) :
    (request_line m scheme host path query ++
        ((HeaderMap.of_list entries).map header_line).flatten) <+:
      build_request_string scheme host path query m (HeaderMap.of_list entries) body ∧
    List.Pairwise (fun a b : Str × Str => str_lt a.1 b.1 = true) (HeaderMap.of_list entries) ∧
    (∀ k : Str, (HeaderMap.of_list entries).lookup k = entries.reverse.lookup k) := by
  refine ⟨?_, of_list_sorted entries, lookup_of_list entries⟩
  rw [build_request_string_parts, request_line_of_method scheme host path query m hm,
    ← List.append_assoc]
  exact List.prefix_append _ _

theorem build_request_string_head_witness :
    (request_line HTTP_METHOD.METHOD_GET (bytes "http") (bytes "a.b") (bytes "/x") (bytes "q=1") ++
        ((HeaderMap.of_list [(bytes "b", bytes "1"), (bytes "a", bytes "2")]).map
          header_line).flatten) <+:
      build_request_string (bytes "http") (bytes "a.b") (bytes "/x") (bytes "q=1")
        HTTP_METHOD.METHOD_GET (HeaderMap.of_list [(bytes "b", bytes "1"), (bytes "a", bytes "2")])
        [] :=
  (build_request_string_head (bytes "http") (bytes "a.b") (bytes "/x") (bytes "q=1") []
    HTTP_METHOD.METHOD_GET [(bytes "b", bytes "1"), (bytes "a", bytes "2")] (Or.inl rfl)).1

/-- C16: there is a first line, fixed by method, scheme, host, path and query, such that for
every header map and body: without the key `Content-Length` the output ends with
`Content-Length: <decimal length of body>\r\n\r\n<body>`; with that key the output is the first
line, the caller's lines, the `Host` line if injected, `\r\n` and the body, so it holds no
injected `Content-Length` line, and it ends with `\r\n\r\n<body>`. -/
theorem build_request_string_tail (scheme host path query : Str) (m : HTTP_METHOD) :
    ∃ first : Str, ∀ (headers : HeaderMap) (body : Str),
      (headers.lookup (bytes "Content-Length") = none →
        (bytes "Content-Length: " ++ to_decimal body.length ++ bytes "\r\n\r\n" ++ body) <:+
          build_request_string scheme host path query m headers body) ∧
      (∀ v : Str, headers.lookup (bytes "Content-Length") = some v →
        build_request_string scheme host path query m headers body =
          first ++ (headers.map header_line).flatten ++
            (if headers.lookup (bytes "Host") = none then bytes "Host: " ++ host ++ bytes "\r\n"
              else []) ++ bytes "\r\n" ++ body ∧
        (bytes "\r\n\r\n" ++ body) <:+
          build_request_string scheme host path query m headers body) := by
  refine ⟨request_start scheme host path query m, fun headers body => ⟨?_, ?_⟩⟩
  · intro hcl
    rw [build_request_string_parts, if_pos hcl]
    have e : bytes "Content-Length: " ++ to_decimal body.length ++ bytes "\r\n\r\n" ++ body =
        bytes "Content-Length: " ++ to_decimal body.length ++ bytes "\r\n" ++
          (bytes "\r\n" ++ body) := by
      simp [bytes]
    rw [e]
    refine ⟨request_start scheme host path query m ++ ((headers.map header_line).flatten ++
      (if headers.lookup (bytes "Host") = none then bytes "Host: " ++ host ++ bytes "\r\n"
        else [])), ?_⟩
    simp only [List.append_assoc]
  · intro v hcl
    have hne : ¬ headers.lookup (bytes "Content-Length") = none := by
      rw [hcl]; simp
    have hout : build_request_string scheme host path query m headers body =
        request_start scheme host path query m ++ (headers.map header_line).flatten ++
          (if headers.lookup (bytes "Host") = none then bytes "Host: " ++ host ++ bytes "\r\n"
            else []) ++ bytes "\r\n" ++ body := by
      rw [build_request_string_parts, if_neg hne]
      simp only [List.nil_append, List.append_assoc]
    refine ⟨hout, ?_⟩
    obtain ⟨y, hy⟩ := lines_end_crlf headers (request_start scheme host path query m)
      ⟨_, rfl⟩
    have hy2 : ∃ z, request_start scheme host path query m ++ (headers.map header_line).flatten ++
        (if headers.lookup (bytes "Host") = none then bytes "Host: " ++ host ++ bytes "\r\n"
          else []) = z ++ bytes "\r\n" := by
      split
      · exact ⟨request_start scheme host path query m ++ ((headers.map header_line).flatten ++
          (bytes "Host: " ++ host)), by simp only [List.append_assoc]⟩
      · exact ⟨y, by simpa using hy⟩
    obtain ⟨z, hz⟩ := hy2
    rw [hout, hz]
    refine ⟨z, ?_⟩
    simp [bytes]

theorem build_request_string_tail_witness :
    ∃ first : Str,
      ((bytes "Content-Length: " ++ to_decimal (bytes "hello").length ++ bytes "\r\n\r\n" ++
          bytes "hello") <:+
        build_request_string (bytes "http") (bytes "a.b") (bytes "/") [] HTTP_METHOD.METHOD_POST
          [] (bytes "hello")) ∧
      (build_request_string (bytes "http") (bytes "a.b") (bytes "/") [] HTTP_METHOD.METHOD_POST
          [(bytes "Content-Length", bytes "9")] (bytes "hello") =
        first ++ ([(bytes "Content-Length", bytes "9")].map header_line).flatten ++
          (if List.lookup (bytes "Host") [(bytes "Content-Length", bytes "9")] = none then
            bytes "Host: " ++ bytes "a.b" ++ bytes "\r\n" else []) ++ bytes "\r\n" ++ bytes "hello" ∧
        (bytes "\r\n\r\n" ++ bytes "hello") <:+
          build_request_string (bytes "http") (bytes "a.b") (bytes "/") [] HTTP_METHOD.METHOD_POST
            [(bytes "Content-Length", bytes "9")] (bytes "hello")) :=
  (build_request_string_tail (bytes "http") (bytes "a.b") (bytes "/") []
    HTTP_METHOD.METHOD_POST).imp
    (fun _ h => ⟨(h [] (bytes "hello")).1 rfl,
      (h [(bytes "Content-Length", bytes "9")] (bytes "hello")).2 (bytes "9") rfl⟩)

theorem mem_of_lookup (m : HeaderMap) (k v : Str) (h : m.lookup k = some v) : (k, v) ∈ m := by
  induction m with
  | nil => simp at h
  | cons e rest ih =>
    obtain ⟨k1, v1⟩ := e
    rw [lookup_cons_ite] at h
    split_ifs at h with hk
    · simp only [Option.some.injEq] at h
      rw [hk, h]
      exact List.mem_cons_self _ _
    · exact List.mem_cons_of_mem _ (ih h)

theorem filter_key_of_sorted (m : HeaderMap) (k v : Str)
    (hs : List.Pairwise (fun a b : Str × Str => str_lt a.1 b.1 = true) m)
    (h : m.lookup k = some v) :
    m.filter (fun kv => decide (kv.1 = k)) = [(k, v)] := by
  induction m with
  | nil => simp at h
  | cons e rest ih =>
    obtain ⟨k1, v1⟩ := e
    rw [List.pairwise_cons] at hs
    rw [lookup_cons_ite] at h
    split_ifs at h with hk
    · simp only [Option.some.injEq] at h
      subst hk h
      have hrest : rest.filter (fun kv => decide (kv.1 = k)) = [] := by
        rw [List.filter_eq_nil_iff]
        intro e he
        have hlt := hs.1 e he
        simp only [decide_eq_true_eq]
        intro hek
        simp only at hlt
        rw [hek, str_lt_irrefl] at hlt
        cases hlt
      simp [List.filter, hrest]
    · have hk' : ¬ k1 = k := fun hh => hk hh.symm
      simp only [List.filter, hk', decide_False]
      exact ih hs.2 h

/-- C15, as the code has it: the line `Host: <host>\r\n` is written after the caller's lines
exactly when the map has no key `Host`, case-sensitively; a map with the key `host` and
without `Host` gets both the caller's `host: ...` line and the injected `Host: ...` line; for a
map with the key `Host` no line is injected, the header lines written being the caller's own,
of which exactly one is for the key `Host`. -/
theorem build_request_string_host (scheme host path query body : Str) (m : HTTP_METHOD)
    (entries : List (Str × Str)) :
    (build_request_string scheme host path query m (HeaderMap.of_list entries) body =
      request_start scheme host path query m ++
        ((HeaderMap.of_list entries).map header_line).flatten ++
        (if (HeaderMap.of_list entries).lookup (bytes "Host") = none then
          bytes "Host: " ++ host ++ bytes "\r\n" else []) ++
        (if (HeaderMap.of_list entries).lookup (bytes "Content-Length") = none then
          bytes "Content-Length: " ++ to_decimal body.length ++ bytes "\r\n" else []) ++
        bytes "\r\n" ++ body) ∧
    (∀ v : Str, (HeaderMap.of_list entries).lookup (bytes "host") = some v →
      (HeaderMap.of_list entries).lookup (bytes "Host") = none →
      header_line (bytes "host", v) ∈ (HeaderMap.of_list entries).map header_line ∧
      build_request_string scheme host path query m (HeaderMap.of_list entries) body =
        request_start scheme host path query m ++
          ((HeaderMap.of_list entries).map header_line).flatten ++
          (bytes "Host: " ++ host ++ bytes "\r\n") ++
          (if (HeaderMap.of_list entries).lookup (bytes "Content-Length") = none then
            bytes "Content-Length: " ++ to_decimal body.length ++ bytes "\r\n" else []) ++
          bytes "\r\n" ++ body) ∧
    (∀ v : Str, (HeaderMap.of_list entries).lookup (bytes "Host") = some v →
      (HeaderMap.of_list entries).filter (fun kv => decide (kv.1 = bytes "Host")) =
        [(bytes "Host", v)] ∧
      build_request_string scheme host path query m (HeaderMap.of_list entries) body =
        request_start scheme host path query m ++
          ((HeaderMap.of_list entries).map header_line).flatten ++
          (if (HeaderMap.of_list entries).lookup (bytes "Content-Length") = none then
            bytes "Content-Length: " ++ to_decimal body.length ++ bytes "\r\n" else []) ++
          bytes "\r\n" ++ body) := by
  have hparts := build_request_string_parts scheme host path query body m (HeaderMap.of_list entries)
  refine ⟨?_, ?_, ?_⟩
  · rw [hparts]
    simp only [List.append_assoc]
  · intro v hv hno
    refine ⟨List.mem_map_of_mem _ (mem_of_lookup _ _ _ hv), ?_⟩
    rw [hparts, if_pos hno]
    simp only [List.append_assoc]
  · intro v hv
    refine ⟨filter_key_of_sorted _ _ _ (of_list_sorted entries) hv, ?_⟩
    have hne : ¬ (HeaderMap.of_list entries).lookup (bytes "Host") = none := by
      rw [hv]; simp
    rw [hparts, if_neg hne]
    simp only [List.nil_append, List.append_assoc]

theorem build_request_string_host_witness :
    (header_line (bytes "host", bytes "a") ∈
        (HeaderMap.of_list [(bytes "host", bytes "a")]).map header_line ∧
      build_request_string (bytes "http") (bytes "h") (bytes "/") [] HTTP_METHOD.METHOD_GET
          (HeaderMap.of_list [(bytes "host", bytes "a")]) [] =
        request_start (bytes "http") (bytes "h") (bytes "/") [] HTTP_METHOD.METHOD_GET ++
          ((HeaderMap.of_list [(bytes "host", bytes "a")]).map header_line).flatten ++
          (bytes "Host: " ++ bytes "h" ++ bytes "\r\n") ++
          (if (HeaderMap.of_list [(bytes "host", bytes "a")]).lookup (bytes "Content-Length") = none
            then bytes "Content-Length: " ++ to_decimal ([] : Str).length ++ bytes "\r\n" else []) ++
          bytes "\r\n" ++ []) ∧
    ((HeaderMap.of_list [(bytes "Host", bytes "a")]).filter
          (fun kv => decide (kv.1 = bytes "Host")) = [(bytes "Host", bytes "a")] ∧
      build_request_string (bytes "http") (bytes "h") (bytes "/") [] HTTP_METHOD.METHOD_GET
          (HeaderMap.of_list [(bytes "Host", bytes "a")]) [] =
        request_start (bytes "http") (bytes "h") (bytes "/") [] HTTP_METHOD.METHOD_GET ++
          ((HeaderMap.of_list [(bytes "Host", bytes "a")]).map header_line).flatten ++
          (if (HeaderMap.of_list [(bytes "Host", bytes "a")]).lookup (bytes "Content-Length") = none
            then bytes "Content-Length: " ++ to_decimal ([] : Str).length ++ bytes "\r\n" else []) ++
          bytes "\r\n" ++ []) :=
  ⟨(build_request_string_host (bytes "http") (bytes "h") (bytes "/") [] []
      HTTP_METHOD.METHOD_GET [(bytes "host", bytes "a")]).2.1 (bytes "a") (by decide) (by decide),
   (build_request_string_host (bytes "http") (bytes "h") (bytes "/") [] []
      HTTP_METHOD.METHOD_GET [(bytes "Host", bytes "a")]).2.2 (bytes "a") (by decide)⟩

/-- C15 fails as stated: with the key `Host` in the map, the output has two lines that begin
with `Host: ` when the body is `Host: x`, and also when another value holds a line break
followed by `Host: z`. -/
theorem build_request_string_host_counterexample :
    ((HeaderMap.of_list [(bytes "Host", bytes "a")]).lookup (bytes "Host") = some (bytes "a") ∧
      lines_beginning_with (bytes "Host: ")
        (build_request_string (bytes "http") (bytes "h") (bytes "/") [] HTTP_METHOD.METHOD_POST
          (HeaderMap.of_list [(bytes "Host", bytes "a")]) (bytes "Host: x")) = 2) ∧
    ((HeaderMap.of_list [(bytes "Host", bytes "a"), (bytes "X", bytes "y\r\nHost: z")]).lookup
        (bytes "Host") = some (bytes "a") ∧
      lines_beginning_with (bytes "Host: ")
        (build_request_string (bytes "http") (bytes "h") (bytes "/") [] HTTP_METHOD.METHOD_GET
          (HeaderMap.of_list [(bytes "Host", bytes "a"), (bytes "X", bytes "y\r\nHost: z")]) [])
        = 2) := by
  decide

/-! ## The response-header parser on a well-formed block -/

theorem toDigitsCore_acc (fuel n : Nat) (acc : List Char) :
    Nat.toDigitsCore 10 fuel n acc = Nat.toDigitsCore 10 fuel n [] ++ acc := by
  induction fuel generalizing n acc with
  | zero => simp [Nat.toDigitsCore]
  | succ fuel ih =>
    simp only [Nat.toDigitsCore]
    split
    · simp
    · rw [ih (n / 10) (Nat.digitChar (n % 10) :: acc), ih (n / 10) [Nat.digitChar (n % 10)]]
      simp

theorem digitChar_toNat (d : Nat) (h : d < 10) : (Nat.digitChar d).toNat = 48 + d := by
  interval_cases d <;> rfl

theorem toDigitsCore_spec (fuel n : Nat) (h : n < fuel) :
    (Nat.toDigitsCore 10 fuel n []).map Char.toNat ≠ [] ∧
    (∀ x ∈ (Nat.toDigitsCore 10 fuel n []).map Char.toNat, is_digit 10 x = true) ∧
    digits_value 10 ((Nat.toDigitsCore 10 fuel n []).map Char.toNat) = n := by
  induction fuel generalizing n with
  | zero => omega
  | succ fuel ih =>
    have hd := digitChar_toNat (n % 10) (Nat.mod_lt _ (by norm_num))
    have hlt : n % 10 < 10 := Nat.mod_lt _ (by norm_num)
    have hdig : is_digit 10 (48 + n % 10) = true := by
      unfold is_digit digit_value
      rw [if_pos (by omega)]
      simp only [decide_eq_true_eq]
      omega
    have hval : (digit_value (48 + n % 10)).getD 0 = n % 10 := by
      unfold digit_value
      rw [if_pos (by omega)]
      simp
    simp only [Nat.toDigitsCore]
    split
    · next h0 =>
      simp only [List.map_cons, List.map_nil, hd]
      refine ⟨by simp, ?_, ?_⟩
      · intro x hx
        simp only [List.mem_singleton] at hx
        rw [hx]; exact hdig
      · simp only [digits_value, List.foldl_cons, List.foldl_nil, hval]
        omega
    · next h0 =>
      rw [toDigitsCore_acc]
      obtain ⟨i1, i2, i3⟩ := ih (n / 10) (by omega)
      simp only [List.map_append, List.map_cons, List.map_nil, hd]
      refine ⟨by simp, ?_, ?_⟩
      · intro x hx
        rcases List.mem_append.mp hx with hx | hx
        · exact i2 x hx
        · simp only [List.mem_singleton] at hx
          rw [hx]; exact hdig
      · rw [digits_value_append, i3, hval]
        omega

theorem to_decimal_spec (n : Nat) :
    to_decimal n ≠ [] ∧ (∀ x ∈ to_decimal n, is_digit 10 x = true) ∧
      digits_value 10 (to_decimal n) = n :=
  toDigitsCore_spec (n + 1) n (Nat.lt_succ_self n)

theorem is_digit_10_facts (x : Nat) (h : is_digit 10 x = true) :
    isspace x = false ∧ x ≠ 43 ∧ x ≠ 45 := by
  unfold is_digit digit_value at h
  unfold isspace
  split_ifs at h <;> simp at h <;> simp <;> omega

theorem find_if_from_first (p : Nat → Bool) (a : Str) (c : Nat) (rest : Str) (i : Nat)
    (ha : ∀ x ∈ a, p x = false) (hc : p c = true) :
    find_if_from p (a ++ c :: rest) i = some (i + a.length) := by
  induction a generalizing i with
  | nil => simp [find_if_from, hc]
  | cons x a ih =>
    have hx : p x = false := ha x (List.mem_cons_self x a)
    show find_if_from p (x :: (a ++ c :: rest)) i = _
    rw [find_if_from, hx]
    simp only [Bool.false_eq_true, if_false, List.length_cons]
    rw [ih (i + 1) (fun y hy => ha y (List.mem_cons_of_mem x hy))]
    congr 1; omega

theorem find_char_first (a : Str) (c : Nat) (rest : Str) (h : c ∉ a) :
    find_char (a ++ c :: rest) c 0 = some a.length := by
  rw [find_char_zero, find_if_from_first _ a c rest 0 _ (by simp)]
  · simp
  · intro x hx
    simp only [beq_eq_false_iff_ne, ne_eq]
    intro hxc
    exact h (hxc ▸ hx)

theorem find_char_absent (s : Str) (c : Nat) (h : c ∉ s) : find_char s c 0 = none := by
  cases hf : find_char s c 0 with
  | none => rfl
  | some k =>
    exfalso
    obtain ⟨h1, -, h3⟩ := find_char_some s c k hf
    apply h
    have : s.drop k ≠ [] := by
      intro hnil
      rw [hnil] at h3
      simp at h3
    cases hd : s.drop k with
    | nil => exact absurd hd this
    | cons y t =>
      rw [hd] at h3
      simp only [List.head?_cons, Option.some.injEq] at h3
      have hm : y ∈ s.drop k := by rw [hd]; exact List.mem_cons_self _ _
      rw [← h3]
      exact List.mem_of_mem_drop hm

theorem trim_eq (s : Str) : trim s = (s.dropWhile isspace).rdropWhile isspace := rfl

theorem trim_pad_right (x : Str) (e : Nat) (he : isspace e = true) : trim (x ++ [e]) = trim x := by
  rw [trim_eq, trim_eq, List.dropWhile_append]
  split
  · next hx =>
    have : x.dropWhile isspace = [] := by simpa using hx
    rw [this]
    simp [List.dropWhile, he, List.rdropWhile]
  · rw [List.rdropWhile_concat_pos _ _ _ he]

theorem trim_pad_left (x : Str) (s : Nat) (hs : isspace s = true) : trim (s :: x) = trim x := by
  rw [trim_eq, trim_eq, List.dropWhile_cons_of_pos hs]

theorem trim_idempotent (x : Str) : trim (trim x) = trim x := by
  rw [trim_eq]
  have hy : ((trim x).dropWhile isspace) = trim x := by
    rw [trim_eq]
    have hpre := List.rdropWhile_prefix isspace (x.dropWhile isspace)
    cases hr : (x.dropWhile isspace).rdropWhile isspace with
    | nil => rfl
    | cons a t =>
      rw [hr] at hpre
      obtain ⟨u, hu⟩ := hpre
      have hid := List.dropWhile_idempotent isspace x
      rw [← hu] at hid
      by_cases ha : isspace a = true
      · exfalso
        simp only [List.cons_append] at hid
        rw [List.dropWhile_cons_of_pos ha] at hid
        have h1 := (List.dropWhile_suffix isspace (l := t ++ u)).length_le
        rw [hid] at h1
        simp at h1
      · exact List.dropWhile_cons_of_neg ha
  rw [hy, trim_eq, List.rdropWhile_idempotent]

theorem isspace_tolower (c : Nat) : isspace (tolower c) = isspace c := by
  unfold tolower isspace
  split_ifs with h
  · have h1 : (c + 32 == 32) = false := by simp; omega
    have h2 : (c == 32) = false := by simp; omega
    have h3 : decide (c + 32 ≤ 13) = false := by simp
    have h4 : decide (c ≤ 13) = false := by simp; omega
    simp [h1, h2, h3, h4]
  · rfl

theorem dropWhile_to_lower (l : Str) :
    (to_lower l).dropWhile isspace = to_lower (l.dropWhile isspace) := by
  induction l with
  | nil => rfl
  | cons a l ih =>
    by_cases ha : isspace a = true
    · have : isspace (tolower a) = true := by rw [isspace_tolower]; exact ha
      simp only [to_lower, List.map_cons] at ih ⊢
      rw [List.dropWhile_cons_of_pos this, List.dropWhile_cons_of_pos ha, ih]
    · have : ¬ isspace (tolower a) = true := by rw [isspace_tolower]; exact ha
      simp only [to_lower, List.map_cons]
      rw [List.dropWhile_cons_of_neg this, List.dropWhile_cons_of_neg ha]
      rfl

theorem trim_to_lower (l : Str) : trim (to_lower l) = to_lower (trim l) := by
  unfold trim
  rw [dropWhile_to_lower]
  have h1 : (to_lower (l.dropWhile isspace)).reverse = to_lower (l.dropWhile isspace).reverse := by
    simp [to_lower]
  rw [h1, dropWhile_to_lower]
  simp [to_lower]

theorem tolower_idempotent (c : Nat) : tolower (tolower c) = tolower c := by
  unfold tolower
  split_ifs <;> omega

theorem to_lower_idempotent (l : Str) : to_lower (to_lower l) = to_lower l := by
  simp [to_lower, tolower_idempotent]

theorem sentry_ready (b : Str) (h : b.dropWhile isspace ≠ []) :
    istream.sentry { buf := b, eofbit := false, failbit := false } =
      ({ buf := b.dropWhile isspace, eofbit := false, failbit := false }, true) := by
  simp [istream.sentry, istream.good, h]

theorem extract_string_token (tok rest old : Str) (hne : tok ≠ [])
    (hs : ∀ c ∈ tok, isspace c = false) :
    istream.extract_string { buf := tok ++ 32 :: rest, eofbit := false, failbit := false } old =
      ({ buf := 32 :: rest, eofbit := false, failbit := false }, tok) := by
  have hdrop : (tok ++ 32 :: rest).dropWhile isspace = tok ++ 32 :: rest := by
    cases tok with
    | nil => exact absurd rfl hne
    | cons a t =>
      have ha : ¬ isspace a = true := by
        rw [hs a (List.mem_cons_self a t)]; simp
      exact List.dropWhile_cons_of_neg ha
  have hp : ∀ c ∈ tok, (fun c => !isspace c) c = true := by
    intro c hc
    simp [hs c hc]
  have htw : (tok ++ 32 :: rest).takeWhile (fun c => !isspace c) = tok := by
    rw [List.takeWhile_append_of_pos hp]
    simp [List.takeWhile, isspace]
  have hdw : (tok ++ 32 :: rest).dropWhile (fun c => !isspace c) = 32 :: rest := by
    rw [List.dropWhile_append_of_pos hp]
    simp [List.dropWhile, isspace]
  unfold istream.extract_string
  rw [sentry_ready _ (by rw [hdrop]; simp), hdrop]
  simp only [htw, hdw]
  simp
theorem strip_sign_plain (d : Nat) (t : Str) (h43 : d ≠ 43) (h45 : d ≠ 45) :
    strip_sign (d :: t) = (false, d :: t) := by
  unfold strip_sign
  split
  · next heq => simp only [List.cons.injEq] at heq; omega
  · next heq => simp only [List.cons.injEq] at heq; omega
  · rfl

theorem digits_run (ds rest : Str) (hd : ∀ x ∈ ds, is_digit 10 x = true) :
    (ds ++ 32 :: rest).takeWhile (is_digit 10) = ds ∧
    (ds ++ 32 :: rest).dropWhile (is_digit 10) = 32 :: rest := by
  constructor
  · rw [List.takeWhile_append_of_pos hd]
    simp [List.takeWhile, is_digit, digit_value]
  · rw [List.dropWhile_append_of_pos hd]
    simp [List.dropWhile, is_digit, digit_value]

theorem extract_int_digits (neg : Bool) (ds rest : Str) (old : Int) (X : Str)
    (hX : X.dropWhile isspace = X) (hXne : X ≠ [])
    (hsign : strip_sign X = (neg, ds ++ 32 :: rest))
    (hne : ds ≠ []) (hd : ∀ x ∈ ds, is_digit 10 x = true)
    (v : Int) (hv : v = if neg then -(digits_value 10 ds : Int) else (digits_value 10 ds : Int))
    (hlo : INT_MIN ≤ v) (hhi : v ≤ INT_MAX) :
    istream.extract_int { buf := 32 :: X, eofbit := false, failbit := false } old =
      ({ buf := 32 :: rest, eofbit := false, failbit := false }, v) := by
  obtain ⟨r1, r2⟩ := digits_run ds rest hd
  have hskip : (32 :: X).dropWhile isspace = X := by
    rw [List.dropWhile_cons_of_pos (by decide), hX]
  unfold istream.extract_int
  rw [sentry_ready _ (by rw [hskip]; exact hXne), hskip]
  simp only [hsign, r1, r2, ← hv]
  rw [if_neg hne, if_neg (not_lt.mpr hhi), if_neg (not_lt.mpr hlo)]
  simp

theorem extract_int_decimal (code : Int) (rest : Str) (old : Int)
    (hlo : INT_MIN ≤ code) (hhi : code ≤ INT_MAX) :
    istream.extract_int
        { buf := 32 :: (int_decimal code ++ 32 :: rest), eofbit := false, failbit := false } old =
      ({ buf := 32 :: rest, eofbit := false, failbit := false }, code) := by
  by_cases hneg : code < 0
  · obtain ⟨d1, d2, d3⟩ := to_decimal_spec (-code).toNat
    have hX : int_decimal code ++ 32 :: rest = 45 :: (to_decimal (-code).toNat ++ 32 :: rest) := by
      simp [int_decimal, hneg]
    rw [hX]
    apply extract_int_digits true (to_decimal (-code).toNat) rest old
      (45 :: (to_decimal (-code).toNat ++ 32 :: rest))
      (List.dropWhile_cons_of_neg (by decide)) (by simp) rfl d1 d2 code _ hlo hhi
    rw [d3]
    simp only [if_true]
    rw [Int.toNat_of_nonneg (by omega)]
    omega
  · obtain ⟨d1, d2, d3⟩ := to_decimal_spec code.toNat
    have hX : int_decimal code ++ 32 :: rest = to_decimal code.toNat ++ 32 :: rest := by
      simp [int_decimal, hneg]
    rw [hX]
    cases hdec : to_decimal code.toNat with
    | nil => exact absurd hdec d1
    | cons a t =>
      have ha := is_digit_10_facts a (d2 a (by rw [hdec]; exact List.mem_cons_self a t))
      rw [hdec] at d2 d3
      apply extract_int_digits false (a :: t) rest old (a :: t ++ 32 :: rest)
        (List.dropWhile_cons_of_neg (by rw [ha.1]; simp)) (by simp)
        (strip_sign_plain a _ ha.2.1 ha.2.2) (by simp) d2 code _ hlo hhi
      rw [d3]
      simp only [Bool.false_eq_true, if_false]
      rw [Int.toNat_of_nonneg (by omega)]

theorem getline_line (text rest old : Str) (h : (10 : Nat) ∉ text) :
    istream.getline { buf := text ++ 10 :: rest, eofbit := false, failbit := false } old =
      ({ buf := rest, eofbit := false, failbit := false }, text) := by
  have hf := find_char_first text 10 rest h
  have h1 : substr_from (text ++ 10 :: rest) (text.length + 1) = rest := by
    unfold substr_from
    have : text ++ 10 :: rest = (text ++ [10]) ++ rest := by simp
    rw [this]
    exact List.drop_left' (by simp)
  have h2 : substr (text ++ 10 :: rest) 0 text.length = text := by
    simp [substr]
  unfold istream.getline
  simp only [istream.good, hf, h1, h2]
  simp

theorem header_loop_line (fuel : Nat) (l : HeaderLine) (rest : Str) (headers : HeaderMap)
    (hw : l.wellformed = true) :
    header_loop (fuel + 1)
        { buf := l.text ++ bytes "\r\n" ++ rest, eofbit := false, failbit := false } headers =
      header_loop fuel { buf := rest, eofbit := false, failbit := false }
        (match l.entry with
          | some kv => HeaderMap.assign headers kv.1 kv.2
          | none => headers) := by
  have hbuf : l.text ++ bytes "\r\n" ++ rest = (l.text ++ [13]) ++ 10 :: rest := by
    simp [bytes]
  have h10 : (10 : Nat) ∉ l.text ++ [13] := by
    cases l with
    | field k v =>
      simp only [HeaderLine.wellformed, Bool.and_eq_true, decide_eq_true_eq] at hw
      simp only [HeaderLine.text, bytes]
      simp [hw.1.2, hw.2]
    | other t =>
      simp only [HeaderLine.wellformed, Bool.and_eq_true, decide_eq_true_eq] at hw
      simp [HeaderLine.text, hw.2]
  have hget := getline_line (l.text ++ [13]) rest [] h10
  rw [hbuf, header_loop]
  simp only [Bool.false_eq_true, if_false, hget]
  cases l with
  | field k v =>
    simp only [HeaderLine.wellformed, Bool.and_eq_true, decide_eq_true_eq] at hw
    have htext : HeaderLine.text (HeaderLine.field k v) ++ [13] = k ++ 58 :: (32 :: v ++ [13]) := by
      simp [HeaderLine.text, bytes]
    have hf := find_char_first k 58 (32 :: v ++ [13]) hw.1.1
    have h1 : substr (k ++ 58 :: (32 :: v ++ [13])) 0 k.length = k := by
      simp [substr]
    have h2 : substr_from (k ++ 58 :: (32 :: v ++ [13])) (k.length + 1) = 32 :: v ++ [13] := by
      unfold substr_from
      have : k ++ 58 :: (32 :: v ++ [13]) = (k ++ [58]) ++ (32 :: v ++ [13]) := by simp
      rw [this]
      exact List.drop_left' (by simp)
    have h3 : trim (32 :: v ++ [13]) = trim v := by
      have : (32 :: v ++ [13] : Str) = 32 :: (v ++ [13]) := rfl
      rw [this, trim_pad_left _ 32 (by decide), trim_pad_right _ 13 (by decide)]
    rw [htext]
    simp only [hf, h1, h2, h3, HeaderLine.entry]
    split <;> rfl
  | other t =>
    simp only [HeaderLine.wellformed, Bool.and_eq_true, decide_eq_true_eq] at hw
    have hf : find_char (HeaderLine.text (HeaderLine.other t) ++ [13]) 58 0 = none := by
      apply find_char_absent
      simp [HeaderLine.text, hw.1]
    simp only [hf, HeaderLine.entry]

theorem header_loop_end (fuel : Nat) (headers : HeaderMap) :
    header_loop (fuel + 3) { buf := bytes "\r\n", eofbit := false, failbit := false } headers =
      some headers := by
  have hget := getline_line [13] [] [] (by decide)
  have hbuf : bytes "\r\n" = [13] ++ 10 :: [] := rfl
  rw [hbuf, header_loop]
  simp only [Bool.false_eq_true, if_false, hget]
  have hf : find_char [13] 58 0 = none := by decide
  simp only [hf]
  rw [header_loop]
  have hget2 : istream.getline { buf := [], eofbit := false, failbit := false } [] =
      ({ buf := [], eofbit := true, failbit := true }, []) := by decide
  simp only [Bool.false_eq_true, if_false, hget2]
  have hf2 : find_char [] 58 0 = none := by decide
  simp only [hf2]
  rw [header_loop]
  simp

theorem header_loop_lines (lines : List HeaderLine) :
    ∀ (headers : HeaderMap) (fuel : Nat), (∀ l ∈ lines, l.wellformed = true) →
      lines.length + 3 ≤ fuel →
      header_loop fuel
          { buf := (lines.map (fun l => l.text ++ bytes "\r\n")).flatten ++ bytes "\r\n",
            eofbit := false, failbit := false } headers =
        some ((lines.filterMap HeaderLine.entry).foldl
          (fun m kv => HeaderMap.assign m kv.1 kv.2) headers) := by
  induction lines with
  | nil =>
    intro headers fuel _ hfuel
    obtain ⟨f, rfl⟩ : ∃ f, fuel = f + 3 := ⟨fuel - 3, by simp at hfuel; omega⟩
    simpa using header_loop_end f headers
  | cons l lines ih =>
    intro headers fuel hw hfuel
    obtain ⟨f, rfl⟩ : ∃ f, fuel = f + 1 := ⟨fuel - 1, by simp at hfuel; omega⟩
    have hbuf : ((l :: lines).map (fun l => l.text ++ bytes "\r\n")).flatten ++ bytes "\r\n" =
        l.text ++ bytes "\r\n" ++
          ((lines.map (fun l => l.text ++ bytes "\r\n")).flatten ++ bytes "\r\n") := by
      simp
    rw [hbuf, header_loop_line f l _ headers (hw l (List.mem_cons_self l lines)),
      ih _ f (fun x hx => hw x (List.mem_cons_of_mem l hx)) (by simp at hfuel; omega)]
    cases he : l.entry with
    | none => simp [List.filterMap_cons, he]
    | some kv => simp [List.filterMap_cons, he]

theorem mem_of_list (es : List (Str × Str)) (e : Str × Str) (h : e ∈ HeaderMap.of_list es) :
    e ∈ es := by
  induction es using List.reverseRecOn with
  | nil => simp [HeaderMap.of_list] at h
  | append_singleton es kv ih =>
    rw [of_list_append] at h
    rcases mem_assign _ _ _ _ h with h | h
    · rw [h]; simp
    · exact List.mem_append_left _ (ih h)

theorem entry_key_shape (l : HeaderLine) (kv : Str × Str) (h : l.entry = some kv) :
    kv.1 ≠ [] ∧ to_lower kv.1 = kv.1 ∧ trim kv.1 = kv.1 := by
  cases l with
  | other t => simp [HeaderLine.entry] at h
  | field k v =>
    simp only [HeaderLine.entry] at h
    split_ifs at h with hk
    simp only [Option.some.injEq] at h
    subst h
    refine ⟨?_, to_lower_idempotent _, ?_⟩
    · simpa [to_lower] using hk
    · show trim (to_lower (trim k)) = to_lower (trim k)
      rw [trim_to_lower, trim_idempotent]

theorem parse_status_line (version : Str) (code : Int) (reason rest : Str) (r : ResponseInfo)
    (fuel : Nat) (hv : version ≠ []) (hvs : ∀ c ∈ version, isspace c = false)
    (hlo : INT_MIN ≤ code) (hhi : code ≤ INT_MAX) (hreason : (10 : Nat) ∉ reason) :
    parse_response_headers fuel
        (version ++ bytes " " ++ int_decimal code ++ bytes " " ++ reason ++ bytes "\r\n" ++ rest) r =
      match header_loop fuel { buf := rest, eofbit := false, failbit := false } r.headers with
      | none => none
      | some headers =>
        some (true, { r with http_version := version, status_code := code,
                             status_msg := trim reason, headers := headers }) := by
  have hbuf : version ++ bytes " " ++ int_decimal code ++ bytes " " ++ reason ++ bytes "\r\n" ++ rest =
      version ++ 32 :: (int_decimal code ++ 32 :: (reason ++ 13 :: 10 :: rest)) := by
    simp [bytes]
  have h1 := extract_string_token version (int_decimal code ++ 32 :: (reason ++ 13 :: 10 :: rest))
    r.http_version hv hvs
  have h2 := extract_int_decimal code (reason ++ 13 :: 10 :: rest) r.status_code hlo hhi
  have h3 := getline_line (32 :: reason ++ [13]) rest r.status_msg (by simp [hreason])
  have hb3 : (32 :: (reason ++ 13 :: 10 :: rest) : Str) = (32 :: reason ++ [13]) ++ 10 :: rest := by
    simp
  have ht : trim (32 :: reason ++ [13]) = trim reason := by
    have : (32 :: reason ++ [13] : Str) = 32 :: (reason ++ [13]) := rfl
    rw [this, trim_pad_left _ 32 (by decide), trim_pad_right _ 13 (by decide)]
  rw [← hb3] at h3
  unfold parse_response_headers
  simp only [hbuf, h1, h2, h3, ht, Bool.false_eq_true, if_false]

/-- C17, for status codes in the range of `int`: on a header block `version SP code SP reason
CRLF`, then lines `k: v` or lines without a colon, each with its `CRLF`, then `CRLF` (the
version not empty and free of white space, no line feed inside the reason or a line, no colon
inside a key), `parse_response_headers` returns true with `http_version = version`,
`status_code = code`, `status_msg` the trimmed reason, and as header map the one built by
assigning `lower(trim k) -> trim v` for each field with a non-blank key, in order, so that the
last occurrence of a key wins; every key of the map is non-empty, lower-cased and trimmed.  The
loop needs one unit of fuel per line and three more. -/
theorem parse_response_headers_wellformed (version : Str) (code : Int) (reason : Str)
    (lines : List HeaderLine) (r : ResponseInfo) (fuel : Nat)
    (hv : version ≠ []) (hvs : ∀ c ∈ version, isspace c = false)
    (hlo : INT_MIN ≤ code) (hhi : code ≤ INT_MAX) (hreason : (10 : Nat) ∉ reason)
    (hlines : ∀ l ∈ lines, l.wellformed = true) (hr : r.headers = [])
    (hfuel : lines.length + 3 ≤ fuel) :
    parse_response_headers fuel (header_block version code reason lines) r =
      some (true, { r with http_version := version, status_code := code,
                           status_msg := trim reason,
                           headers := HeaderMap.of_list (lines.filterMap HeaderLine.entry) }) ∧
    (∀ kv ∈ HeaderMap.of_list (lines.filterMap HeaderLine.entry),
      kv.1 ≠ [] ∧ to_lower kv.1 = kv.1 ∧ trim kv.1 = kv.1) ∧
    (∀ k : Str, (HeaderMap.of_list (lines.filterMap HeaderLine.entry)).lookup k =
      (lines.filterMap HeaderLine.entry).reverse.lookup k) := by
  refine ⟨?_, ?_, lookup_of_list _⟩
  · have hblock : header_block version code reason lines =
        version ++ bytes " " ++ int_decimal code ++ bytes " " ++ reason ++ bytes "\r\n" ++
          ((lines.map (fun l => l.text ++ bytes "\r\n")).flatten ++ bytes "\r\n") := by
      simp [header_block]
    rw [hblock, parse_status_line version code reason _ r fuel hv hvs hlo hhi hreason, hr,
      header_loop_lines lines [] fuel hlines hfuel]
    rfl
  · intro kv hkv
    have hmem := mem_of_list _ _ hkv
    obtain ⟨l, -, hl⟩ := List.mem_filterMap.mp hmem
    exact entry_key_shape l kv hl

theorem parse_response_headers_wellformed_witness :
    parse_response_headers 4
        (header_block (bytes "HTTP/1.1") 200 (bytes "OK")
          [HeaderLine.field (bytes "Content-Length") (bytes "5")]) ResponseInfo.new =
      some (true, { ResponseInfo.new with
        http_version := bytes "HTTP/1.1", status_code := 200, status_msg := trim (bytes "OK"),
        headers := HeaderMap.of_list
          ([HeaderLine.field (bytes "Content-Length") (bytes "5")].filterMap HeaderLine.entry) }) :=
  (parse_response_headers_wellformed (bytes "HTTP/1.1") 200 (bytes "OK")
    [HeaderLine.field (bytes "Content-Length") (bytes "5")] ResponseInfo.new 4
    (by decide) (by decide) (by decide) (by decide) (by decide) (by decide) rfl (by decide)).1

/-- C17 fails as stated: the block `HTTP/1.1 2147483648 OK\r\n\r\n` has the stated form, its
code being a decimal integer, yet `parse_response_headers` returns false on it, the code not
fitting an `int`. -/
theorem parse_response_headers_counterexample :
    header_block (bytes "HTTP/1.1") 2147483648 (bytes "OK") [] =
      bytes "HTTP/1.1 2147483648 OK\r\n\r\n" ∧
    parse_response_headers 10 (header_block (bytes "HTTP/1.1") 2147483648 (bytes "OK") [])
        ResponseInfo.new =
      some (false, { ResponseInfo.new with
        http_version := bytes "HTTP/1.1", status_code := 2147483647 }) := by
  decide

/-- C18 fails on the code: on the block `HTTP/1.1 abc\r\n\r\n`, with a status code that is not
a number, `parse_response_headers` returns false and leaves the status code 0, not -1; on
`HTTP/1.1 99999999999 OK\r\n\r\n` it returns false and leaves 2147483647.  Only a block without
any status code, as `HTTP/1.1\r\n\r\n`, keeps the -1.  In each case no header entry is added. -/
theorem parse_response_headers_failure_status :
    parse_response_headers 10 (bytes "HTTP/1.1 abc\r\n\r\n") ResponseInfo.new =
      some (false, { ResponseInfo.new with http_version := bytes "HTTP/1.1", status_code := 0 }) ∧
    parse_response_headers 10 (bytes "HTTP/1.1 99999999999 OK\r\n\r\n") ResponseInfo.new =
      some (false, { ResponseInfo.new with
        http_version := bytes "HTTP/1.1", status_code := 2147483647 }) ∧
    parse_response_headers 10 (bytes "HTTP/1.1\r\n\r\n") ResponseInfo.new =
      some (false, { ResponseInfo.new with http_version := bytes "HTTP/1.1", status_code := -1 }) := by
  decide

theorem parse_response_headers_failure_headers (fuel : Nat) (s : Str) (r r1 : ResponseInfo)
    (h : parse_response_headers fuel s r = some (false, r1)) : r1.headers = r.headers := by
  unfold parse_response_headers at h
  simp only at h
  split_ifs at h with hf
  · simp only [Option.some.injEq, Prod.mk.injEq, true_and] at h
    rw [← h]
  · split at h
    · cases h
    · simp at h

/-! ## The coroutine: what `raw_response` holds -/

theorem parse_response_headers_keeps (fuel : Nat) (s : Str) (r r1 : ResponseInfo) (b : Bool)
    (h : parse_response_headers fuel s r = some (b, r1)) :
    r1.raw_response = r.raw_response ∧ r1.content = r.content ∧ r1.error_msg = r.error_msg := by
  unfold parse_response_headers at h
  simp only at h
  split_ifs at h with hf
  · simp only [Option.some.injEq, Prod.mk.injEq] at h
    rw [← h.2]
    exact ⟨rfl, rfl, rfl⟩
  · split at h
    · cases h
    · simp only [Option.some.injEq, Prod.mk.injEq] at h
      rw [← h.2]
      exact ⟨rfl, rfl, rfl⟩

theorem yield_func_after_headers (fuel : Nat) (m : HTTP_METHOD) (qh qs : Str) (r : ResponseInfo)
    (a b c h0 cwh : Str) (body : List IoResult)
    (hfirst : ¬ bytes "\r\n\r\n" <:+: h0 ++ bytes "\r\n\r") :
    yield_func fuel m qh qs r
        (IoResult.ok a :: IoResult.ok b :: IoResult.ok c ::
          IoResult.ok (h0 ++ bytes "\r\n\r\n" ++ cwh) :: body) =
      match parse_response_headers fuel
          (feed_response r (h0 ++ bytes "\r\n\r\n") []).raw_response
          (feed_response r (h0 ++ bytes "\r\n\r\n") []) with
      | none => none
      | some (false, r1) =>
        some (Completion.finished
          { r1 with error_msg := (bytes "can not parse response header, invalid header, header:\r\n"
              ++ r1.raw_response) } body)
      | some (true, r1) => recv_body fuel m r1 cwh body := by
  have hfind : find_str (h0 ++ bytes "\r\n\r\n" ++ cwh) (bytes "\r\n\r\n") 0 = some h0.length := by
    simp only [find_str, Nat.not_lt_zero, if_false, List.drop_zero]
    have := find_from_first (bytes "\r\n\r") 10 h0 cwh 0 hfirst
    simpa [bytes] using this
  have h1 : substr (h0 ++ bytes "\r\n\r\n" ++ cwh) 0 (h0.length + 4) = h0 ++ bytes "\r\n\r\n" := by
    unfold substr
    rw [List.drop_zero]
    exact List.take_left' (by simp [bytes])
  have h2 : substr_from (h0 ++ bytes "\r\n\r\n" ++ cwh) (h0.length + 4) = cwh := by
    unfold substr_from
    exact List.drop_left' (by simp [bytes])
  rw [yield_func]
  simp only [hfind, h1, h2]

theorem recv_body_result_content_length (fuel : Nat) (m : HTTP_METHOD) (r : ResponseInfo)
    (cwh : Str) (n : Nat)
    (hsel : select_framing r.status_code m r.headers = Framing.content_length)
    (hn : lexical_cast_size_t (r.headers.index (bytes "content-length")) = some n) :
    (∀ (data : Str) (rest : List IoResult), cwh.length < n →
      recv_body fuel m r cwh (IoResult.ok data :: rest) =
        some (Completion.finished (feed_response (feed_response r cwh cwh) data data) rest)) ∧
    (∀ rest : List IoResult, n ≤ cwh.length →
      recv_body fuel m r cwh rest = some (Completion.finished (feed_response r cwh cwh) rest)) := by
  unfold recv_body
  rw [hsel]
  have hn' : lexical_cast_size_t ((feed_response r cwh cwh).headers.index (bytes "content-length"))
      = some n := hn
  simp only [hn']
  constructor
  · intro data rest h
    rw [if_pos h]
  · intro rest h
    rw [if_neg (by omega)]

theorem reach_chunk_end_buffer (fuel : Nat) (cur all all1 content : Str) (b : Bool)
    (h : reach_chunk_end fuel cur all = some (b, all1, content)) : all1 = all ++ cur := by
  unfold reach_chunk_end at h
  split at h
  · cases h
  · simp only [Option.some.injEq, Prod.mk.injEq] at h
    exact h.2.1.symm

theorem read_chunked_unread (fuel : Nat) (script : List IoResult) :
    ∀ (r : ResponseInfo) (all : Str) (r1 : ResponseInfo) (u : List IoResult),
      read_chunked fuel r all script = some (Completion.finished r1 u) →
      u.length < script.length := by
  induction script with
  | nil =>
    intro r all r1 u h
    simp [read_chunked] at h
  | cons x script ih =>
    intro r all r1 u h
    cases x with
    | fail ec =>
      simp only [read_chunked, Option.some.injEq, Completion.finished.injEq] at h
      rw [← h.2]
      simp
    | ok data =>
      rw [read_chunked] at h
      split at h
      · cases h
      · simp only [Option.some.injEq, Completion.finished.injEq] at h
        rw [← h.2]
        simp
      · have := ih _ _ _ _ h
        simp only [List.length_cons]
        omega

theorem read_chunked_raw (fuel : Nat) (reads : List Str) :
    ∀ (r : ResponseInfo) (all : Str) (rest : List IoResult) (r1 : ResponseInfo),
      read_chunked fuel r all (reads.map IoResult.ok ++ rest) = some (Completion.finished r1 rest) →
      r1.raw_response = r.raw_response ++ (all ++ reads.flatten) := by
  induction reads with
  | nil =>
    intro r all rest r1 h
    have := read_chunked_unread fuel _ _ _ _ _ h
    simp at this
  | cons d reads ih =>
    intro r all rest r1 h
    simp only [List.map_cons, List.cons_append] at h
    rw [read_chunked] at h
    split at h
    · cases h
    · next all1 content hcall =>
      have hall := reach_chunk_end_buffer _ _ _ _ _ _ hcall
      simp only [Option.some.injEq, Completion.finished.injEq] at h
      have hlen := congrArg List.length h.2
      simp only [List.length_append, List.length_map] at hlen
      have hnil : reads = [] := List.eq_nil_of_length_eq_zero (by omega)
      rw [← h.1, hnil, hall]
      simp [feed_response]
    · next all1 content hcall =>
      have hall := reach_chunk_end_buffer _ _ _ _ _ _ hcall
      rw [ih r all1 rest r1 h, hall]
      simp

theorem recv_body_raw_chunked (fuel : Nat) (m : HTTP_METHOD) (r : ResponseInfo) (cwh : Str)
    (reads : List Str) (rest : List IoResult) (r1 : ResponseInfo)
    (hsel : select_framing r.status_code m r.headers = Framing.chunked)
    (h : recv_body fuel m r cwh (reads.map IoResult.ok ++ rest) = some (Completion.finished r1 rest)) :
    r1.raw_response = r.raw_response ++ (cwh ++ reads.flatten) := by
  unfold recv_body at h
  rw [hsel] at h
  simp only at h
  split_ifs at h with hc
  · split at h
    · cases h
    · next all1 content hcall =>
      have hall := reach_chunk_end_buffer _ _ _ _ _ _ hcall
      simp only [Option.some.injEq, Completion.finished.injEq] at h
      have hlen := congrArg List.length h.2
      simp only [List.length_append, List.length_map] at hlen
      have hnil : reads = [] := List.eq_nil_of_length_eq_zero (by omega)
      rw [← h.1, hnil, hall]
      simp [feed_response]
    · next all1 content hcall =>
      have hall := reach_chunk_end_buffer _ _ _ _ _ _ hcall
      rw [read_chunked_raw fuel reads r all1 rest r1 h, hall]
      simp
  · have hc' : cwh = [] := by simpa using hc
    rw [read_chunked_raw fuel reads r [] rest r1 h, hc']

/-- C19, as the code has it.  Let the header read return `h0 ++ "\r\n\r\n" ++ cwh`, the
`\r\n\r\n` shown being the first, so that the header block is `h0 ++ "\r\n\r\n"`, and let the
parser accept the block.  In no-body framing the coroutine ends with `raw_response` equal to the
header block alone, `cwh` left out.  In content-length framing it ends with the header block,
`cwh` and the bytes of the remainder read when one is made.  In read-until-close framing it
ends with the header block, `cwh` and the bytes of every successful read.  In chunked framing,
when it ends having consumed successful reads only, `raw_response` is the header block, `cwh`
and the bytes of those reads. -/
theorem yield_func_raw_response (fuel : Nat) (m : HTTP_METHOD) (qh qs : Str) (r rp : ResponseInfo)
    (a b c h0 cwh : Str)
    (hraw : r.raw_response = [])
    (hfirst : ¬ bytes "\r\n\r\n" <:+: h0 ++ bytes "\r\n\r")
    (hparse : parse_response_headers fuel (h0 ++ bytes "\r\n\r\n")
      (feed_response r (h0 ++ bytes "\r\n\r\n") []) = some (true, rp)) :
    (select_framing rp.status_code m rp.headers = Framing.no_content →
      ∀ body : List IoResult,
        yield_func fuel m qh qs r
          (IoResult.ok a :: IoResult.ok b :: IoResult.ok c ::
            IoResult.ok (h0 ++ bytes "\r\n\r\n" ++ cwh) :: body) =
          some (Completion.finished rp body) ∧
        rp.raw_response = h0 ++ bytes "\r\n\r\n") ∧
    (select_framing rp.status_code m rp.headers = Framing.content_length →
      ∀ n : Nat, lexical_cast_size_t (rp.headers.index (bytes "content-length")) = some n →
        (∀ (data : Str) (rest : List IoResult), cwh.length < n →
          ∃ r1, yield_func fuel m qh qs r
              (IoResult.ok a :: IoResult.ok b :: IoResult.ok c ::
                IoResult.ok (h0 ++ bytes "\r\n\r\n" ++ cwh) :: IoResult.ok data :: rest) =
              some (Completion.finished r1 rest) ∧
            r1.raw_response = h0 ++ bytes "\r\n\r\n" ++ cwh ++ data) ∧
        (∀ rest : List IoResult, n ≤ cwh.length →
          ∃ r1, yield_func fuel m qh qs r
              (IoResult.ok a :: IoResult.ok b :: IoResult.ok c ::
                IoResult.ok (h0 ++ bytes "\r\n\r\n" ++ cwh) :: rest) =
              some (Completion.finished r1 rest) ∧
            r1.raw_response = h0 ++ bytes "\r\n\r\n" ++ cwh)) ∧
    (select_framing rp.status_code m rp.headers = Framing.until_closed →
      ∀ (reads : List Str) (e : error_code) (rest : List IoResult),
        ∃ r1, yield_func fuel m qh qs r
            (IoResult.ok a :: IoResult.ok b :: IoResult.ok c ::
              IoResult.ok (h0 ++ bytes "\r\n\r\n" ++ cwh) ::
              (reads.map IoResult.ok ++ IoResult.fail e :: rest)) =
            some (Completion.finished r1 rest) ∧
          r1.raw_response = h0 ++ bytes "\r\n\r\n" ++ cwh ++ reads.flatten) ∧
    (select_framing rp.status_code m rp.headers = Framing.chunked →
      ∀ (reads : List Str) (rest : List IoResult) (r1 : ResponseInfo),
        yield_func fuel m qh qs r
            (IoResult.ok a :: IoResult.ok b :: IoResult.ok c ::
              IoResult.ok (h0 ++ bytes "\r\n\r\n" ++ cwh) :: (reads.map IoResult.ok ++ rest)) =
            some (Completion.finished r1 rest) →
        r1.raw_response = h0 ++ bytes "\r\n\r\n" ++ cwh ++ reads.flatten) := by
  have hs : (feed_response r (h0 ++ bytes "\r\n\r\n") []).raw_response = h0 ++ bytes "\r\n\r\n" := by
    simp [feed_response, hraw]
  have hy : ∀ body : List IoResult,
      yield_func fuel m qh qs r
        (IoResult.ok a :: IoResult.ok b :: IoResult.ok c ::
          IoResult.ok (h0 ++ bytes "\r\n\r\n" ++ cwh) :: body) = recv_body fuel m rp cwh body := by
    intro body
    rw [yield_func_after_headers fuel m qh qs r a b c h0 cwh body hfirst, hs, hparse]
  have hrp : rp.raw_response = h0 ++ bytes "\r\n\r\n" := by
    rw [(parse_response_headers_keeps _ _ _ _ _ hparse).1, hs]
  refine ⟨?_, ?_, ?_, ?_⟩
  · intro hsel body
    refine ⟨?_, hrp⟩
    rw [hy]
    unfold recv_body
    rw [hsel]
  · intro hsel n hn
    obtain ⟨c1, c2⟩ := recv_body_result_content_length fuel m rp cwh n hsel hn
    constructor
    · intro data rest hlt
      refine ⟨_, by rw [hy]; exact c1 data rest hlt, ?_⟩
      simp [feed_response, hrp]
    · intro rest hle
      refine ⟨_, by rw [hy]; exact c2 rest hle, ?_⟩
      simp [feed_response, hrp]
  · intro hsel reads e rest
    have hrun : recv_body fuel m rp cwh (reads.map IoResult.ok ++ IoResult.fail e :: rest) =
        some (read_till_closed (feed_response rp cwh cwh)
          (reads.map IoResult.ok ++ IoResult.fail e :: rest)) := by
      unfold recv_body
      rw [hsel]
    rw [hy, hrun, read_till_closed_script]
    refine ⟨_, rfl, ?_⟩
    split <;> simp [feed_response, hrp]
  · intro hsel reads rest r1 hfin
    rw [hy] at hfin
    rw [recv_body_raw_chunked fuel m rp cwh reads rest r1 hsel hfin, hrp]
    simp

theorem yield_func_raw_response_witness :
    ∃ r1, yield_func 10 HTTP_METHOD.METHOD_GET (bytes "h") (bytes "http") ResponseInfo.new
        (IoResult.ok [] :: IoResult.ok [] :: IoResult.ok [] ::
          IoResult.ok (bytes "HTTP/1.1 200 OK" ++ bytes "\r\n\r\n" ++ bytes "he") ::
          ([bytes "l", bytes "lo"].map IoResult.ok ++ IoResult.fail error_code.eof :: [])) =
        some (Completion.finished r1 []) ∧
      r1.raw_response =
        bytes "HTTP/1.1 200 OK" ++ bytes "\r\n\r\n" ++ bytes "he" ++ [bytes "l", bytes "lo"].flatten :=
  (yield_func_raw_response 10 HTTP_METHOD.METHOD_GET (bytes "h") (bytes "http") ResponseInfo.new
    { ResponseInfo.new with
        raw_response := bytes "HTTP/1.1 200 OK\r\n\r\n", http_version := bytes "HTTP/1.1",
        status_code := 200, status_msg := bytes "OK" }
    [] [] [] (bytes "HTTP/1.1 200 OK") (bytes "he") rfl (by decide) (by decide)).2.2.1
    (by decide) [bytes "l", bytes "lo"] error_code.eof []

/-- C19 fails as stated: after the header block `HTTP/1.1 204 No Content\r\n\r\n`, read together
with the bytes `extra`, the coroutine ends with `raw_response` equal to the header block: the
bytes that came in the same read are not in it. -/
theorem yield_func_raw_response_counterexample :
    yield_func 10 HTTP_METHOD.METHOD_GET (bytes "h") (bytes "http") ResponseInfo.new
        [IoResult.ok [], IoResult.ok [], IoResult.ok [],
          IoResult.ok (bytes "HTTP/1.1 204 No Content\r\n\r\nextra")] =
      some (Completion.finished
        { ResponseInfo.new with
            raw_response := bytes "HTTP/1.1 204 No Content\r\n\r\n",
            http_version := bytes "HTTP/1.1", status_code := 204,
            status_msg := bytes "No Content" } []) ∧
    bytes "HTTP/1.1 204 No Content\r\n\r\n" ≠
      bytes "HTTP/1.1 204 No Content\r\n\r\n" ++ bytes "extra" := by
  decide

/-! ## The chunk decoder on an unfinished stream -/

/-- C23: the chunk decoder reports no completion early on a well-formed stream.  For non-empty
payloads `cs`, either letter case of the size fields, and every prefix `p` of
`hex(|c1|) CRLF c1 CRLF ... hex(|cn|) CRLF cn CRLF "0" CR` (the stream, with the line feed
that ends the zero-size line, is a `std::string`, so shorter than `2 ^ 64` bytes), a call of
`reach_chunk_end` whose accumulated buffer `all_chunk ++ cur_chunk` is `p` returns, within
`|cs| + 1` iterations of its loop, the flag `false` and leaves the buffer `p`. -/
theorem reach_chunk_end_not_early (upper : Bool) (cs : List Str) (p cur_chunk all_chunk : Str)
    (fuel : Nat)
    (hne : ∀ c ∈ cs, c ≠ [])
    (hsize : (chunk_stream upper cs []).length < SIZE_MOD)
    (hp : p <+: encode_chunks upper cs ++ bytes "0\r")
    (hbuf : all_chunk ++ cur_chunk = p)
    (hfuel : cs.length < fuel) :
    ∃ content, reach_chunk_end fuel cur_chunk all_chunk = some (false, p, content) := by
  have hfull : p <+: [] ++ (encode_chunks upper cs ++ (bytes "0\r\n" ++ [])) := by
    obtain ⟨u, hu⟩ := hp
    refine ⟨u ++ [10], ?_⟩
    rw [← List.append_assoc, hu]
    simp [bytes]
  obtain ⟨res, hres, -, hfalse⟩ := loop_wellformed upper cs [] [] p [] fuel hne
    (by simpa [chunk_stream] using hsize) hfull hfuel
  have hflag := hfalse (by simpa using hp)
  refine ⟨res.2, ?_⟩
  unfold reach_chunk_end
  rw [hbuf]
  simp only [List.length_nil] at hres
  rw [hres]
  obtain ⟨b, content⟩ := res
  simp only at hflag
  subst hflag
  rfl

theorem reach_chunk_end_not_early_witness :
    ∃ content, reach_chunk_end 2 (bytes "llo\r\n0\r") (bytes "5\r\nhe")
      = some (false, bytes "5\r\nhello\r\n0\r", content) :=
  reach_chunk_end_not_early false [bytes "hello"] (bytes "5\r\nhello\r\n0\r") (bytes "llo\r\n0\r")
    (bytes "5\r\nhe") 2 (by decide) (by decide) (by decide) (by decide) (by decide)

/-! ## The chunk decoder on a size field that wraps the scan position -/

theorem reach_chunk_end_loop_wrap_step (fuel : Nat) (content : Str) :
    reach_chunk_end_loop (fuel + 1) (bytes "FFFFFFFFFFFFFFEC\r\n") 0 content
      = reach_chunk_end_loop fuel (bytes "FFFFFFFFFFFFFFEC\r\n") 0 (content ++ []) := by
  have hfind : find_str (bytes "FFFFFFFFFFFFFFEC\r\n") (bytes "\r\n") 0 = some 16 := by decide
  have htrim : trim (substr (bytes "FFFFFFFFFFFFFFEC\r\n") 0 (16 - 0)) = bytes "FFFFFFFFFFFFFFEC" := by
    decide
  have hsize : strtoul (bytes "FFFFFFFFFFFFFFEC") 16 = SIZE_MOD - 20 := by decide
  have hsub : substr (bytes "FFFFFFFFFFFFFFEC\r\n") (16 + 2) (SIZE_MOD - 20) = [] := by
    simp [substr, bytes]
  rw [reach_chunk_end_loop]
  simp only [hfind, htrim, hsize, hsub]
  rw [if_neg (by decide), if_neg (by decide)]
  have hpos : (16 + 2 + (SIZE_MOD - 20) + 2) % SIZE_MOD = 0 := by decide
  rw [hpos]

theorem reach_chunk_end_loop_wrap (fuel : Nat) :
    ∀ content : Str, reach_chunk_end_loop fuel (bytes "FFFFFFFFFFFFFFEC\r\n") 0 content = none := by
  induction fuel with
  | zero => intro content; rfl
  | succ fuel ih =>
    intro content
    rw [reach_chunk_end_loop_wrap_step]
    exact ih _

/-- C26, the code at the failing input: on the buffer `FFFFFFFFFFFFFFEC CRLF` the size field is
`2 ^ 64 - 20`, the new scan position `16 + 2 + (2 ^ 64 - 20) + 2` is `0` in `size_t`, the
position the iteration began with, and the content is left as it was; so one iteration leads
to the state it began in, and `reach_chunk_end` returns with no number of iterations. -/
theorem reach_chunk_end_wrap :
    strtoul (bytes "FFFFFFFFFFFFFFEC") 16 = SIZE_MOD - 20 ∧
    (16 + 2 + strtoul (bytes "FFFFFFFFFFFFFFEC") 16 + 2) % SIZE_MOD = 0 ∧
    (∀ (fuel : Nat) (content : Str),
      reach_chunk_end_loop (fuel + 1) (bytes "FFFFFFFFFFFFFFEC\r\n") 0 content
        = reach_chunk_end_loop fuel (bytes "FFFFFFFFFFFFFFEC\r\n") 0 (content ++ [])) ∧
    (∀ fuel : Nat, reach_chunk_end fuel (bytes "FFFFFFFFFFFFFFEC\r\n") [] = none) := by
  refine ⟨by decide, by decide, reach_chunk_end_loop_wrap_step, ?_⟩
  intro fuel
  unfold reach_chunk_end
  rw [List.nil_append, reach_chunk_end_loop_wrap]

/-! ## Chunked framing and an early end of stream -/

theorem read_chunked_eof (fuel : Nat) (reads : List Str) :
    ∀ (r : ResponseInfo) (all : Str) (rest : List IoResult),
      (∀ i, 1 ≤ i → i ≤ reads.length → ∃ content,
        reach_chunk_end fuel (all ++ (reads.take i).flatten) []
          = some (false, all ++ (reads.take i).flatten, content)) →
      read_chunked fuel r all (reads.map IoResult.ok ++ IoResult.fail error_code.eof :: rest)
        = some (Completion.finished r rest) := by
  induction reads with
  | nil =>
    intro r all rest _
    simp [read_chunked]
  | cons d reads ih =>
    intro r all rest h
    simp only [List.map_cons, List.cons_append]
    rw [read_chunked]
    obtain ⟨content, hc⟩ := h 1 (le_refl 1) (by simp)
    have hcall : reach_chunk_end fuel d all = some (false, all ++ d, content) := by
      unfold reach_chunk_end at hc ⊢
      simpa using hc
    rw [hcall]
    apply ih
    intro i h1 h2
    obtain ⟨content1, hc1⟩ := h (i + 1) (by omega) (by simpa using h2)
    refine ⟨content1, ?_⟩
    simpa using hc1

theorem recv_body_chunked_eof (fuel : Nat) (m : HTTP_METHOD) (r : ResponseInfo) (cwh : Str)
    (reads : List Str) (rest : List IoResult)
    (hsel : select_framing r.status_code m r.headers = Framing.chunked)
    (hopen : ∀ i, i ≤ reads.length → ∃ content,
      reach_chunk_end fuel (cwh ++ (reads.take i).flatten) []
        = some (false, cwh ++ (reads.take i).flatten, content)) :
    recv_body fuel m r cwh (reads.map IoResult.ok ++ IoResult.fail error_code.eof :: rest)
      = some (Completion.finished r rest) := by
  unfold recv_body
  rw [hsel]
  simp only
  split_ifs with hc
  · obtain ⟨content, h0⟩ := hopen 0 (Nat.zero_le _)
    simp only [List.take_zero, List.flatten_nil, List.append_nil] at h0
    rw [h0]
    exact read_chunked_eof fuel reads r cwh rest (fun i _ h2 => hopen i h2)
  · have hc' : cwh = [] := by simpa using hc
    subst hc'
    exact read_chunked_eof fuel reads r [] rest (fun i _ h2 => hopen i h2)

/-- C27: chunked framing and an end of stream before the zero-size chunk line.  Let the header
read return `h0 ++ "\r\n\r\n" ++ cwh`, the `\r\n\r\n` shown being the first, let the parser
accept the header block and the block select chunked framing, and let `m_response` begin with
empty `raw_response`, `content` and `error_msg`.  Let the body reads return `reads`, and let
no call of `reach_chunk_end` find a size line of value zero: on the bytes `cwh` and on the
bytes received up to any read it returns `false`.  When the next read reports end of stream,
the coroutine reaches `DoCallback()` with `m_response` as the header parser left it: `error_msg`
is empty, `content` is empty and `raw_response` is the header block `h0 ++ "\r\n\r\n"`, with
neither `cwh` nor any byte of `reads` in it. -/
theorem yield_func_chunked_eof (fuel : Nat) (m : HTTP_METHOD) (qh qs : Str) (r rp : ResponseInfo)
    (a b c h0 cwh : Str) (reads : List Str) (rest : List IoResult)
    (hraw : r.raw_response = []) (hcontent : r.content = []) (herror : r.error_msg = [])
    (hfirst : ¬ bytes "\r\n\r\n" <:+: h0 ++ bytes "\r\n\r")
    (hparse : parse_response_headers fuel (h0 ++ bytes "\r\n\r\n")
      (feed_response r (h0 ++ bytes "\r\n\r\n") []) = some (true, rp))
    (hsel : select_framing rp.status_code m rp.headers = Framing.chunked)
    (hopen : ∀ i, i ≤ reads.length → ∃ content,
      reach_chunk_end fuel (cwh ++ (reads.take i).flatten) []
        = some (false, cwh ++ (reads.take i).flatten, content)) :
    yield_func fuel m qh qs r
        (IoResult.ok a :: IoResult.ok b :: IoResult.ok c ::
          IoResult.ok (h0 ++ bytes "\r\n\r\n" ++ cwh) ::
          (reads.map IoResult.ok ++ IoResult.fail error_code.eof :: rest)) =
      some (Completion.finished rp rest) ∧
    rp.error_msg = [] ∧ rp.content = [] ∧ rp.raw_response = h0 ++ bytes "\r\n\r\n" := by
  have hs : (feed_response r (h0 ++ bytes "\r\n\r\n") []).raw_response = h0 ++ bytes "\r\n\r\n" := by
    simp [feed_response, hraw]
  obtain ⟨k1, k2, k3⟩ := parse_response_headers_keeps _ _ _ _ _ hparse
  refine ⟨?_, ?_, ?_, ?_⟩
  · rw [yield_func_after_headers fuel m qh qs r a b c h0 cwh _ hfirst, hs, hparse]
    exact recv_body_chunked_eof fuel m rp cwh reads rest hsel hopen
  · rw [k3]
    simpa [feed_response] using herror
  · rw [k2]
    simpa [feed_response] using hcontent
  · rw [k1, hs]

theorem yield_func_chunked_eof_witness :
    yield_func 10 HTTP_METHOD.METHOD_GET (bytes "h") (bytes "http") ResponseInfo.new
        (IoResult.ok [] :: IoResult.ok [] :: IoResult.ok [] ::
          IoResult.ok (bytes "HTTP/1.1 200 OK\r\nTransfer-Encoding: chunked" ++ bytes "\r\n\r\n"
            ++ bytes "5\r\nhe") ::
          ([bytes "l", bytes "lo\r\n"].map IoResult.ok ++ IoResult.fail error_code.eof :: [])) =
      some (Completion.finished
        { ResponseInfo.new with
            raw_response := bytes "HTTP/1.1 200 OK\r\nTransfer-Encoding: chunked\r\n\r\n",
            http_version := bytes "HTTP/1.1", status_code := 200, status_msg := bytes "OK",
            headers := [(bytes "transfer-encoding", bytes "chunked")] } []) ∧
    ({ ResponseInfo.new with
        raw_response := bytes "HTTP/1.1 200 OK\r\nTransfer-Encoding: chunked\r\n\r\n",
        http_version := bytes "HTTP/1.1", status_code := 200, status_msg := bytes "OK",
        headers := [(bytes "transfer-encoding", bytes "chunked")] } : ResponseInfo).error_msg = [] ∧
    ({ ResponseInfo.new with
        raw_response := bytes "HTTP/1.1 200 OK\r\nTransfer-Encoding: chunked\r\n\r\n",
        http_version := bytes "HTTP/1.1", status_code := 200, status_msg := bytes "OK",
        headers := [(bytes "transfer-encoding", bytes "chunked")] } : ResponseInfo).content = [] ∧
    ({ ResponseInfo.new with
        raw_response := bytes "HTTP/1.1 200 OK\r\nTransfer-Encoding: chunked\r\n\r\n",
        http_version := bytes "HTTP/1.1", status_code := 200, status_msg := bytes "OK",
        headers := [(bytes "transfer-encoding", bytes "chunked")] } : ResponseInfo).raw_response =
      bytes "HTTP/1.1 200 OK\r\nTransfer-Encoding: chunked" ++ bytes "\r\n\r\n" :=
  yield_func_chunked_eof 10 HTTP_METHOD.METHOD_GET (bytes "h") (bytes "http") ResponseInfo.new
    { ResponseInfo.new with
        raw_response := bytes "HTTP/1.1 200 OK\r\nTransfer-Encoding: chunked\r\n\r\n",
        http_version := bytes "HTTP/1.1", status_code := 200, status_msg := bytes "OK",
        headers := [(bytes "transfer-encoding", bytes "chunked")] }
    [] [] [] (bytes "HTTP/1.1 200 OK\r\nTransfer-Encoding: chunked") (bytes "5\r\nhe")
    [bytes "l", bytes "lo\r\n"] [] rfl rfl rfl (by decide) (by decide) (by decide)
    (by
      intro i hi
      have h3 : i = 0 ∨ i = 1 ∨ i = 2 := by
        simp only [List.length_cons, List.length_nil] at hi
        omega
      rcases h3 with rfl | rfl | rfl
      · exact ⟨bytes "he", by decide⟩
      · exact ⟨bytes "hel", by decide⟩
      · exact ⟨bytes "hello", by decide⟩)

/-! ## Content-length framing with a value that is no number -/

/-- C25, the code at the failing input: the header block
`HTTP/1.1 200 OK CRLF Content-Length: abc CRLF CRLF` is parsed with success and selects
content-length framing; `boost::lexical_cast<size_t>` of the value `abc` raises
`bad_lexical_cast`, which nothing in `yield_func` catches: the coroutine is left by the
exception, with empty `error_msg`, and does not reach its `DoCallback()` call.  The same holds
for the empty value of `Content-Length:`. -/
theorem yield_func_bad_content_length :
    lexical_cast_size_t (bytes "abc") = none ∧
    lexical_cast_size_t [] = none ∧
    select_framing 200 HTTP_METHOD.METHOD_GET [(bytes "content-length", bytes "abc")]
      = Framing.content_length ∧
    yield_func 10 HTTP_METHOD.METHOD_GET (bytes "h") (bytes "http") ResponseInfo.new
        [IoResult.ok [], IoResult.ok [], IoResult.ok [],
          IoResult.ok (bytes "HTTP/1.1 200 OK\r\nContent-Length: abc\r\n\r\n")] =
      some (Completion.thrown
        { ResponseInfo.new with
            raw_response := bytes "HTTP/1.1 200 OK\r\nContent-Length: abc\r\n\r\n",
            http_version := bytes "HTTP/1.1", status_code := 200, status_msg := bytes "OK",
            headers := [(bytes "content-length", bytes "abc")] } []) ∧
    yield_func 10 HTTP_METHOD.METHOD_GET (bytes "h") (bytes "http") ResponseInfo.new
        [IoResult.ok [], IoResult.ok [], IoResult.ok [],
          IoResult.ok (bytes "HTTP/1.1 200 OK\r\nContent-Length:\r\n\r\n")] =
      some (Completion.thrown
        { ResponseInfo.new with
            raw_response := bytes "HTTP/1.1 200 OK\r\nContent-Length:\r\n\r\n",
            http_version := bytes "HTTP/1.1", status_code := 200, status_msg := bytes "OK",
            headers := [(bytes "content-length", [])] } []) := by
  decide

/-! ## The method text of the request line -/

theorem request_start_target (scheme host path query : Str) (m : HTTP_METHOD) :
    ∃ rest : Str, request_start scheme host path query m =
      (match m with
        | HTTP_METHOD.METHOD_POST => bytes "POST "
        | HTTP_METHOD.METHOD_GET => bytes "GET "
        | HTTP_METHOD.METHOD_PUT => bytes "PUT "
        | HTTP_METHOD.METHOD_DELETE => bytes "DELETE "
        | _ => [])
      ++ ((if scheme = [] then [] else scheme ++ bytes "://") ++ host ++ path) ++ rest := by
  have h1 : (if scheme ≠ [] then scheme ++ bytes "://" else []) =
      (if scheme = [] then [] else scheme ++ bytes "://") := by
    by_cases h : scheme = [] <;> simp [h]
  refine ⟨(if query ≠ [] then bytes "?" ++ query else []) ++ bytes " HTTP/1.1" ++ bytes "\r\n", ?_⟩
  unfold request_start
  rw [h1]
  simp only [List.append_assoc]

/-- C24 fails as stated: for `METHOD_HEAD` the `switch` of `build_request_string` takes its
`default` branch and writes no method text; with scheme `http`, host `a.b` and path `/x` the
output is `http://a.b/x HTTP/1.1 CRLF Host: a.b CRLF Content-Length: 0 CRLF CRLF`, which does
not begin with `HEAD `. -/
theorem build_request_string_method_counterexample :
    build_request_string (bytes "http") (bytes "a.b") (bytes "/x") [] HTTP_METHOD.METHOD_HEAD [] []
      = bytes "http://a.b/x HTTP/1.1\r\nHost: a.b\r\nContent-Length: 0\r\n\r\n" ∧
    ¬ bytes "HEAD " <+:
      build_request_string (bytes "http") (bytes "a.b") (bytes "/x") [] HTTP_METHOD.METHOD_HEAD [] []
    := by
  decide

/-- C24, as the code has it.  For the methods POST, GET, PUT and DELETE, the ones that
`makePost`, `makeGet`, `makePut` and `makeDelete` pass, the output of `build_request_string`
begins with the method's name, which is not empty and holds no space, followed by one space
and then the request target: `scheme://` when the scheme is not empty, host and path.  For
`METHOD_HEAD` and `METHOD_UNKNOWN`, which no entry point passes, the `switch` takes its
`default` branch and the output begins with the request target, with no method text and no
space in front of it. -/
theorem build_request_string_method (scheme host path query body : Str) (headers : HeaderMap)
    (m : HTTP_METHOD) :
    ((m = HTTP_METHOD.METHOD_POST ∨ m = HTTP_METHOD.METHOD_GET ∨
        m = HTTP_METHOD.METHOD_PUT ∨ m = HTTP_METHOD.METHOD_DELETE) →
      method_name m ≠ [] ∧ (32 : Nat) ∉ method_name m ∧
      (method_name m ++ bytes " " ++
          ((if scheme = [] then [] else scheme ++ bytes "://") ++ host ++ path)) <+:
        build_request_string scheme host path query m headers body) ∧
    ((m = HTTP_METHOD.METHOD_HEAD ∨ m = HTTP_METHOD.METHOD_UNKNOWN) →
      ((if scheme = [] then [] else scheme ++ bytes "://") ++ host ++ path) <+:
        build_request_string scheme host path query m headers body) := by
  obtain ⟨rest, hrest⟩ := request_start_target scheme host path query m
  rw [build_request_string_parts, hrest]
  constructor
  · intro hm
    rcases hm with rfl | rfl | rfl | rfl
    · refine ⟨by decide, by decide, ?_⟩
      rw [show method_name HTTP_METHOD.METHOD_POST ++ bytes " " = bytes "POST " by decide]
      exact (List.prefix_append _ rest).trans (List.prefix_append _ _)
    · refine ⟨by decide, by decide, ?_⟩
      rw [show method_name HTTP_METHOD.METHOD_GET ++ bytes " " = bytes "GET " by decide]
      exact (List.prefix_append _ rest).trans (List.prefix_append _ _)
    · refine ⟨by decide, by decide, ?_⟩
      rw [show method_name HTTP_METHOD.METHOD_PUT ++ bytes " " = bytes "PUT " by decide]
      exact (List.prefix_append _ rest).trans (List.prefix_append _ _)
    · refine ⟨by decide, by decide, ?_⟩
      rw [show method_name HTTP_METHOD.METHOD_DELETE ++ bytes " " = bytes "DELETE " by decide]
      exact (List.prefix_append _ rest).trans (List.prefix_append _ _)
  · intro hm
    rcases hm with rfl | rfl <;>
    · simp only [List.nil_append]
      exact (List.prefix_append _ rest).trans (List.prefix_append _ _)

theorem build_request_string_method_witness :
    (method_name HTTP_METHOD.METHOD_DELETE ≠ [] ∧ (32 : Nat) ∉ method_name HTTP_METHOD.METHOD_DELETE ∧
      (method_name HTTP_METHOD.METHOD_DELETE ++ bytes " " ++
          ((if bytes "http" = [] then [] else bytes "http" ++ bytes "://") ++ bytes "a.b"
            ++ bytes "/x")) <+:
        build_request_string (bytes "http") (bytes "a.b") (bytes "/x") (bytes "q=1")
          HTTP_METHOD.METHOD_DELETE [] []) ∧
    ((if bytes "http" = [] then [] else bytes "http" ++ bytes "://") ++ bytes "a.b" ++ bytes "/x") <+:
      build_request_string (bytes "http") (bytes "a.b") (bytes "/x") (bytes "q=1")
        HTTP_METHOD.METHOD_HEAD [] [] :=
  ⟨(build_request_string_method (bytes "http") (bytes "a.b") (bytes "/x") (bytes "q=1") [] []
      HTTP_METHOD.METHOD_DELETE).1 (Or.inr (Or.inr (Or.inr rfl))),
   (build_request_string_method (bytes "http") (bytes "a.b") (bytes "/x") (bytes "q=1") [] []
      HTTP_METHOD.METHOD_HEAD).2 (Or.inl rfl)⟩

/-! ## UrlParser: the port and the resolution service -/

theorem Parse_port (url : Str) :
    (UrlParser.new.Parse url).port =
      match find_char (UrlParser.new.Parse url).host_all 58 0 with
      | some port_pos =>
        strtoul (substr_from (UrlParser.new.Parse url).host_all (port_pos + 1)) 10 % 65536
      | none => 0 := by
  unfold UrlParser.Parse
  dsimp only
  split <;> rfl

theorem Parse_normalized_service (url : Str) :
    (UrlParser.new.Parse url).normalized_service =
      if (UrlParser.new.Parse url).port ≠ 0 then to_decimal (UrlParser.new.Parse url).port
      else (UrlParser.new.Parse url).service := rfl

theorem strtoul_no_digit (text : Str)
    (h : ∀ (c : Nat) (rest : Str),
      (strip_sign (text.dropWhile isspace)).2 = c :: rest → c < 48 ∨ 57 < c) :
    strtoul text 10 = 0 := by
  have htake : (strip_0x 10 (strip_sign (text.dropWhile isspace)).2).takeWhile (is_digit 10) = [] := by
    have h0 : strip_0x 10 (strip_sign (text.dropWhile isspace)).2
        = (strip_sign (text.dropWhile isspace)).2 := by
      simp [strip_0x]
    rw [h0]
    cases hs : (strip_sign (text.dropWhile isspace)).2 with
    | nil => rfl
    | cons c rest =>
      have hc := h c rest hs
      have hd : is_digit 10 c = false := by
        unfold is_digit digit_value
        split_ifs <;> simp <;> omega
      simp [List.takeWhile, hd]
  unfold strtoul
  simp only [htake]
  simp [digits_value, ULONG_MAX, SIZE_MOD]

/-- C22 fails as stated: in `http://h: 80/` the text after the first `:` of `host_all` is
` 80`, which begins with a space and not with a decimal number; `strtoul` skips the space, so
`port` is 80 and `normalized_service` is `80`, not the scheme.  In `http://h:-1/` the text is
`-1`; `strtoul` negates modulo `2 ^ 64`, the cast to `unsigned short` leaves 65535, and
`normalized_service` is `65535`. -/
theorem UrlParser_normalized_service_counterexample :
    (UrlParser.new.Parse (bytes "http://h: 80/")).host_all = bytes "h: 80" ∧
    (UrlParser.new.Parse (bytes "http://h: 80/")).port = 80 ∧
    (UrlParser.new.Parse (bytes "http://h: 80/")).normalized_service = bytes "80" ∧
    (UrlParser.new.Parse (bytes "http://h: 80/")).service = bytes "http" ∧
    (UrlParser.new.Parse (bytes "http://h:-1/")).host_all = bytes "h:-1" ∧
    (UrlParser.new.Parse (bytes "http://h:-1/")).port = 65535 ∧
    (UrlParser.new.Parse (bytes "http://h:-1/")).normalized_service = bytes "65535" := by
  decide

/-- C22, as the code has it.  After `Parse` on a freshly constructed `UrlParser`, `port` is
below 65536, `normalized_service` is the decimal text of `port` when `port > 0` and is
`service` when `port = 0`.  When `host_all` has no `:`, or when the text after its first `:`,
with leading white space and one optional sign skipped, does not begin with a decimal digit,
`port` is 0 and `normalized_service` is `service`. -/
theorem UrlParser_normalized_service (url : Str) :
    (UrlParser.new.Parse url).port < 65536 ∧
    (0 < (UrlParser.new.Parse url).port →
      (UrlParser.new.Parse url).normalized_service = to_decimal (UrlParser.new.Parse url).port) ∧
    ((UrlParser.new.Parse url).port = 0 →
      (UrlParser.new.Parse url).normalized_service = (UrlParser.new.Parse url).service) ∧
    ((58 : Nat) ∉ (UrlParser.new.Parse url).host_all →
      (UrlParser.new.Parse url).port = 0 ∧
      (UrlParser.new.Parse url).normalized_service = (UrlParser.new.Parse url).service) ∧
    (∀ pre text : Str, (UrlParser.new.Parse url).host_all = pre ++ 58 :: text → (58 : Nat) ∉ pre →
      (∀ (c : Nat) (rest : Str),
        (strip_sign (text.dropWhile isspace)).2 = c :: rest → c < 48 ∨ 57 < c) →
      (UrlParser.new.Parse url).port = 0 ∧
      (UrlParser.new.Parse url).normalized_service = (UrlParser.new.Parse url).service) := by
  have hzero : (UrlParser.new.Parse url).port = 0 →
      (UrlParser.new.Parse url).normalized_service = (UrlParser.new.Parse url).service := by
    intro h
    rw [Parse_normalized_service, if_neg (by simp [h])]
  refine ⟨?_, ?_, hzero, ?_, ?_⟩
  · rw [Parse_port]
    split
    · exact Nat.mod_lt _ (by decide)
    · decide
  · intro h
    rw [Parse_normalized_service, if_pos (by omega)]
  · intro h
    have hp : (UrlParser.new.Parse url).port = 0 := by
      rw [Parse_port, find_char_absent _ _ h]
    exact ⟨hp, hzero hp⟩
  · intro pre text hall hpre htext
    have hp : (UrlParser.new.Parse url).port = 0 := by
      rw [Parse_port, hall, find_char_first pre 58 text hpre]
      have hsub : substr_from (pre ++ 58 :: text) (pre.length + 1) = text := by
        unfold substr_from
        rw [show pre ++ 58 :: text = (pre ++ [58]) ++ text by simp]
        exact List.drop_left' (by simp)
      simp only [hsub, strtoul_no_digit text htext]
    exact ⟨hp, hzero hp⟩

theorem UrlParser_normalized_service_witness :
    ((UrlParser.new.Parse (bytes "https://a.b/x")).port = 0 ∧
      (UrlParser.new.Parse (bytes "https://a.b/x")).normalized_service =
        (UrlParser.new.Parse (bytes "https://a.b/x")).service) ∧
    ((UrlParser.new.Parse (bytes "https://a.b: +x1/x")).port = 0 ∧
      (UrlParser.new.Parse (bytes "https://a.b: +x1/x")).normalized_service =
        (UrlParser.new.Parse (bytes "https://a.b: +x1/x")).service) ∧
    (UrlParser.new.Parse (bytes "https://a.b:8080/x")).normalized_service =
      to_decimal (UrlParser.new.Parse (bytes "https://a.b:8080/x")).port :=
  ⟨(UrlParser_normalized_service (bytes "https://a.b/x")).2.2.2.1 (by decide),
   (UrlParser_normalized_service (bytes "https://a.b: +x1/x")).2.2.2.2 (bytes "a.b") (bytes " +x1")
     (by decide) (by decide) (by
       intro c rest h
       have hc : c = 120 := by
         have h1 : (strip_sign ((bytes " +x1").dropWhile isspace)).2 = bytes "x1" := by decide
         rw [h1] at h
         exact (List.cons.inj h).1.symm
       omega),
   (UrlParser_normalized_service (bytes "https://a.b:8080/x")).2.1 (by decide)⟩

/-! ## Key-value strings: packing with a pair separator other than the ampersand -/

/-- C21, the code at the failing input: `build_kv_string` erases the last `&` of the packed
text whatever `pair_sep` is.  For the map with the one entry `a ↦ 1`, `kv_sep` `&` and
`pair_sep` `;`, the packed text `a&1;` loses its `&` and becomes `a1;`, and `parse_kv_string`
gives the empty map.  For the map with the one entry `a&b ↦ 1`, `kv_sep` `=` and `pair_sep`
`;`, the packed text `a&b=1;` becomes `ab=1;` and `parse_kv_string` gives `ab ↦ 1`.  With the
default separators the first map is packed as `a=1` and unpacked as itself. -/
theorem parse_build_kv_string_ampersand :
    build_kv_string [(bytes "a", bytes "1")] (bytes "&") (bytes ";") = bytes "a1;" ∧
    parse_kv_string (build_kv_string [(bytes "a", bytes "1")] (bytes "&") (bytes ";"))
      (bytes "&") (bytes ";") = [] ∧
    build_kv_string [(bytes "a&b", bytes "1")] (bytes "=") (bytes ";") = bytes "ab=1;" ∧
    parse_kv_string (build_kv_string [(bytes "a&b", bytes "1")] (bytes "=") (bytes ";"))
      (bytes "=") (bytes ";") = [(bytes "ab", bytes "1")] ∧
    build_kv_string [(bytes "a", bytes "1")] (bytes "=") (bytes "&") = bytes "a=1" ∧
    parse_kv_string (build_kv_string [(bytes "a", bytes "1")] (bytes "=") (bytes "&"))
      (bytes "=") (bytes "&") = [(bytes "a", bytes "1")] := by
  decide

theorem split_any_token (seps t : Str) (h : ∀ c ∈ t, seps.contains c = false) :
    ∀ cur : Str,
      split_any seps t cur = [cur.reverse ++ t] ∧
      ∀ (c : Nat) (rest : Str), seps.contains c = true →
        split_any seps (t ++ c :: rest) cur = (cur.reverse ++ t) :: split_any seps rest [] := by
  induction t with
  | nil =>
    intro cur
    refine ⟨by simp [split_any], ?_⟩
    intro c rest hc
    rw [List.nil_append, split_any, if_pos hc]
    simp
  | cons x t ih =>
    intro cur
    have hx : seps.contains x = false := h x (List.mem_cons_self _ _)
    obtain ⟨h1, h2⟩ := ih (fun c hc => h c (List.mem_cons_of_mem _ hc)) (x :: cur)
    constructor
    · rw [split_any, if_neg (Bool.eq_false_iff.mp hx), h1]
      simp
    · intro c rest hc
      rw [List.cons_append, split_any, if_neg (Bool.eq_false_iff.mp hx), h2 c rest hc]
      simp

theorem erase_last_trailing (x : Str) : erase_last (x ++ bytes "&") (bytes "&") = x := by
  have hfind : find_str (x ++ bytes "&").reverse (bytes "&").reverse 0 = some 0 := by
    simp [find_str, find_from, bytes]
  unfold erase_last
  rw [hfind]
  simp [bytes]

theorem split_any_pairs (a : Nat) (es : List (Str × Str)) (tail : Str)
    (hk : ∀ e ∈ es, (38 : Nat) ∉ e.1 ∧ (38 : Nat) ∉ e.2) (ha : a ≠ 38) :
    split_any [38] ((es.map (fun kv => kv.1 ++ [a] ++ kv.2 ++ [38])).flatten ++ tail) []
      = es.map (fun kv => kv.1 ++ [a] ++ kv.2) ++ split_any [38] tail [] := by
  induction es with
  | nil => simp
  | cons e es ih =>
    have hno : ∀ c ∈ e.1 ++ [a] ++ e.2, [(38 : Nat)].contains c = false := by
      intro c hc
      have he := hk e (List.mem_cons_self _ _)
      simp only [List.mem_append, List.mem_singleton] at hc
      have hne : c ≠ 38 := by
        rcases hc with (hc | hc) | hc
        · intro h; exact he.1 (h ▸ hc)
        · rw [hc]; exact ha
        · intro h; exact he.2 (h ▸ hc)
      simp [hne]
    have hsplit := (split_any_token [38] (e.1 ++ [a] ++ e.2) hno []).2 38
      ((es.map (fun kv => kv.1 ++ [a] ++ kv.2 ++ [38])).flatten ++ tail) (by simp)
    have hshape : ((e :: es).map (fun kv => kv.1 ++ [a] ++ kv.2 ++ [38])).flatten ++ tail
        = (e.1 ++ [a] ++ e.2)
            ++ 38 :: ((es.map (fun kv => kv.1 ++ [a] ++ kv.2 ++ [38])).flatten ++ tail) := by
      simp
    rw [hshape, hsplit, ih (fun e he => hk e (List.mem_cons_of_mem _ he))]
    simp

theorem split_any_pair (a : Nat) (k v : Str) (hk : a ∉ k) (hv : a ∉ v) :
    split_any [a] (k ++ [a] ++ v) [] = [k, v] := by
  have h1 : ∀ c ∈ k, [a].contains c = false := by
    intro c hc
    have : c ≠ a := fun h => hk (h ▸ hc)
    simp [this]
  have h2 : ∀ c ∈ v, [a].contains c = false := by
    intro c hc
    have : c ≠ a := fun h => hv (h ▸ hc)
    simp [this]
  have := (split_any_token [a] k h1 []).2 a v (by simp)
  rw [show k ++ [a] ++ v = k ++ a :: v by simp, this, (split_any_token [a] v h2 []).1]
  simp

theorem parse_pairs_foldl (a : Nat) (es : List (Str × Str))
    (hk : ∀ e ∈ es, a ∉ e.1 ∧ a ∉ e.2) :
    ∀ acc : HeaderMap,
      (es.map (fun kv => kv.1 ++ [a] ++ kv.2)).foldl
        (fun kv_param pair =>
          if pair = [] then kv_param
          else
            match split_any [a] pair [] with
            | [k, v] => HeaderMap.assign kv_param k v
            | _ => kv_param)
        acc
      = es.foldl (fun m kv => HeaderMap.assign m kv.1 kv.2) acc := by
  induction es with
  | nil => intro acc; rfl
  | cons e es ih =>
    intro acc
    have he := hk e (List.mem_cons_self _ _)
    simp only [List.map_cons, List.foldl_cons]
    rw [if_neg (by simp), split_any_pair a e.1 e.2 he.1 he.2]
    exact ih (fun e he => hk e (List.mem_cons_of_mem _ he)) _

/-- With the pair separator `&` unpacking undoes packing: for a map (its entries listed by
ascending key), a key-value separator `a` other than `&`, and no `a` and no `&` in any key or
value, `parse_kv_string` gives back the map. -/
theorem parse_build_kv_string_default_pair_sep (m : HeaderMap) (a : Nat)
    (hsorted : List.Pairwise (fun x y : Str × Str => str_lt x.1 y.1 = true) m)
    (ha : a ≠ 38)
    (hk : ∀ e ∈ m, a ∉ e.1 ∧ a ∉ e.2 ∧ (38 : Nat) ∉ e.1 ∧ (38 : Nat) ∉ e.2) :
    parse_kv_string (build_kv_string m [a] (bytes "&")) [a] (bytes "&") = m := by
  have hfold : ∀ es : List (Str × Str), (∀ e ∈ es, e ∈ m) →
      (es.map (fun kv => kv.1 ++ [a] ++ kv.2)).foldl
        (fun kv_param pair =>
          if pair = [] then kv_param
          else
            match split_any [a] pair [] with
            | [k, v] => HeaderMap.assign kv_param k v
            | _ => kv_param)
        []
      = HeaderMap.of_list es := by
    intro es hes
    exact parse_pairs_foldl a es (fun e he => ⟨(hk e (hes e he)).1, (hk e (hes e he)).2.1⟩) []
  induction m using List.reverseRecOn with
  | nil =>
    simp [parse_kv_string, build_kv_string, erase_last, find_str, find_from, bytes, split_any]
  | append_singleton es e _ =>
    have hbuild : build_kv_string (es ++ [e]) [a] (bytes "&")
        = (es.map (fun kv => kv.1 ++ [a] ++ kv.2 ++ [38])).flatten ++ (e.1 ++ [a] ++ e.2) := by
      unfold build_kv_string
      have : ((es ++ [e]).map (fun kv => kv.1 ++ [a] ++ kv.2 ++ bytes "&")).flatten
          = ((es.map (fun kv => kv.1 ++ [a] ++ kv.2 ++ [38])).flatten ++ (e.1 ++ [a] ++ e.2))
            ++ bytes "&" := by
        simp [bytes]
      rw [this, erase_last_trailing]
    have hlast : ∀ c ∈ e.1 ++ [a] ++ e.2, [(38 : Nat)].contains c = false := by
      intro c hc
      have he := hk e (by simp)
      simp only [List.mem_append, List.mem_singleton] at hc
      have hne : c ≠ 38 := by
        rcases hc with (hc | hc) | hc
        · intro h; exact he.2.2.1 (h ▸ hc)
        · rw [hc]; exact ha
        · intro h; exact he.2.2.2 (h ▸ hc)
      simp [hne]
    have htokens : split_any (bytes "&") (build_kv_string (es ++ [e]) [a] (bytes "&")) []
        = (es ++ [e]).map (fun kv => kv.1 ++ [a] ++ kv.2) := by
      rw [hbuild]
      have h38 : bytes "&" = [38] := by decide
      rw [h38, split_any_pairs a es _
        (fun x hx => ⟨(hk x (by simp [hx])).2.2.1, (hk x (by simp [hx])).2.2.2⟩) ha,
        (split_any_token [38] _ hlast []).1]
      simp
    unfold parse_kv_string
    rw [htokens, hfold (es ++ [e]) (fun _ h => h), of_list_of_sorted _ hsorted]

end HttpClient
